import Mathlib

/-!
A verification development for the C JSON library (`src/json.c`, `include/json.h`).

The embedding follows the C source function by function.

* A `json_t *` is a value of `json_ptr`: either `NULL` or a node holding the
  fields of `struct json`.  The `prev` field is written by the parser but never
  read by any function, so it is left out.
* A C string (`const char *`) is a `List Char`, one `Char` per byte before the
  terminating NUL; a possibly-null `char *` is an `Option (List Char)`.
* The parsing context `parse_context_t` (`json`, `pos`, `length`) is
  represented by the unread part of the text, `json[pos .. length)`; reading
  `json[pos]` at `pos = length` yields the terminating NUL.
* `malloc` is assumed to succeed.
* `double` values are modelled by exact rationals (see `atof`).
* `json_print` is declared in `include/json.h` but defined in no source file;
  its compact output is modelled from the specification (see `json_print`).
-/

namespace CJson

/-! ## `include/json.h` -/

def JSON_INVALID : Int := 0
def JSON_FALSE : Int := 1
def JSON_TRUE : Int := 2
def JSON_NULL : Int := 4
def JSON_NUMBER : Int := 8
def JSON_STRING : Int := 16
def JSON_ARRAY : Int := 32
def JSON_OBJECT : Int := 64

/-- A `json_t *`: the null pointer, or a node with the fields `next`, `child`,
`type`, `valuestring`, `valuenumber` and `string` of `struct json`. -/
inductive json_ptr where
  | NULL : json_ptr
  | node (next : json_ptr) (child : json_ptr) (type : Int)
      (valuestring : Option (List Char)) (valuenumber : Rat)
      (string : Option (List Char)) : json_ptr
deriving DecidableEq, Repr

open json_ptr

/-- The node returned by `json_new`: every field zeroed by `memset`. -/
def json_new : json_ptr := node NULL NULL 0 none 0 none

/-- Assignment `item->type = t`. -/
def set_type : json_ptr → Int → json_ptr
  | NULL, _ => NULL
  | node nx ch _ vs vn s, t => node nx ch t vs vn s

/-- Assignment `item->valuestring = v`. -/
def set_valuestring : json_ptr → Option (List Char) → json_ptr
  | NULL, _ => NULL
  | node nx ch t _ vn s, v => node nx ch t v vn s

/-- Assignment `item->valuenumber = x`. -/
def set_valuenumber : json_ptr → Rat → json_ptr
  | NULL, _ => NULL
  | node nx ch t vs _ s, x => node nx ch t vs x s

/-- Assignment `item->string = k`. -/
def set_string : json_ptr → Option (List Char) → json_ptr
  | NULL, _ => NULL
  | node nx ch t vs vn _, k => node nx ch t vs vn k

/-- Assignment `item->child = c`. -/
def set_child : json_ptr → json_ptr → json_ptr
  | NULL, _ => NULL
  | node nx _ t vs vn s, c => node nx c t vs vn s

/-- Field read `item->child`. -/
def get_child : json_ptr → json_ptr
  | NULL => NULL
  | node _ ch _ _ _ _ => ch

/-- Field read `item->next`. -/
def get_next : json_ptr → json_ptr
  | NULL => NULL
  | node nx _ _ _ _ _ => nx

/-- Field read `item->type` (`JSON_INVALID` stands in for a null handle). -/
def get_type : json_ptr → Int
  | NULL => JSON_INVALID
  | node _ _ t _ _ _ => t

/-- Field read `item->valuestring`. -/
def get_valuestring : json_ptr → Option (List Char)
  | NULL => none
  | node _ _ _ vs _ _ => vs

/-- Field read `item->valuenumber`. -/
def get_valuenumber : json_ptr → Rat
  | NULL => 0
  | node _ _ _ _ vn _ => vn

/-- Field read `item->string`, the member name. -/
def get_string : json_ptr → Option (List Char)
  | NULL => none
  | node _ _ _ _ _ s => s

/-- The effect of `current_child->next = value_item` in `parse_object`, where
`current_child` is the last node of the chain starting at `head`: the chain
with `item` linked after its last node (and `item` itself for an empty chain,
the `object->child = value_item` branch). -/
def append_sibling : json_ptr → json_ptr → json_ptr
  | NULL, item => item
  | node nx ch t vs vn s, item => node (append_sibling nx item) ch t vs vn s

/-- The nodes reached from `p` by following `next`, in order.  Each entry is
the node itself, still carrying its own `next` field. -/
def siblings : json_ptr → List json_ptr
  | NULL => []
  | node nx ch t vs vn s => node nx ch t vs vn s :: siblings nx

/-- The chain obtained by linking nodes one after another through `next`. -/
def link : List json_ptr → json_ptr
  | [] => NULL
  | p :: ps => append_sibling p (link ps)

/-! ## `<ctype.h>` and `<stdlib.h>` in the "C" locale -/

/-- The C function `isspace`: space, `\t`, `\n`, `\v`, `\f`, `\r`. -/
def isspace (c : Char) : Bool :=
  c.toNat = 32 || (9 ≤ c.toNat && c.toNat ≤ 13)

/-- The C function `isdigit`: `'0'` to `'9'`. -/
def isdigit (c : Char) : Bool :=
  48 ≤ c.toNat && c.toNat ≤ 57

/-- The decimal number read from a digit sequence, most significant first. -/
def digits_value (ds : List Char) : Nat :=
  ds.foldl (fun acc c => 10 * acc + (c.toNat - 48)) 0

/-- The C function `atof` on the lexemes `parse_number` hands to it: an optional
`'-'`, digits, and optionally `'.'` and more digits.  The result is the exact
decimal value of that lexeme.  C returns the nearest `double` instead: the two
agree where the exact value is a `double`, in particular for an integer of
magnitude below 2^53, and differ beyond (2^53 + 1 is stored as 2^53, and a
long run of digits overflows to infinity).  Rounding is not modelled, so the
theorems that give the value of an integer lexeme assume that bound. -/
def atof (s : List Char) : Rat :=
  let neg : Bool := s.headD '\x00' = '-'
  let s1 := if neg then s.tail else s
  let ip := s1.takeWhile isdigit
  let r := s1.dropWhile isdigit
  let fp := if r.headD '\x00' = '.' then r.tail.takeWhile isdigit else []
  let mant : Int := (digits_value (ip ++ fp) : Nat)
  mkRat (if neg then -mant else mant) (10 ^ fp.length)

/-- The test `strncmp(&ctx->json[ctx->pos], lit, n) == 0` with `n` the length
of the literal `lit`: the next `n` characters of the text are those of `lit`
(a shorter text differs at its terminating NUL). -/
def strncmp_eq (ctx : List Char) (lit : List Char) : Bool :=
  ctx.take lit.length == lit

/-! ## `src/json.c`: the parser -/

/-- The loop of `skip_whitespace`: advance while `isspace(json[pos])`. -/
def skip_whitespace (ctx : List Char) : List Char :=
  ctx.dropWhile isspace

/-- The character returned by `peek_char`, and the context it leaves. -/
def peek_char (ctx : List Char) : Char × List Char :=
  let ctx := skip_whitespace ctx
  (ctx.headD '\x00', ctx)

/-- The character returned by `next_char`, and the context it leaves. -/
def next_char (ctx : List Char) : Char × List Char :=
  match skip_whitespace ctx with
  | [] => ('\x00', [])
  | c :: rest => (c, rest)

/-- The string parser `parse_string`: result pointer and context left. -/
def parse_string (ctx : List Char) : json_ptr × List Char :=
  match next_char ctx with
  | (c, ctx) =>
    if c ≠ '"' then (NULL, ctx) else
    let start := ctx
    let ctx := ctx.dropWhile (fun ch => ch != '"')
    match ctx with
    | [] => (NULL, ctx)
    | _ :: after =>
      let item := set_type json_new JSON_STRING
      let len := start.length - ctx.length
      let item := set_valuestring item (some (start.take len))
      (item, after)

/-- The number parser `parse_number`: result pointer and context left. -/
def parse_number (ctx : List Char) : json_ptr × List Char :=
  let start := ctx
  let ctx := if ctx.headD '\x00' = '-' then ctx.tail else ctx
  if !isdigit (ctx.headD '\x00') then (NULL, ctx) else
  let ctx := ctx.dropWhile isdigit
  let ctx := if ctx.headD '\x00' = '.' then ctx.tail.dropWhile isdigit else ctx
  let item := set_type json_new JSON_NUMBER
  let len := start.length - ctx.length
  let number_str := start.take len
  (set_valuenumber item (atof number_str), ctx)

/-- The literal parser `parse_literal`: result pointer and context left. -/
def parse_literal (ctx : List Char) : json_ptr × List Char :=
  if strncmp_eq ctx ['t', 'r', 'u', 'e'] then
    (set_type json_new JSON_TRUE, ctx.drop 4)
  else if strncmp_eq ctx ['f', 'a', 'l', 's', 'e'] then
    (set_type json_new JSON_FALSE, ctx.drop 5)
  else if strncmp_eq ctx ['n', 'u', 'l', 'l'] then
    (set_type json_new JSON_NULL, ctx.drop 4)
  else (NULL, ctx)

/-- The array parser `parse_array`: a stub that returns `NULL` and leaves the
context untouched. -/
def parse_array (ctx : List Char) : json_ptr × List Char :=
  (NULL, ctx)

/-- The `while (1)` loop of `parse_object`, one member per iteration.
`value` is the parser called for member values (`parse_value`), `object` the
node under construction.  The counter bounds the number of iterations; `none`
means the counter ran out, never a parse failure. -/
def parse_object_loop (value : List Char → Option (json_ptr × List Char)) :
    Nat → List Char → json_ptr → Option (json_ptr × List Char)
  | 0, _, _ => none
  | fuel + 1, ctx, object =>
    match parse_string ctx with
    | (NULL, ctx) => some (NULL, ctx)
    | (key_item, ctx) =>
      let key := get_valuestring key_item
      match next_char ctx with
      | (c, ctx) =>
        if c ≠ ':' then some (NULL, ctx) else
        match value ctx with
        | none => none
        | some (NULL, ctx) => some (NULL, ctx)
        | some (value_item, ctx) =>
          let value_item := set_string value_item key
          let object := set_child object (append_sibling (get_child object) value_item)
          match peek_char ctx with
          | (next, ctx) =>
            if next = '}' then some (object, (next_char ctx).2)
            else if next = ',' then parse_object_loop value fuel (next_char ctx).2 object
            else some (NULL, ctx)

/-- The object parser `parse_object`, with `value` the parser called for
member values and `fuel` the bound handed to the member loop. -/
def parse_object (value : List Char → Option (json_ptr × List Char))
    (fuel : Nat) (ctx : List Char) : Option (json_ptr × List Char) :=
  match next_char ctx with
  | (c, ctx) =>
    if c ≠ '{' then some (NULL, ctx) else
    let object := set_type json_new JSON_OBJECT
    match peek_char ctx with
    | (c, ctx) =>
      if c = '}' then some (object, (next_char ctx).2)
      else parse_object_loop value fuel ctx object

/-- The dispatcher `parse_value`.  The first argument bounds the depth of the
recursion `parse_value → parse_object → parse_value` and the iterations of each
member loop; `none` means that bound was reached. -/
def parse_value : Nat → List Char → Option (json_ptr × List Char)
  | 0, _ => none
  | fuel + 1, ctx =>
    match peek_char ctx with
    | (c, ctx) =>
      if c = '"' then some (parse_string ctx)
      else if c = '{' then parse_object (parse_value fuel) fuel ctx
      else if c = '[' then some (parse_array ctx)
      else if c = 't' ∨ c = 'f' ∨ c = 'n' then some (parse_literal ctx)
      else if c = '-' ∨ isdigit c then some (parse_number ctx)
      else some (NULL, ctx)

/-- The entry point `json_parse`.  A null `text` gives `NULL`; otherwise
`parse_value` runs on the whole text (`pos = 0`, `length = strlen(text)`), with
a bound one above the text length, which it never reaches (`json_parse_total`
below). -/
def json_parse (text : Option (List Char)) : json_ptr :=
  match text with
  | none => NULL
  | some t =>
    match parse_value (t.length + 1) t with
    | some (p, _) => p
    | none => NULL

/-! ## `src/json.c`: the accessors -/

/-- The `while (child)` loop of `json_object_get`. -/
def object_get_loop : json_ptr → List Char → json_ptr
  | NULL, _ => NULL
  | node nx ch t vs vn s, key =>
    if s = some key then node nx ch t vs vn s
    else object_get_loop nx key

/-- The accessor `json_object_get`. -/
def json_object_get (object : json_ptr) (key : Option (List Char)) : json_ptr :=
  match object, key with
  | NULL, _ => NULL
  | _, none => NULL
  | node _ ch t _ _ _, some k =>
    if t ≠ JSON_OBJECT then NULL else object_get_loop ch k

/-- The `for` loop of `json_array_get`: `i < index && child`. -/
def array_get_loop : json_ptr → Int → Int → json_ptr
  | NULL, _, _ => NULL
  | node nx ch t vs vn s, i, index =>
    if i < index then array_get_loop nx (i + 1) index
    else node nx ch t vs vn s

/-- The accessor `json_array_get`. -/
def json_array_get (array : json_ptr) (index : Int) : json_ptr :=
  match array with
  | NULL => NULL
  | node _ ch t _ _ _ =>
    if index < 0 ∨ t ≠ JSON_ARRAY then NULL else array_get_loop ch 0 index

/-- A 32-bit `int` after an arithmetic step: two's-complement wrap-around. -/
def int_wrap (n : Int) : Int :=
  (n + 2147483648) % 4294967296 - 2147483648

/-- The `while (child)` loop of `json_array_size`, `count++` per node. -/
def array_size_loop : json_ptr → Int → Int
  | NULL, count => count
  | node nx _ _ _ _ _, count => array_size_loop nx (int_wrap (count + 1))

/-- The accessor `json_array_size`. -/
def json_array_size (array : json_ptr) : Int :=
  match array with
  | NULL => 0
  | node _ ch t _ _ _ =>
    if t ≠ JSON_ARRAY then 0 else array_size_loop ch 0

/-! ## `src/json.c`: the type predicates

Each predicate returns the `int` value of a C condition, 1 or 0; it is
modelled by the truth value of that condition. -/

/-- The predicate `json_is_false`: `json && json->type == JSON_FALSE`. -/
def json_is_false (json : json_ptr) : Bool :=
  match json with
  | NULL => false
  | node _ _ t _ _ _ => decide (t = JSON_FALSE)

/-- The predicate `json_is_true`: `json && json->type == JSON_TRUE`. -/
def json_is_true (json : json_ptr) : Bool :=
  match json with
  | NULL => false
  | node _ _ t _ _ _ => decide (t = JSON_TRUE)

/-- The predicate `json_is_bool`:
`json && (json->type == JSON_TRUE || json->type == JSON_FALSE)`. -/
def json_is_bool (json : json_ptr) : Bool :=
  match json with
  | NULL => false
  | node _ _ t _ _ _ => decide (t = JSON_TRUE) || decide (t = JSON_FALSE)

/-- The predicate `json_is_null`: `json && json->type == JSON_NULL`. -/
def json_is_null (json : json_ptr) : Bool :=
  match json with
  | NULL => false
  | node _ _ t _ _ _ => decide (t = JSON_NULL)

/-- The predicate `json_is_number`: `json && json->type == JSON_NUMBER`. -/
def json_is_number (json : json_ptr) : Bool :=
  match json with
  | NULL => false
  | node _ _ t _ _ _ => decide (t = JSON_NUMBER)

/-- The predicate `json_is_string`: `json && json->type == JSON_STRING`. -/
def json_is_string (json : json_ptr) : Bool :=
  match json with
  | NULL => false
  | node _ _ t _ _ _ => decide (t = JSON_STRING)

/-- The predicate `json_is_array`: `json && json->type == JSON_ARRAY`. -/
def json_is_array (json : json_ptr) : Bool :=
  match json with
  | NULL => false
  | node _ _ t _ _ _ => decide (t = JSON_ARRAY)

/-- The predicate `json_is_object`: `json && json->type == JSON_OBJECT`. -/
def json_is_object (json : json_ptr) : Bool :=
  match json with
  | NULL => false
  | node _ _ t _ _ _ => decide (t = JSON_OBJECT)

/-! ## Auxiliary definitions for the proofs -/

/-- One iteration of the member loop, after the key, the colon and the value
have been read. -/
def loop_continue (value : List Char → Option (json_ptr × List Char)) (fuel : Nat)
    (object : json_ptr) (key : Option (List Char)) (item : json_ptr) (ctx : List Char) :
    Option (json_ptr × List Char) :=
  if (peek_char ctx).1 = '}' then
    some (set_child object (append_sibling (get_child object) (set_string item key)),
      (next_char (peek_char ctx).2).2)
  else if (peek_char ctx).1 = ',' then
    parse_object_loop value fuel (next_char (peek_char ctx).2).2
      (set_child object (append_sibling (get_child object) (set_string item key)))
  else some (NULL, (peek_char ctx).2)

/-! ## Reference definitions in the words of the specification -/

/-- Spec wording of `object_get`: a linear scan of the members in order that
returns the first one whose key equals `key`, and absent when the value is not
an Object or nothing matches. -/
def object_get_spec (value : json_ptr) (key : Option (List Char)) : json_ptr :=
  match value, key with
  | node _ ch t _ _ _, some k =>
    if t = JSON_OBJECT then
      ((siblings ch).find? (fun c => decide (get_string c = some k))).getD NULL
    else NULL
  | _, _ => NULL

/-- Spec wording of `array_get`: the element at zero-based `index`, absent
when the value is not an Array, `index` is negative or beyond the last
element. -/
def array_get_spec (value : json_ptr) (index : Int) : json_ptr :=
  match value with
  | node _ ch t _ _ _ =>
    if t = JSON_ARRAY ∧ 0 ≤ index then ((siblings ch)[index.toNat]?).getD NULL
    else NULL
  | NULL => NULL

/-- Spec wording of `array_size`: the count of elements, or 0 when the value
is not an Array. -/
def array_size_spec (value : json_ptr) : Int :=
  if get_type value = JSON_ARRAY then ((siblings (get_child value)).length : Int)
  else 0

/-- Assignment `item->next = n`; `set_next p NULL` is the node `p` on its own,
detached from the siblings after it. -/
def set_next : json_ptr → json_ptr → json_ptr
  | NULL, _ => NULL
  | node _ ch t vs vn s, n => node n ch t vs vn s

/-- A key as the claim on object members takes it: no double quote, no
backslash and no control character. -/
def plain_key (k : List Char) : Prop :=
  ∀ c ∈ k, c ≠ '"' ∧ c ≠ '\\' ∧ 32 ≤ c.toNat

/-- A value text that the parser reads completely: `parse_value` succeeds on
it and consumes all of it. -/
def complete_value (v : List Char) : Prop :=
  ∃ p, p ≠ NULL ∧ parse_value (v.length + 1) v = some (p, [])

/-- The text of one member: the key between double quotes, a colon, and the
value text. -/
def member_text (m : List Char × List Char) : List Char :=
  '"' :: (m.1 ++ '"' :: ':' :: m.2)

/-- The text of the members, separated by commas, up to and including the
closing brace. -/
def members_text : List (List Char × List Char) → List Char
  | [] => ['}']
  | [m] => member_text m ++ ['}']
  | m :: m2 :: ms => member_text m ++ ',' :: members_text (m2 :: ms)

/-- The children the claim on object members expects: for each member, the
parse of its value text carrying the key as member name. -/
def member_items (ms : List (List Char × List Char)) : List json_ptr :=
  ms.map (fun m => set_string (json_parse (some m.2)) (some m.1))

/-! ## Nodes of a tree and positions of the parser, for the claims on parsed trees -/

/-- The nodes of the trees hanging from a sibling chain, parents before
children: each node of the chain, then the nodes below it, then the rest of
the chain.  Each entry stands for the value alone: its `next` link, which
belongs to the chain the node sits in, is cleared.  For the root of a tree,
whose `next` is `NULL`, these are the nodes of the tree. -/
def nodes : json_ptr → List json_ptr
  | NULL => []
  | node nx ch t vs vn s => node NULL ch t vs vn s :: (nodes ch ++ nodes nx)

/-- The direct children of a node, in order, each as a value of its own (its
`next` link cleared). -/
def children (p : json_ptr) : List json_ptr :=
  (siblings (get_child p)).map (fun c => set_next c NULL)

/-- The child `c` with member name `key` comes from a member of the source
text `t`: a final part of `t` reads, after optional whitespace, `"key"`, then
optional whitespace, a colon, and a text `r` on which `parse_value` returns
the value `item`, and `c` is `item` carrying `key` as member name. -/
def member_in_source (t key : List Char) (c : json_ptr) : Prop :=
  ∃ (ws1 ws2 r rest : List Char) (item : json_ptr) (f : Nat),
    (ws1 ++ '"' :: (key ++ '"' :: (ws2 ++ ':' :: r))) <:+ t ∧
    (∀ x ∈ ws1, isspace x = true) ∧ (∀ x ∈ ws2, isspace x = true) ∧
    (∀ x ∈ key, x ≠ '"') ∧
    parse_value f r = some (item, rest) ∧ item ≠ NULL ∧ c = set_string item (some key)

/-- What the parser builds at one node, read from the text `t`: a String with
its characters (none a double quote), a Number with a decimal value, a literal,
or an Object whose children each carry the key of their member of `t`; only
an Object has children. -/
def parsed_node (t : List Char) (n : json_ptr) : Prop :=
  (get_type n = JSON_STRING ∧ get_child n = NULL ∧ get_valuenumber n = 0 ∧
    ∃ body, get_valuestring n = some body ∧ ∀ x ∈ body, x ≠ '"') ∨
  (get_type n = JSON_NUMBER ∧ get_child n = NULL ∧ get_valuestring n = none ∧
    ∃ (m : Int) (k : Nat), get_valuenumber n = mkRat m (10 ^ k)) ∨
  ((get_type n = JSON_TRUE ∨ get_type n = JSON_FALSE ∨ get_type n = JSON_NULL) ∧
    get_child n = NULL ∧ get_valuestring n = none ∧ get_valuenumber n = 0) ∨
  (get_type n = JSON_OBJECT ∧ get_valuestring n = none ∧ get_valuenumber n = 0 ∧
    ∀ c ∈ children n, ∃ key, get_string c = some key ∧ member_in_source t key c)

/-- The contexts at which an iteration of the member loop of `parse_object`
starts while `json_parse` runs on the text `t`: the first iteration for an
object at the root, the first iteration for an object that is the value of a
member, and the iteration that follows a member whose value was parsed and
is followed by a comma. -/
inductive loop_position (t : List Char) : List Char → Prop
  | root : (peek_char t).1 = '{' →
      (peek_char (next_char (peek_char t).2).2).1 ≠ '}' →
      loop_position t (peek_char (next_char (peek_char t).2).2).2
  | nested (s s1 s2 : List Char) (key_item : json_ptr) : loop_position t s →
      parse_string s = (key_item, s1) → key_item ≠ NULL → next_char s1 = (':', s2) →
      (peek_char s2).1 = '{' → (peek_char (next_char (peek_char s2).2).2).1 ≠ '}' →
      loop_position t (peek_char (next_char (peek_char s2).2).2).2
  | later (s s1 s2 s3 : List Char) (key_item item : json_ptr) (f : Nat) : loop_position t s →
      parse_string s = (key_item, s1) → key_item ≠ NULL → next_char s1 = (':', s2) →
      parse_value f s2 = some (item, s3) → item ≠ NULL → (peek_char s3).1 = ',' →
      loop_position t (next_char (peek_char s3).2).2

/-- The value positions the parser reaches while `json_parse` runs on the text
`t`, that is the contexts on which `parse_value` is called: the root, and the
context after the key and the colon of a member at which the member loop
stands. -/
def value_position (t s : List Char) : Prop :=
  s = t ∨ ∃ s0 s1 key_item, loop_position t s0 ∧ parse_string s0 = (key_item, s1) ∧
    key_item ≠ NULL ∧ next_char s1 = (':', s)

/-! ## Texts with whitespace between tokens -/

/-- Whitespace as the specification lists it: a text made only of space, tab,
newline and carriage return. -/
def json_whitespace (w : List Char) : Prop :=
  ∀ c ∈ w, c = ' ' ∨ c = '\t' ∨ c = '\n' ∨ c = '\r'

/-- What a text is read as in `spaced`: a value, or the members of an object
up to and including its closing brace. -/
inductive text_kind where
  | value : text_kind
  | members : text_kind

/-- The relation `spaced kind t2 t`: the text `t2` is the text `t` with
whitespace inserted around the `{`, `:`, `,` and `}` of objects, at any depth.
In `t` a member reads `"k":v` and is followed by `,` or `}`; in `t2` whitespace
may stand before the key (so after `{` and after `,`), between the key and the
colon, after the colon (so before the `{` of a nested object), and after the
value (so before `,` and `}`, and after the `}` of a nested object).  A value
text that the parser reads completely may be left as it is. -/
inductive spaced : text_kind → List Char → List Char → Prop
  | same (v : List Char) : complete_value v → spaced text_kind.value v v
  | empty_object (w : List Char) : json_whitespace w →
      spaced text_kind.value ('{' :: (w ++ ['}'])) ['{', '}']
  | object (m2 m : List Char) : spaced text_kind.members m2 m →
      spaced text_kind.value ('{' :: m2) ('{' :: m)
  | last (w1 k w2 w3 v2 v w4 : List Char) :
      json_whitespace w1 → json_whitespace w2 → json_whitespace w3 → json_whitespace w4 →
      (∀ c ∈ k, c ≠ '"') → spaced text_kind.value v2 v →
      spaced text_kind.members
        (w1 ++ '"' :: (k ++ '"' :: (w2 ++ ':' :: (w3 ++ (v2 ++ (w4 ++ ['}']))))))
        ('"' :: (k ++ '"' :: ':' :: (v ++ ['}'])))
  | more (w1 k w2 w3 v2 v w4 m2 m : List Char) :
      json_whitespace w1 → json_whitespace w2 → json_whitespace w3 → json_whitespace w4 →
      (∀ c ∈ k, c ≠ '"') → spaced text_kind.value v2 v → spaced text_kind.members m2 m →
      spaced text_kind.members
        (w1 ++ '"' :: (k ++ '"' :: (w2 ++ ':' :: (w3 ++ (v2 ++ (w4 ++ ',' :: m2))))))
        ('"' :: (k ++ '"' :: ':' :: (v ++ ',' :: m)))

/-- The member loop reads the members text `m` completely and links the chain
`items` after the children already there. -/
def members_parse (m : List Char) (items : json_ptr) : Prop :=
  (peek_char m).1 = '"' ∧
  ∀ (f n : Nat) (ch : json_ptr) (rest : List Char), m.length + 1 ≤ f → m.length ≤ n →
    parse_object_loop (parse_value f) n (m ++ rest) (node NULL ch JSON_OBJECT none 0 none) =
      some (node NULL (append_sibling ch items) JSON_OBJECT none 0 none, rest)

/-- Both texts are read completely and give the same result. -/
def same_parse (kind : text_kind) (t2 t : List Char) : Prop :=
  match kind with
  | text_kind.value => ∃ p, p ≠ NULL ∧ parse_value (t2.length + 1) t2 = some (p, []) ∧
      parse_value (t.length + 1) t = some (p, [])
  | text_kind.members => ∃ items, members_parse t2 items ∧ members_parse t items

/-! ## The printer `json_print`, modelled from the specification -/

/-- Modelled from the spec: `json_print` is declared in `include/json.h` and
defined in no source file; this is one hexadecimal digit of the `\uXXXX`
escape of its output, in lower case. -/
def hex_digit (n : Nat) : Char :=
  if n < 10 then Char.ofNat (48 + n) else Char.ofNat (87 + n)

/-- Modelled from the spec: the escaping of the absent `json_print`, which
"mirrors the recognized escapes" of the grammar: `\"`, `\\`, `\/`, `\b`, `\f`,
`\n`, `\r`, `\t`, and `\u00XX` for every other control character below 0x20.
Every other character, also one outside ASCII, is emitted as it is (the
literal policy of the two the specification allows). -/
def escape_char (c : Char) : List Char :=
  if c = '"' then ['\\', '"']
  else if c = '\\' then ['\\', '\\']
  else if c = '/' then ['\\', '/']
  else if c = '\x08' then ['\\', 'b']
  else if c = '\x0c' then ['\\', 'f']
  else if c = '\n' then ['\\', 'n']
  else if c = '\r' then ['\\', 'r']
  else if c = '\t' then ['\\', 't']
  else if c.toNat < 32 then
    ['\\', 'u', '0', '0', hex_digit (c.toNat / 16), hex_digit (c.toNat % 16)]
  else [c]

/-- Modelled from the spec: the escaped characters of a text, for the absent
`json_print`. -/
def escape_text : List Char → List Char
  | [] => []
  | c :: cs => escape_char c ++ escape_text cs

/-- Modelled from the spec: a String or a member name as the absent
`json_print` writes it, escaped and between double quotes. -/
def print_string (s : List Char) : List Char :=
  '"' :: (escape_text s ++ ['"'])

/-- Modelled from the spec: the character of a decimal digit, for the numbers
the absent `json_print` writes. -/
def digit_char (d : Nat) : Char := Char.ofNat (48 + d)

/-- Modelled from the spec: for the numbers the absent `json_print` writes,
the decimal digits of `n`, most significant first, without leading zeros (`0`
for zero); the first argument bounds the number of digits. -/
def nat_digits_aux : Nat → Nat → List Char
  | 0, n => [digit_char (n % 10)]
  | fuel + 1, n =>
    if n < 10 then [digit_char n]
    else nat_digits_aux fuel (n / 10) ++ [digit_char (n % 10)]

/-- Modelled from the spec: for the numbers the absent `json_print` writes,
the decimal digits of `n`, most significant first, without leading zeros. -/
def nat_digits (n : Nat) : List Char := nat_digits_aux n n

/-- Modelled from the spec: for the numbers the absent `json_print` writes,
the last `k` decimal digits of `n`, most significant first, with leading
zeros. -/
def fixed_digits : Nat → Nat → List Char
  | 0, _ => []
  | k + 1, n => fixed_digits k (n / 10) ++ [digit_char (n % 10)]

/-- Modelled from the spec: for the numbers the absent `json_print` writes,
the search for the least `k` from which `d` divides `10 ^ k`, the number of
places of the shortest decimal expansion of a fraction with denominator `d`;
the first argument bounds the search. -/
def decimal_scale_aux : Nat → Nat → Nat → Nat
  | 0, _, k => k
  | fuel + 1, d, k => if 10 ^ k % d = 0 then k else decimal_scale_aux fuel d (k + 1)

/-- Modelled from the spec: for the numbers the absent `json_print` writes,
the number of decimal places of the shortest decimal expansion of a fraction
in lowest terms with denominator `d`. -/
def decimal_scale (d : Nat) : Nat := decimal_scale_aux d d 0

/-- Modelled from the spec: a Number as the absent `json_print` writes it.  An
integral value is written without a decimal point; any other value with its
shortest decimal expansion, the one that `atof` reads back to the same value:
the digits of the integer part, a point, and the decimal places without a
trailing zero.  As for `atof`, the value is an exact rational, and rounding to
a `double` is not modelled; a value that has no finite decimal expansion, which
no parsed tree holds, is cut off. -/
def print_number (x : Rat) : List Char :=
  let sign : List Char := if x.num < 0 then ['-'] else []
  if x.den = 1 then sign ++ nat_digits x.num.natAbs
  else
    let k := decimal_scale x.den
    let scaled := x.num.natAbs * (10 ^ k / x.den)
    sign ++ (nat_digits (scaled / 10 ^ k) ++ '.' :: fixed_digits k (scaled % 10 ^ k))

/-- Modelled from the spec: the compact output of the absent `json_print`, by
recursion over `child` and `next`.  For a node the three texts are: the node
as a value; the node and the siblings after it as object members,
`"name":value` separated by commas; and the same nodes as array elements,
values separated by commas.  There is no whitespace anywhere.  A node of no
known type has the empty text. -/
def print_aux : json_ptr → List Char × List Char × List Char
  | NULL => ([], [], [])
  | node nx ch t vs vn s =>
    let value : List Char :=
      if t = JSON_STRING then print_string (vs.getD [])
      else if t = JSON_NUMBER then print_number vn
      else if t = JSON_TRUE then ['t', 'r', 'u', 'e']
      else if t = JSON_FALSE then ['f', 'a', 'l', 's', 'e']
      else if t = JSON_NULL then ['n', 'u', 'l', 'l']
      else if t = JSON_OBJECT then '{' :: ((print_aux ch).2.1 ++ ['}'])
      else if t = JSON_ARRAY then '[' :: ((print_aux ch).2.2 ++ [']'])
      else []
    let member : List Char := print_string (s.getD []) ++ ':' :: value
    (value,
      if nx = NULL then member else member ++ ',' :: (print_aux nx).2.1,
      if nx = NULL then value else value ++ ',' :: (print_aux nx).2.2)

/-- Modelled from the spec: `json_print` in compact mode, declared in
`include/json.h` and defined in no source file: the text of the value `json`,
and the empty text for `NULL`. -/
def json_print (json : json_ptr) : List Char :=
  (print_aux json).1

/-- A text in which the printer escapes nothing: no double quote, backslash or
solidus and no control character below 0x20. -/
@[reducible] def unescaped (s : List Char) : Prop :=
  ∀ c ∈ s, c ≠ '"' ∧ c ≠ '\\' ∧ c ≠ '/' ∧ 32 ≤ c.toNat

/-- The String value and the member name of a node, where present, are texts
in which the printer escapes nothing. -/
@[reducible] def unescaped_node (n : json_ptr) : Prop :=
  unescaped ((get_valuestring n).getD []) ∧ unescaped ((get_string n).getD [])

/-- The fields of a node that the parser builds and the printer writes without
an escape: a String of unescaped characters, a Number with a decimal value, a
literal, or an Object; only an Object may have children. -/
def printable_value (ch : json_ptr) (t : Int) (vs : Option (List Char)) (vn : Rat) : Prop :=
  (t = JSON_STRING ∧ ch = NULL ∧ vn = 0 ∧ ∃ body, vs = some body ∧ unescaped body) ∨
  (t = JSON_NUMBER ∧ ch = NULL ∧ vs = none ∧ ∃ (m : Int) (k : Nat), vn = mkRat m (10 ^ k)) ∨
  ((t = JSON_TRUE ∨ t = JSON_FALSE ∨ t = JSON_NULL) ∧ ch = NULL ∧ vs = none ∧ vn = 0) ∨
  (t = JSON_OBJECT ∧ vs = none ∧ vn = 0)

/-- Every node of a chain of members, and every node below, has printable
fields and an unescaped member name. -/
def printable_chain : json_ptr → Prop
  | NULL => True
  | node nx ch t vs vn s =>
    printable_chain nx ∧ printable_chain ch ∧ (∃ k, s = some k ∧ unescaped k) ∧
      printable_value ch t vs vn

/-! ## Theorems -/

/-! ### Sibling chains -/

theorem siblings_ne_NULL (p : json_ptr) : ∀ c ∈ siblings p, c ≠ NULL := by
  induction p with
  | NULL => simp [siblings]
  | node nx ch t vs vn s ih _ =>
    intro c hc
    simp only [siblings, List.mem_cons] at hc
    rcases hc with h | h
    · subst h; simp
    · exact ih c h

/-! ### `json_object_get` -/

theorem object_get_loop_find (p : json_ptr) (k : List Char) :
    object_get_loop p k =
      ((siblings p).find? (fun c => decide (get_string c = some k))).getD NULL := by
  induction p with
  | NULL => simp [object_get_loop, siblings]
  | node nx ch t vs vn s ih _ =>
    by_cases h : s = some k
    · simp [object_get_loop, siblings, get_string, h]
    · simp [object_get_loop, siblings, get_string, h, ih]

theorem object_get_loop_none (p : json_ptr) (k : List Char)
    (h : ∀ c ∈ siblings p, get_string c ≠ some k) : object_get_loop p k = NULL := by
  induction p with
  | NULL => simp [object_get_loop]
  | node nx ch t vs vn s ih _ =>
    have h1 := h (node nx ch t vs vn s) (by simp [siblings])
    simp only [get_string] at h1
    simp only [object_get_loop, h1, if_false]
    exact ih (fun c hc => h c (by simp [siblings, hc]))

theorem object_get_loop_first (p : json_ptr) (k : List Char)
    (h : object_get_loop p k ≠ NULL) :
    get_string (object_get_loop p k) = some k ∧
    ∃ before after, siblings p = before ++ object_get_loop p k :: after ∧
      ∀ c ∈ before, get_string c ≠ some k := by
  induction p with
  | NULL => simp [object_get_loop] at h
  | node nx ch t vs vn s ih _ =>
    by_cases hs : s = some k
    · simp only [object_get_loop, hs, if_true, get_string, true_and]
      exact ⟨[], siblings nx, by simp [siblings], by simp⟩
    · simp only [object_get_loop, hs, if_false] at h ⊢
      obtain ⟨h1, before, after, h2, h3⟩ := ih h
      refine ⟨h1, node nx ch t vs vn s :: before, after, by simp [siblings, h2], ?_⟩
      intro c hc
      simp only [List.mem_cons] at hc
      rcases hc with hc | hc
      · subst hc; simpa [get_string] using hs
      · exact h3 c hc

/-- C4: `json_object_get` is the first-match lookup of the specification.  It
equals the linear scan `object_get_spec`; it is `NULL` when the value is
`NULL`, the key is null, the value is not an Object, or no child carries the
member name; and a returned child carries the member name `key` while no
earlier sibling does. -/
theorem json_object_get_first_match (object : json_ptr) (key : Option (List Char)) :
    json_object_get object key = object_get_spec object key ∧
    (object = NULL ∨ key = none ∨ get_type object ≠ JSON_OBJECT →
      json_object_get object key = NULL) ∧
    (∀ k, key = some k →
      (∀ c ∈ siblings (get_child object), get_string c ≠ some k) →
      json_object_get object key = NULL) ∧
    (∀ k, key = some k → json_object_get object key ≠ NULL →
      get_type object = JSON_OBJECT ∧
      get_string (json_object_get object key) = some k ∧
      ∃ before after,
        siblings (get_child object) = before ++ json_object_get object key :: after ∧
        ∀ c ∈ before, get_string c ≠ some k) := by
  refine ⟨?_, ?_, ?_, ?_⟩
  · cases object with
    | NULL => cases key <;> simp [json_object_get, object_get_spec]
    | node nx ch t vs vn s =>
      cases key with
      | none => simp [json_object_get, object_get_spec]
      | some k =>
        by_cases ht : t = JSON_OBJECT
        · simp [json_object_get, object_get_spec, ht, object_get_loop_find]
        · simp [json_object_get, object_get_spec, ht]
  · rintro (h | h | h)
    · subst h; cases key <;> simp [json_object_get]
    · subst h; cases object <;> simp [json_object_get]
    · cases object with
      | NULL => cases key <;> simp [json_object_get]
      | node nx ch t vs vn s =>
        simp only [get_type] at h
        cases key <;> simp [json_object_get, h]
  · intro k hk hnone
    subst hk
    cases object with
    | NULL => simp [json_object_get]
    | node nx ch t vs vn s =>
      simp only [get_child] at hnone
      simp only [json_object_get]
      split
      · rfl
      · exact object_get_loop_none ch k hnone
  · intro k hk hne
    subst hk
    cases object with
    | NULL => simp [json_object_get] at hne
    | node nx ch t vs vn s =>
      by_cases ht : t = JSON_OBJECT
      · simp only [json_object_get, ht, ne_eq, not_true_eq_false, if_false] at hne ⊢
        exact ⟨by simp [get_type], object_get_loop_first ch k hne⟩
      · simp [json_object_get, ht] at hne

/-! ### `json_array_get` and `json_array_size` -/

theorem array_get_loop_eq (p : json_ptr) (i index : Int) (h : i ≤ index) :
    array_get_loop p i index = ((siblings p)[(index - i).toNat]?).getD NULL := by
  induction p generalizing i with
  | NULL => simp [array_get_loop, siblings]
  | node nx ch t vs vn s ih _ =>
    by_cases hlt : i < index
    · have hstep : (index - i).toNat = (index - (i + 1)).toNat + 1 := by omega
      simp only [array_get_loop, hlt, if_true, siblings]
      rw [ih (i + 1) (by omega), hstep]
      simp
    · have hz : (index - i).toNat = 0 := by omega
      simp [array_get_loop, hlt, siblings, hz]

theorem int_wrap_id (n : Int) (h0 : -2147483648 ≤ n) (h1 : n < 2147483648) :
    int_wrap n = n := by
  unfold int_wrap
  omega

theorem array_size_loop_eq (p : json_ptr) (count : Int) (h0 : 0 ≤ count)
    (h : count + ((siblings p).length : Int) < 2147483648) :
    array_size_loop p count = count + ((siblings p).length : Int) := by
  induction p generalizing count with
  | NULL => simp [array_size_loop, siblings]
  | node nx ch t vs vn s ih _ =>
    simp only [siblings, List.length_cons, Nat.cast_add, Nat.cast_one] at h ⊢
    simp only [array_size_loop]
    rw [int_wrap_id (count + 1) (by omega) (by omega)]
    rw [ih (count + 1) (by omega) (by omega)]
    omega

theorem json_array_get_eq_spec (array : json_ptr) (index : Int) :
    json_array_get array index = array_get_spec array index := by
  cases array with
  | NULL => simp [json_array_get, array_get_spec]
  | node nx ch t vs vn s =>
    by_cases hi : index < 0
    · have : ¬ (0 ≤ index) := by omega
      simp [json_array_get, array_get_spec, hi, this]
    · by_cases ht : t = JSON_ARRAY
      · have h0 : 0 ≤ index := by omega
        simp [json_array_get, array_get_spec, hi, ht, h0, array_get_loop_eq ch 0 index h0]
      · simp [json_array_get, array_get_spec, hi, ht]

theorem json_array_size_eq (array : json_ptr) (harr : get_type array = JSON_ARRAY)
    (hfit : (siblings (get_child array)).length < 2147483648) :
    json_array_size array = ((siblings (get_child array)).length : Int) := by
  cases array with
  | NULL => simp [get_type, JSON_INVALID, JSON_ARRAY] at harr
  | node nx ch t vs vn s =>
    simp only [get_type] at harr
    simp only [get_child] at hfit ⊢
    simp only [json_array_size, harr, ne_eq, not_true_eq_false, if_false]
    rw [array_size_loop_eq ch 0 (le_refl 0) (by omega)]
    simp

theorem json_array_get_present_iff (array : json_ptr) (index : Int)
    (harr : get_type array = JSON_ARRAY) :
    json_array_get array index ≠ NULL ↔
      0 ≤ index ∧ index < ((siblings (get_child array)).length : Int) := by
  rw [json_array_get_eq_spec]
  cases array with
  | NULL => simp [get_type, JSON_INVALID, JSON_ARRAY] at harr
  | node nx ch t vs vn s =>
    simp only [get_type] at harr
    simp only [array_get_spec, harr, true_and, get_child]
    by_cases h0 : 0 ≤ index
    · simp only [h0, if_true, true_and]
      by_cases hlt : index.toNat < (siblings ch).length
      · have hmem : (siblings ch)[index.toNat] ∈ siblings ch := List.getElem_mem _
        have hne := siblings_ne_NULL ch _ hmem
        have hlt2 : index < ((siblings ch).length : Int) := by omega
        simp [List.getElem?_eq_getElem hlt, hne, hlt2]
      · have hge : (siblings ch).length ≤ index.toNat := by omega
        have hnlt : ¬ index < ((siblings ch).length : Int) := by omega
        simp [List.getElem?_eq_none hge, hnlt]
    · simp [h0]

/-- C5: `json_array_get` is the positional lookup of the specification.  It
equals `array_get_spec`; it is `NULL` when the value is `NULL` or not an Array,
when `index` is negative, or when `index` is at least the number of children;
and for an Array with `n` children and `0 ≤ index < n` it returns the child at
position `index`, which is not `NULL`. -/
theorem json_array_get_nth (array : json_ptr) (index : Int) :
    json_array_get array index = array_get_spec array index ∧
    (array = NULL ∨ get_type array ≠ JSON_ARRAY ∨ index < 0 ∨
        ((siblings (get_child array)).length : Int) ≤ index →
      json_array_get array index = NULL) ∧
    (get_type array = JSON_ARRAY → 0 ≤ index →
        index < ((siblings (get_child array)).length : Int) →
      (siblings (get_child array))[index.toNat]? = some (json_array_get array index) ∧
      json_array_get array index ≠ NULL) := by
  refine ⟨json_array_get_eq_spec array index, ?_, ?_⟩
  · intro h
    by_cases harr : get_type array = JSON_ARRAY
    · by_contra hne
      have := (json_array_get_present_iff array index harr).mp hne
      rcases h with h | h | h | h
      · subst h; simp [get_type, JSON_INVALID, JSON_ARRAY] at harr
      · exact h harr
      · omega
      · omega
    · cases array with
      | NULL => simp [json_array_get]
      | node nx ch t vs vn s =>
        simp only [get_type] at harr
        simp [json_array_get, harr]
  · intro harr h0 hlt
    have hne := (json_array_get_present_iff array index harr).mpr ⟨h0, hlt⟩
    refine ⟨?_, hne⟩
    rw [json_array_get_eq_spec] at hne ⊢
    cases array with
    | NULL => simp [array_get_spec] at hne
    | node nx ch t vs vn s =>
      simp only [get_type] at harr
      simp only [get_child] at hlt ⊢
      have hlt2 : index.toNat < (siblings ch).length := by omega
      simp [array_get_spec, harr, h0, List.getElem?_eq_getElem hlt2]

/-- Witness for C5: the chain of two Number nodes under an Array node, read
at index 1. -/
theorem json_array_get_nth_witness :
    json_array_get (node NULL (node (node NULL NULL 8 none 2 none) NULL 8 none 1 none)
      32 none 0 none) 1 = node NULL NULL 8 none 2 none := by
  have h := (json_array_get_nth (node NULL (node (node NULL NULL 8 none 2 none) NULL 8 none 1
    none) 32 none 0 none) 1).2.2 (by decide) (by decide) (by decide)
  have h1 := h.1
  simp only [get_child, siblings] at h1
  exact (Option.some.inj h1).symm

/-- C6: `json_array_size` counts the children of an Array (a count that an
`int` can hold, below 2^31) and is 0 for `NULL` and for every non-Array node,
also an Object that has children, such as the parses of `{}` and `{"a":1}`. -/
theorem json_array_size_count (array : json_ptr) :
    (get_type array = JSON_ARRAY → (siblings (get_child array)).length < 2147483648 →
      json_array_size array = ((siblings (get_child array)).length : Int) ∧
      json_array_size array = array_size_spec array) ∧
    (array = NULL ∨ get_type array ≠ JSON_ARRAY →
      json_array_size array = 0 ∧ json_array_size array = array_size_spec array) ∧
    json_array_size (json_parse (some ['{', '}'])) = 0 ∧
    get_child (json_parse (some ['{', '"', 'a', '"', ':', '1', '}'])) ≠ NULL ∧
    json_array_size (json_parse (some ['{', '"', 'a', '"', ':', '1', '}'])) = 0 := by
  refine ⟨?_, ?_, by decide, by decide, by decide⟩
  · intro harr hfit
    refine ⟨json_array_size_eq array harr hfit, ?_⟩
    rw [json_array_size_eq array harr hfit]
    simp [array_size_spec, harr]
  · intro h
    have hty : get_type array ≠ JSON_ARRAY := by
      rcases h with h | h
      · subst h; simp [get_type, JSON_INVALID, JSON_ARRAY]
      · exact h
    have h0 : json_array_size array = 0 := by
      cases array with
      | NULL => simp [json_array_size]
      | node nx ch t vs vn s =>
        simp only [get_type] at hty
        simp [json_array_size, hty]
    exact ⟨h0, by simp [h0, array_size_spec, hty]⟩

/-- Witness for C6: an Array node with two children has size 2. -/
theorem json_array_size_count_witness :
    json_array_size (node NULL (node (node NULL NULL 8 none 2 none) NULL 8 none 1 none)
      32 none 0 none) = 2 := by
  have h := ((json_array_size_count (node NULL (node (node NULL NULL 8 none 2 none) NULL 8
    none 1 none) 32 none 0 none)).1 (by decide) (by decide)).1
  simpa [get_child, siblings] using h

/-- C7: size invariant of the two array accessors.  For an Array whose number
of children fits in an `int`, `json_array_get` at index `json_array_size` is
`NULL`; when the size is positive the lookup at `size - 1` is not `NULL`; and a
lookup at `i` is not `NULL` exactly when `0 ≤ i < json_array_size`. -/
theorem json_array_size_invariant (array : json_ptr)
    (harr : get_type array = JSON_ARRAY)
    (hfit : (siblings (get_child array)).length < 2147483648) :
    json_array_get array (json_array_size array) = NULL ∧
    (0 < json_array_size array →
      json_array_get array (json_array_size array - 1) ≠ NULL) ∧
    (∀ i : Int, json_array_get array i ≠ NULL ↔ 0 ≤ i ∧ i < json_array_size array) := by
  have hsize := json_array_size_eq array harr hfit
  have hiff := fun i => json_array_get_present_iff array i harr
  refine ⟨?_, ?_, ?_⟩
  · by_contra hne
    have := (hiff _).mp hne
    omega
  · intro hpos
    exact (hiff _).mpr ⟨by omega, by omega⟩
  · intro i
    rw [hsize]
    exact hiff i

/-- Witness for C7: the invariant at an Array node with two children. -/
theorem json_array_size_invariant_witness :
    json_array_get (node NULL (node (node NULL NULL 8 none 2 none) NULL 8 none 1 none)
        32 none 0 none)
      (json_array_size (node NULL (node (node NULL NULL 8 none 2 none) NULL 8 none 1 none)
        32 none 0 none)) = NULL :=
  (json_array_size_invariant (node NULL (node (node NULL NULL 8 none 2 none) NULL 8 none 1
    none) 32 none 0 none) (by decide) (by decide)).1

/-! ### Scanning lemmas -/

theorem take_consumed (a r : List Char) :
    (a ++ r).take ((a ++ r).length - r.length) = a := by
  simp

theorem skip_whitespace_append (ws : List Char) (c : Char) (rest : List Char)
    (hws : ∀ x ∈ ws, isspace x = true) (hc : isspace c = false) :
    skip_whitespace (ws ++ c :: rest) = c :: rest := by
  unfold skip_whitespace
  rw [List.dropWhile_append_of_pos hws, List.dropWhile_cons_of_neg (by simp [hc])]

theorem skip_whitespace_cons (c : Char) (rest : List Char) (hc : isspace c = false) :
    skip_whitespace (c :: rest) = c :: rest :=
  skip_whitespace_append [] c rest (by simp) hc

theorem scan_to_quote (body rest : List Char) (hbody : ∀ c ∈ body, c ≠ '"') :
    (body ++ '"' :: rest).dropWhile (fun ch => ch != '"') = '"' :: rest := by
  rw [List.dropWhile_append_of_pos (by simpa using hbody)]
  simp

theorem parse_string_quoted (ws body rest : List Char)
    (hws : ∀ x ∈ ws, isspace x = true) (hbody : ∀ c ∈ body, c ≠ '"') :
    parse_string (ws ++ '"' :: (body ++ '"' :: rest)) =
      (node NULL NULL JSON_STRING (some body) 0 none, rest) := by
  have hskip := skip_whitespace_append ws '"' (body ++ '"' :: rest) hws (by decide)
  have hscan := scan_to_quote body rest hbody
  have htake : (body ++ '"' :: rest).take ((body ++ '"' :: rest).length -
      ('"' :: rest).length) = body := take_consumed body ('"' :: rest)
  simp only [parse_string, next_char, hskip, hscan, htake, ne_eq, not_true_eq_false,
    if_false, json_new, set_type, set_valuestring]

theorem parse_value_quoted (fuel : Nat) (ws body rest : List Char)
    (hws : ∀ x ∈ ws, isspace x = true) (hbody : ∀ c ∈ body, c ≠ '"') :
    parse_value (fuel + 1) (ws ++ '"' :: (body ++ '"' :: rest)) =
      some (node NULL NULL JSON_STRING (some body) 0 none, rest) := by
  have hskip := skip_whitespace_append ws '"' (body ++ '"' :: rest) hws (by decide)
  have hstr := parse_string_quoted [] body rest (by simp) hbody
  simp only [List.nil_append] at hstr
  simp only [parse_value, peek_char, hskip, List.headD_cons, if_true, hstr]

/-! ### Arrays -/

theorem parse_value_bracket (fuel : Nat) (ws rest : List Char)
    (hws : ∀ x ∈ ws, isspace x = true) :
    parse_value (fuel + 1) (ws ++ '[' :: rest) = some (NULL, '[' :: rest) := by
  have hskip := skip_whitespace_append ws '[' rest hws (by decide)
  simp [parse_value, peek_char, hskip, parse_array]

/-- C2: the code at array texts.  `json_parse` returns `NULL` on `[]`, on
`[1, 2, 3, 4, 5]` and on `{"numbers": [1, 2, 3]}`, and more generally on every
text whose first non-whitespace character is `[`, because `parse_array`
returns `NULL` without reading anything. -/
theorem json_parse_array_is_NULL :
    json_parse (some "[]".toList) = NULL ∧
    json_parse (some "[1, 2, 3, 4, 5]".toList) = NULL ∧
    json_parse (some "\x7b\"numbers\": [1, 2, 3]\x7d".toList) = NULL ∧
    (∀ ws rest : List Char, (∀ x ∈ ws, isspace x = true) →
      json_parse (some (ws ++ '[' :: rest)) = NULL) := by
  refine ⟨by decide, by decide, by decide, ?_⟩
  intro ws rest hws
  simp only [json_parse]
  rw [parse_value_bracket _ ws rest hws]

/-! ### Strings -/

theorem json_parse_quoted (body rest : List Char) (hbody : ∀ c ∈ body, c ≠ '"') :
    json_parse (some ('"' :: (body ++ '"' :: rest))) =
      node NULL NULL JSON_STRING (some body) 0 none := by
  have h := parse_value_quoted (('"' :: (body ++ '"' :: rest)).length) [] body rest
    (by simp) hbody
  simp only [List.nil_append] at h
  simp only [json_parse, h]

/-- C8 as amended: `json_parse` does not decode escapes.  The value of a
parsed String is the text `body` between the opening quote and the next double
quote, copied character for character, whatever follows the closing quote.
So a backslash followed by any character `e` other than a double quote stays
the two characters backslash, `e`, wherever it stands in the string; and in
backslash, double quote the quote is the one that ends the string, so the
String ends with the backslash and what follows the quote is not read. -/
theorem json_parse_string_verbatim (body rest : List Char)
    (hbody : ∀ c ∈ body, c ≠ '"') :
    json_parse (some ('"' :: (body ++ '"' :: rest))) =
      node NULL NULL JSON_STRING (some body) 0 none ∧
    (∀ (e : Char) (post : List Char), e ≠ '"' → (∀ c ∈ post, c ≠ '"') →
      json_parse (some ('"' :: (body ++ '\\' :: e :: (post ++ '"' :: rest)))) =
        node NULL NULL JSON_STRING (some (body ++ '\\' :: e :: post)) 0 none) ∧
    json_parse (some ('"' :: (body ++ '\\' :: '"' :: rest))) =
      node NULL NULL JSON_STRING (some (body ++ ['\\'])) 0 none := by
  refine ⟨json_parse_quoted body rest hbody, ?_, ?_⟩
  · intro e post he hpost
    have hall : ∀ c ∈ body ++ '\\' :: e :: post, c ≠ '"' := by
      intro c hc
      simp only [List.mem_append, List.mem_cons] at hc
      rcases hc with hc | hc | hc | hc
      · exact hbody c hc
      · rw [hc]; decide
      · rw [hc]; exact he
      · exact hpost c hc
    have h := json_parse_quoted (body ++ '\\' :: e :: post) rest hall
    simpa using h
  · have hall : ∀ c ∈ body ++ ['\\'], c ≠ '"' := by
      intro c hc
      simp only [List.mem_append, List.mem_singleton] at hc
      rcases hc with hc | hc
      · exact hbody c hc
      · rw [hc]; decide
    have h := json_parse_quoted (body ++ ['\\']) rest hall
    simpa using h

/-- Witness for C8 as amended: the text quote, a, backslash, n, b, quote keeps
its four characters, and the text quote, a, backslash, quote, b, quote gives the
String a, backslash. -/
theorem json_parse_string_verbatim_witness :
    json_parse (some ('"' :: (['a', '\\', 'n', 'b'] ++ '"' :: []))) =
      node NULL NULL JSON_STRING (some ['a', '\\', 'n', 'b']) 0 none ∧
    json_parse (some ('"' :: (['a'] ++ '\\' :: '"' :: ['b', '"']))) =
      node NULL NULL JSON_STRING (some (['a'] ++ ['\\'])) 0 none :=
  ⟨(json_parse_string_verbatim ['a', '\\', 'n', 'b'] [] (by decide)).1,
    (json_parse_string_verbatim ['a'] ['b', '"'] (by decide)).2.2⟩

/-- Counterexample to C8: the 6-character text quote, a, backslash, n, b, quote
parses to a String of the 4 characters a, backslash, n, b, not to the 3
characters a, newline, b. -/
theorem json_parse_escape_not_decoded :
    json_parse (some ['"', 'a', '\\', 'n', 'b', '"']) =
      node NULL NULL JSON_STRING (some ['a', '\\', 'n', 'b']) 0 none ∧
    get_valuestring (json_parse (some ['"', 'a', '\\', 'n', 'b', '"'])) ≠
      some ['a', '\n', 'b'] := by
  decide

/-! ### Numbers -/

theorem dropWhile_all_append (p : Char → Bool) (ds rest : List Char)
    (hds : ∀ c ∈ ds, p c = true) (hrest : p (rest.headD '\x00') = false) :
    (ds ++ rest).dropWhile p = rest := by
  rw [List.dropWhile_append_of_pos hds]
  cases rest with
  | nil => rfl
  | cons c t => exact List.dropWhile_cons_of_neg (by simpa using hrest)

theorem takeWhile_all_append (p : Char → Bool) (ds rest : List Char)
    (hds : ∀ c ∈ ds, p c = true) (hrest : p (rest.headD '\x00') = false) :
    (ds ++ rest).takeWhile p = ds := by
  rw [List.takeWhile_append_of_pos hds]
  cases rest with
  | nil => simp
  | cons c t =>
    have : p c = false := by simpa using hrest
    simp [List.takeWhile_cons, this]

theorem isdigit_chars (c : Char) (h : isdigit c = true) :
    isspace c = false ∧ c ≠ '"' ∧ c ≠ '{' ∧ c ≠ '[' ∧ c ≠ 't' ∧ c ≠ 'f' ∧ c ≠ 'n' ∧
      c ≠ '-' ∧ c ≠ '.' := by
  simp only [isdigit, Bool.and_eq_true, decide_eq_true_eq] at h
  refine ⟨?_, ?_, ?_, ?_, ?_, ?_, ?_, ?_, ?_⟩
  · simp only [isspace, Bool.or_eq_false_iff, Bool.and_eq_false_iff, decide_eq_false_iff_not]
    omega
  all_goals
    intro hc
    subst hc
    revert h
    decide

theorem headD_digits_append (ip rest : List Char) (hne : ip ≠ [])
    (hip : ∀ c ∈ ip, isdigit c = true) :
    isdigit ((ip ++ rest).headD '\x00') = true ∧ (ip ++ rest).headD '\x00' ≠ '-' := by
  cases ip with
  | nil => exact absurd rfl hne
  | cons d t =>
    have hd := hip d (by simp)
    exact ⟨by simpa using hd, by simpa using (isdigit_chars d hd).2.2.2.2.2.2.2.1⟩

/-- The sign characters of a number lexeme. -/
theorem sign_append_cases (neg : Bool) (ip rest : List Char) (hne : ip ≠ [])
    (hip : ∀ c ∈ ip, isdigit c = true) :
    (if ((if neg = true then ['-'] else []) ++ (ip ++ rest)).headD '\x00' = '-'
      then ((if neg = true then ['-'] else []) ++ (ip ++ rest)).tail
      else (if neg = true then ['-'] else []) ++ (ip ++ rest)) = ip ++ rest := by
  cases neg with
  | true => simp
  | false =>
    have h := (headD_digits_append ip rest hne hip).2
    simp only [Bool.false_eq_true, if_false, List.nil_append]
    rw [if_neg h]

theorem parse_number_integer (neg : Bool) (ip rest : List Char) (hne : ip ≠ [])
    (hip : ∀ c ∈ ip, isdigit c = true)
    (hrest : isdigit (rest.headD '\x00') = false) (hdot : rest.headD '\x00' ≠ '.') :
    parse_number ((if neg then ['-'] else []) ++ (ip ++ rest)) =
      (node NULL NULL JSON_NUMBER none (atof ((if neg then ['-'] else []) ++ ip)) none,
        rest) := by
  have hsign := sign_append_cases neg ip rest hne hip
  have hdig := (headD_digits_append ip rest hne hip).1
  have hdrop := dropWhile_all_append isdigit ip rest hip hrest
  have htake : ((if neg = true then ['-'] else []) ++ (ip ++ rest)).take
      (((if neg = true then ['-'] else []) ++ (ip ++ rest)).length - rest.length) =
      (if neg = true then ['-'] else []) ++ ip := by
    rw [← List.append_assoc]
    exact take_consumed _ rest
  simp only [parse_number, hsign, hdig, hdrop, if_neg hdot, htake, Bool.not_true,
    Bool.false_eq_true, if_false, json_new, set_type, set_valuenumber]

theorem parse_number_point (neg : Bool) (ip fp rest : List Char) (hne : ip ≠ [])
    (hip : ∀ c ∈ ip, isdigit c = true) (hfp : ∀ c ∈ fp, isdigit c = true)
    (hrest : isdigit (rest.headD '\x00') = false) :
    parse_number ((if neg then ['-'] else []) ++ (ip ++ '.' :: (fp ++ rest))) =
      (node NULL NULL JSON_NUMBER none
        (atof ((if neg then ['-'] else []) ++ (ip ++ '.' :: fp))) none, rest) := by
  have hsign := sign_append_cases neg ip ('.' :: (fp ++ rest)) hne hip
  have hdig := (headD_digits_append ip ('.' :: (fp ++ rest)) hne hip).1
  have hdrop := dropWhile_all_append isdigit ip ('.' :: (fp ++ rest)) hip
    (by show isdigit '.' = false; decide)
  have hdrop2 := dropWhile_all_append isdigit fp rest hfp hrest
  have htake : ((if neg = true then ['-'] else []) ++ (ip ++ '.' :: (fp ++ rest))).take
      (((if neg = true then ['-'] else []) ++ (ip ++ '.' :: (fp ++ rest))).length -
        rest.length) = (if neg = true then ['-'] else []) ++ (ip ++ '.' :: fp) := by
    have := take_consumed ((if neg = true then ['-'] else []) ++ (ip ++ '.' :: fp)) rest
    simpa using this
  simp only [parse_number, hsign, hdig, hdrop, List.headD_cons, List.tail_cons, if_true,
    hdrop2, htake, Bool.not_true, Bool.false_eq_true, if_false, json_new, set_type,
    set_valuenumber]

theorem atof_integer (neg : Bool) (ip : List Char) (hne : ip ≠ [])
    (hip : ∀ c ∈ ip, isdigit c = true) :
    atof ((if neg then ['-'] else []) ++ ip) =
      (((if neg then -(digits_value ip : Int) else (digits_value ip : Int)) : Int) : Rat) := by
  have hsign := sign_append_cases neg ip [] hne hip
  simp only [List.append_nil] at hsign
  have htake := takeWhile_all_append isdigit ip [] hip (by decide)
  have hdrop := dropWhile_all_append isdigit ip [] hip (by decide)
  simp only [List.append_nil] at htake hdrop
  have hneg : (decide (((if neg = true then ['-'] else []) ++ ip).headD '\x00' = '-')) = neg := by
    cases neg with
    | true => simp
    | false =>
      have h := (headD_digits_append ip [] hne hip).2
      simp only [List.append_nil] at h
      simp only [Bool.false_eq_true, if_false, List.nil_append]
      exact decide_eq_false h
  have hsign2 : (if neg = true then ((if neg = true then ['-'] else []) ++ ip).tail
      else (if neg = true then ['-'] else []) ++ ip) = ip := by
    cases neg <;> simp
  simp only [atof, hneg, hsign2, htake, hdrop, List.headD_nil, List.append_nil,
    List.length_nil, pow_zero, Rat.mkRat_one]
  simp

theorem atof_point (neg : Bool) (ip : List Char) (hne : ip ≠ [])
    (hip : ∀ c ∈ ip, isdigit c = true) :
    atof ((if neg then ['-'] else []) ++ (ip ++ ['.'])) =
      (((if neg then -(digits_value ip : Int) else (digits_value ip : Int)) : Int) : Rat) := by
  have htake := takeWhile_all_append isdigit ip ['.'] hip (by decide)
  have hdrop := dropWhile_all_append isdigit ip ['.'] hip (by decide)
  have hneg : (decide (((if neg = true then ['-'] else []) ++ (ip ++ ['.'])).headD '\x00'
      = '-')) = neg := by
    cases neg with
    | true => simp
    | false =>
      have h := (headD_digits_append ip ['.'] hne hip).2
      simp only [Bool.false_eq_true, if_false, List.nil_append]
      exact decide_eq_false h
  have hsign2 : (if neg = true then ((if neg = true then ['-'] else []) ++ (ip ++ ['.'])).tail
      else (if neg = true then ['-'] else []) ++ (ip ++ ['.'])) = ip ++ ['.'] := by
    cases neg <;> simp
  simp only [atof, hneg, hsign2, htake, hdrop, List.headD_cons, List.tail_cons, if_true,
    List.takeWhile_nil, List.append_nil, List.length_nil, pow_zero, Rat.mkRat_one]

theorem parse_value_number (fuel : Nat) (neg : Bool) (ip tail : List Char) (hne : ip ≠ [])
    (hip : ∀ c ∈ ip, isdigit c = true) :
    parse_value (fuel + 1) ((if neg then ['-'] else []) ++ (ip ++ tail)) =
      some (parse_number ((if neg then ['-'] else []) ++ (ip ++ tail))) := by
  cases ip with
  | nil => exact absurd rfl hne
  | cons d t =>
    have hd := hip d (by simp)
    obtain ⟨h1, h2, h3, h4, h5, h6, h7, -, -⟩ := isdigit_chars d hd
    cases neg with
    | true =>
      have hskip := skip_whitespace_cons '-' (d :: (t ++ tail)) (by decide)
      simp [parse_value, peek_char, hskip]
    | false =>
      have hskip := skip_whitespace_cons d (t ++ tail) h1
      simp [parse_value, peek_char, hskip, h2, h3, h4, h5, h6, h7, hd]

theorem digits_value_zero_cons (ds : List Char) :
    digits_value ('0' :: ds) = digits_value ds := by
  simp [digits_value]

/-- C9 as amended: leading zeros are accepted.  A text that starts with an
optional `-`, then `0`, then one or more digits, and then ends or continues
with a character that is neither a digit nor `.`, parses to a Number with no
child and no member name; when the digits denote a magnitude below 2^53 (where
the exact decimal value used for `atof` is the `double` it returns), the value
of the Number is the decimal value of the digits, negated under `-`. -/
theorem json_parse_leading_zero (neg : Bool) (ds rest : List Char) (_hne : ds ≠ [])
    (hds : ∀ c ∈ ds, isdigit c = true)
    (hrest : isdigit (rest.headD '\x00') = false) (hdot : rest.headD '\x00' ≠ '.') :
    json_parse (some ((if neg then ['-'] else []) ++ (('0' :: ds) ++ rest))) ≠ NULL ∧
    get_type (json_parse (some ((if neg then ['-'] else []) ++ (('0' :: ds) ++ rest)))) =
      JSON_NUMBER ∧
    get_child (json_parse (some ((if neg then ['-'] else []) ++ (('0' :: ds) ++ rest)))) =
      NULL ∧
    get_string (json_parse (some ((if neg then ['-'] else []) ++ (('0' :: ds) ++ rest)))) =
      none ∧
    (digits_value ds < 2 ^ 53 →
      json_parse (some ((if neg then ['-'] else []) ++ (('0' :: ds) ++ rest))) =
        node NULL NULL JSON_NUMBER none
          (((if neg then -(digits_value ds : Int) else (digits_value ds : Int)) : Int) : Rat)
          none) := by
  suffices hmain : json_parse (some ((if neg then ['-'] else []) ++ (('0' :: ds) ++ rest))) =
      node NULL NULL JSON_NUMBER none
        (((if neg then -(digits_value ds : Int) else (digits_value ds : Int)) : Int) : Rat)
        none by
    rw [hmain]
    exact ⟨by simp, rfl, rfl, rfl, fun _ => rfl⟩
  have hip : ∀ c ∈ '0' :: ds, isdigit c = true := by
    intro c hc
    simp only [List.mem_cons] at hc
    rcases hc with hc | hc
    · subst hc; decide
    · exact hds c hc
  have hcons : ('0' :: ds) ≠ [] := by simp
  have hv := parse_value_number
    (((if neg then ['-'] else []) ++ (('0' :: ds) ++ rest)).length) neg ('0' :: ds) rest
    hcons hip
  have hn := parse_number_integer neg ('0' :: ds) rest hcons hip hrest hdot
  have ha := atof_integer neg ('0' :: ds) hcons hip
  rw [digits_value_zero_cons] at ha
  simp only [json_parse, hv, hn, ha]

/-- Witness for C9 as amended: the text `-007`. -/
theorem json_parse_leading_zero_witness :
    json_parse (some ((if true then ['-'] else []) ++ (('0' :: ['0', '7']) ++ []))) =
      node NULL NULL JSON_NUMBER none
        (((if true then -(digits_value ['0', '7'] : Int)
          else (digits_value ['0', '7'] : Int)) : Int) : Rat) none :=
  (json_parse_leading_zero true ['0', '7'] [] (by decide) (by decide) (by decide)
    (by decide)).2.2.2.2 (by decide)

/-- Counterexample to C9: `01`, `012` and `-007` are accepted, as the Numbers
1, 12 and -7. -/
theorem json_parse_leading_zero_accepted :
    json_parse (some "01".toList) = node NULL NULL JSON_NUMBER none 1 none ∧
    json_parse (some "012".toList) = node NULL NULL JSON_NUMBER none 12 none ∧
    json_parse (some "-007".toList) = node NULL NULL JSON_NUMBER none (-7) none ∧
    json_parse (some "01".toList) ≠ NULL := by
  decide

/-- C10 as amended: a decimal point with no digit after it is accepted.  A
text that starts with an optional `-`, one or more digits and `.`, followed by
nothing or by a non-digit, parses to a Number with no child and no member name;
when the integer before the point has a magnitude below 2^53 (where the exact
decimal value used for `atof` is the `double` it returns), the value of the
Number is that integer. -/
theorem json_parse_bare_point (neg : Bool) (ip rest : List Char) (hne : ip ≠ [])
    (hip : ∀ c ∈ ip, isdigit c = true)
    (hrest : isdigit (rest.headD '\x00') = false) :
    json_parse (some ((if neg then ['-'] else []) ++ (ip ++ '.' :: rest))) ≠ NULL ∧
    get_type (json_parse (some ((if neg then ['-'] else []) ++ (ip ++ '.' :: rest)))) =
      JSON_NUMBER ∧
    get_child (json_parse (some ((if neg then ['-'] else []) ++ (ip ++ '.' :: rest)))) =
      NULL ∧
    get_string (json_parse (some ((if neg then ['-'] else []) ++ (ip ++ '.' :: rest)))) =
      none ∧
    (digits_value ip < 2 ^ 53 →
      json_parse (some ((if neg then ['-'] else []) ++ (ip ++ '.' :: rest))) =
        node NULL NULL JSON_NUMBER none
          (((if neg then -(digits_value ip : Int) else (digits_value ip : Int)) : Int) : Rat)
          none) := by
  suffices hmain : json_parse (some ((if neg then ['-'] else []) ++ (ip ++ '.' :: rest))) =
      node NULL NULL JSON_NUMBER none
        (((if neg then -(digits_value ip : Int) else (digits_value ip : Int)) : Int) : Rat)
        none by
    rw [hmain]
    exact ⟨by simp, rfl, rfl, rfl, fun _ => rfl⟩
  have hv := parse_value_number
    (((if neg then ['-'] else []) ++ (ip ++ '.' :: rest)).length) neg ip ('.' :: rest)
    hne hip
  have hn := parse_number_point neg ip [] rest hne hip (by simp) hrest
  simp only [List.nil_append] at hn
  have ha := atof_point neg ip hne hip
  simp only [json_parse, hv, hn, ha]

/-- Witness for C10 as amended: the text `1.`. -/
theorem json_parse_bare_point_witness :
    json_parse (some ((if false then ['-'] else []) ++ (['1'] ++ '.' :: []))) =
      node NULL NULL JSON_NUMBER none
        (((if false then -(digits_value ['1'] : Int)
          else (digits_value ['1'] : Int)) : Int) : Rat) none :=
  (json_parse_bare_point false ['1'] [] (by decide) (by decide) (by decide)).2.2.2.2
    (by decide)

/-- Counterexample to C10: `1.` is accepted as the Number 1, and `{"a":1.}` as
an Object whose member `a` is the Number 1. -/
theorem json_parse_bare_point_accepted :
    json_parse (some "1.".toList) = node NULL NULL JSON_NUMBER none 1 none ∧
    json_parse (some "\x7b\"a\":1.\x7d".toList) =
      node NULL (node NULL NULL JSON_NUMBER none 1 (some ['a'])) JSON_OBJECT none 0 none := by
  decide

/-! ### The member loop, fuel and text extension -/

theorem loop_step (value : List Char → Option (json_ptr × List Char)) (fuel : Nat)
    (s s1 s2 s3 : List Char) (object key_item item : json_ptr)
    (hkey : parse_string s = (key_item, s1)) (hk : key_item ≠ NULL)
    (hcolon : next_char s1 = (':', s2))
    (hval : value s2 = some (item, s3)) (hitem : item ≠ NULL) :
    parse_object_loop value (fuel + 1) s object =
      loop_continue value fuel object (get_valuestring key_item) item s3 := by
  cases key_item with
  | NULL => exact absurd rfl hk
  | node a b c d e f =>
    cases item with
    | NULL => exact absurd rfl hitem
    | node a2 b2 c2 d2 e2 f2 =>
      simp only [parse_object_loop, hkey, hcolon, hval, loop_continue, ne_eq,
        not_true_eq_false, if_false]

theorem loop_inv (value : List Char → Option (json_ptr × List Char)) (fuel : Nat)
    (s r : List Char) (object p : json_ptr)
    (h : parse_object_loop value (fuel + 1) s object = some (p, r)) (hp : p ≠ NULL) :
    ∃ key_item s1 s2 item s3,
      parse_string s = (key_item, s1) ∧ key_item ≠ NULL ∧
      next_char s1 = (':', s2) ∧
      value s2 = some (item, s3) ∧ item ≠ NULL := by
  rcases hps : parse_string s with ⟨key_item, s1⟩
  cases key_item with
  | NULL =>
    simp only [parse_object_loop, hps, Option.some.injEq, Prod.mk.injEq] at h
    exact absurd h.1.symm hp
  | node a b c d e f =>
    rcases hnc : next_char s1 with ⟨c1, s2⟩
    by_cases hc : c1 = ':'
    · subst hc
      cases hv : value s2 with
      | none => simp [parse_object_loop, hps, hnc, hv] at h
      | some res =>
        rcases res with ⟨item, s3⟩
        cases item with
        | NULL =>
          simp only [parse_object_loop, hps, hnc, hv, ne_eq, not_true_eq_false, if_false,
            Option.some.injEq, Prod.mk.injEq] at h
          exact absurd h.1.symm hp
        | node a2 b2 c2 d2 e2 f2 =>
          exact ⟨_, s1, s2, _, s3, rfl, by simp, hnc, hv, by simp⟩
    · simp only [parse_object_loop, hps, hnc, ne_eq, hc, not_false_eq_true, if_true,
        Option.some.injEq, Prod.mk.injEq] at h
      exact absurd h.1.symm hp

theorem skip_whitespace_extend (s x : List Char) (h : skip_whitespace s ≠ []) :
    skip_whitespace (s ++ x) = skip_whitespace s ++ x := by
  unfold skip_whitespace at h ⊢
  rw [List.dropWhile_append]
  simp [h]

theorem headD_extend (s x : List Char) (h : s ≠ []) :
    (s ++ x).headD '\x00' = s.headD '\x00' := by
  cases s with
  | nil => exact absurd rfl h
  | cons a t => rfl

theorem tail_extend (s x : List Char) (h : s ≠ []) : (s ++ x).tail = s.tail ++ x := by
  cases s with
  | nil => exact absurd rfl h
  | cons a t => rfl

theorem ne_nil_of_headD (s : List Char) (c : Char) (h : s.headD '\x00' = c)
    (hc : c ≠ '\x00') : s ≠ [] := by
  intro hs
  subst hs
  exact hc h.symm

theorem peek_char_extend (s x : List Char) (h : skip_whitespace s ≠ []) :
    peek_char (s ++ x) = ((peek_char s).1, (peek_char s).2 ++ x) := by
  simp only [peek_char, skip_whitespace_extend s x h, headD_extend _ x h]

theorem next_char_extend (s x : List Char) (h : skip_whitespace s ≠ []) :
    next_char (s ++ x) = ((next_char s).1, (next_char s).2 ++ x) := by
  simp only [next_char, skip_whitespace_extend s x h]
  cases hs : skip_whitespace s with
  | nil => exact absurd hs h
  | cons a t => rfl

theorem next_char_ne_nil (s : List Char) (c : Char) (h : (next_char s).1 = c)
    (hc : c ≠ '\x00') : skip_whitespace s ≠ [] := by
  intro hs
  simp only [next_char, hs] at h
  exact hc h.symm

theorem parse_string_extend (s x : List Char) (h : (parse_string s).1 ≠ NULL) :
    parse_string (s ++ x) = ((parse_string s).1, (parse_string s).2 ++ x) := by
  rcases hnc : next_char s with ⟨c, s1⟩
  by_cases hc : c = '"'
  · subst hc
    have hne : skip_whitespace s ≠ [] :=
      next_char_ne_nil s '"' (by rw [hnc]) (by decide)
    have hnx := next_char_extend s x hne
    rw [hnc] at hnx
    cases hd : s1.dropWhile (fun ch => ch != '"') with
    | nil => simp [parse_string, hnc, hd] at h
    | cons q after =>
      have hd2 : (s1 ++ x).dropWhile (fun ch => ch != '"') = q :: (after ++ x) := by
        rw [List.dropWhile_append, hd]
        simp
      have hlen : (s1 ++ x).length - (q :: (after ++ x)).length =
          s1.length - (q :: after).length := by
        simp only [List.length_append, List.length_cons]
        omega
      have hle : s1.length - (q :: after).length ≤ s1.length := Nat.sub_le _ _
      simp only [parse_string, hnx, hnc, hd, hd2, hlen, ne_eq, not_true_eq_false, if_false,
        List.take_append_of_le_length hle]
  · simp [parse_string, hnc, hc] at h

theorem strncmp_eq_split (s lit : List Char) (h : strncmp_eq s lit = true) :
    s = lit ++ s.drop lit.length := by
  simp only [strncmp_eq, beq_iff_eq] at h
  conv_lhs => rw [← List.take_append_drop lit.length s, h]

theorem parse_literal_extend (s x : List Char) (h : (parse_literal s).1 ≠ NULL) :
    parse_literal (s ++ x) = ((parse_literal s).1, (parse_literal s).2 ++ x) := by
  by_cases h1 : strncmp_eq s ['t', 'r', 'u', 'e'] = true
  · have hs := strncmp_eq_split s _ h1
    rw [hs]
    simp [parse_literal, strncmp_eq]
  · by_cases h2 : strncmp_eq s ['f', 'a', 'l', 's', 'e'] = true
    · have hs := strncmp_eq_split s _ h2
      rw [hs]
      simp [parse_literal, strncmp_eq]
    · by_cases h3 : strncmp_eq s ['n', 'u', 'l', 'l'] = true
      · have hs := strncmp_eq_split s _ h3
        rw [hs]
        simp [parse_literal, strncmp_eq]
      · simp [parse_literal, h1, h2, h3] at h

theorem dropWhile_extend (p : Char → Bool) (a x : List Char)
    (hx : p (x.headD '\x00') = false) :
    (a ++ x).dropWhile p = a.dropWhile p ++ x := by
  rw [List.dropWhile_append]
  split
  · rename_i hnil
    have : a.dropWhile p = [] := by simpa using hnil
    rw [this]
    cases x with
    | nil => rfl
    | cons c t => exact List.dropWhile_cons_of_neg (by simpa using hx)
  · rfl

theorem parse_number_extend (s x : List Char) (h : (parse_number s).1 ≠ NULL)
    (hx : isdigit (x.headD '\x00') = false) (hdot : x.headD '\x00' ≠ '.') :
    parse_number (s ++ x) = ((parse_number s).1, (parse_number s).2 ++ x) := by
  have hdig : isdigit ((if s.headD '\x00' = '-' then s.tail else s).headD '\x00') = true := by
    by_contra hcon
    simp only [Bool.not_eq_true] at hcon
    simp only [parse_number, hcon, Bool.not_false, if_true] at h
    exact h rfl
  have hs1 : (if s.headD '\x00' = '-' then s.tail else s) ≠ [] := by
    intro hnil
    rw [hnil] at hdig
    revert hdig
    decide
  have hs : s ≠ [] := by
    intro hnil
    subst hnil
    simp at hs1
  have hsign : (if (s ++ x).headD '\x00' = '-' then (s ++ x).tail else s ++ x) =
      (if s.headD '\x00' = '-' then s.tail else s) ++ x := by
    rw [headD_extend s x hs, tail_extend s x hs]
    split <;> rfl
  generalize hs1def : (if s.headD '\x00' = '-' then s.tail else s) = s1 at hdig hs1 hsign
  have hdrop := dropWhile_extend isdigit s1 x hx
  generalize hddef : s1.dropWhile isdigit = d at hdrop
  have hpoint : (if (d ++ x).headD '\x00' = '.' then (d ++ x).tail.dropWhile isdigit
      else d ++ x) =
      (if d.headD '\x00' = '.' then d.tail.dropWhile isdigit else d) ++ x := by
    cases d with
    | nil =>
      simp only [List.nil_append, List.headD_nil]
      rw [if_neg hdot, if_neg (by decide)]
      rfl
    | cons c t =>
      simp only [List.cons_append, List.headD_cons, List.tail_cons]
      split
      · exact dropWhile_extend isdigit t x hx
      · rfl
  have hsuf : (if d.headD '\x00' = '.' then d.tail.dropWhile isdigit else d).length ≤
      s.length := by
    have h1 : d.length ≤ s1.length := by
      rw [← hddef]
      exact (List.dropWhile_suffix isdigit).length_le
    have h2 : s1.length ≤ s.length := by
      rw [← hs1def]
      split
      · simp
      · exact le_refl _
    have h3 : (if d.headD '\x00' = '.' then d.tail.dropWhile isdigit else d).length ≤
        d.length := by
      split
      · exact le_trans (List.dropWhile_suffix isdigit).length_le (by simp)
      · exact le_refl _
    omega
  generalize hedef : (if d.headD '\x00' = '.' then d.tail.dropWhile isdigit else d) = e
    at hpoint hsuf
  have hlen : (s ++ x).length - (e ++ x).length = s.length - e.length := by
    simp only [List.length_append]
    omega
  have hle : s.length - e.length ≤ s.length := Nat.sub_le _ _
  have hdig2 : isdigit ((s1 ++ x).headD '\x00') = true := by
    rw [headD_extend s1 x hs1]; exact hdig
  simp only [parse_number, hsign, hs1def, hdig, hdig2, hdrop, hddef, hpoint, hedef, hlen,
    List.take_append_of_le_length hle, Bool.not_true, Bool.false_eq_true, if_false]

theorem skip_whitespace_idem (s : List Char) :
    skip_whitespace (skip_whitespace s) = skip_whitespace s := by
  unfold skip_whitespace
  induction s with
  | nil => rfl
  | cons c t ih =>
    by_cases hc : isspace c = true
    · simp only [List.dropWhile_cons, hc, if_true]; exact ih
    · simp [List.dropWhile_cons, hc]

theorem parse_string_ne_nil (s : List Char) (h : (parse_string s).1 ≠ NULL) :
    skip_whitespace s ≠ [] := by
  intro hs
  simp [parse_string, next_char, hs] at h

theorem loop_unfold (value : List Char → Option (json_ptr × List Char)) (fuel : Nat)
    (s : List Char) (object : json_ptr) :
    parse_object_loop value (fuel + 1) s object =
      if (parse_string s).1 = NULL then some (NULL, (parse_string s).2)
      else if (next_char (parse_string s).2).1 ≠ ':' then
        some (NULL, (next_char (parse_string s).2).2)
      else match value (next_char (parse_string s).2).2 with
        | none => none
        | some res =>
          if res.1 = NULL then some (NULL, res.2)
          else loop_continue value fuel object (get_valuestring (parse_string s).1)
            res.1 res.2 := by
  rcases hps : parse_string s with ⟨key_item, s1⟩
  cases key_item with
  | NULL => simp [parse_object_loop, hps]
  | node a b c d e f =>
    rcases hnc : next_char s1 with ⟨c1, s2⟩
    by_cases hc : c1 = ':'
    · subst hc
      cases hv : value s2 with
      | none => simp [parse_object_loop, hps, hnc, hv]
      | some res =>
        rcases res with ⟨item, s3⟩
        cases item with
        | NULL => simp [parse_object_loop, hps, hnc, hv]
        | node a2 b2 c2 d2 e2 f2 =>
          simp [parse_object_loop, hps, hnc, hv, loop_continue]
    · simp [parse_object_loop, hps, hnc, hc]

theorem loop_mono (v w : List Char → Option (json_ptr × List Char))
    (hvw : ∀ s res, v s = some res → w s = some res) :
    ∀ (n : Nat) (s : List Char) (object : json_ptr) (res : json_ptr × List Char),
      parse_object_loop v n s object = some res →
      parse_object_loop w (n + 1) s object = some res := by
  intro n
  induction n with
  | zero => intro s object res h; simp [parse_object_loop] at h
  | succ n ih =>
    intro s object res h
    rw [loop_unfold] at h ⊢
    by_cases h1 : (parse_string s).1 = NULL
    · simpa only [h1, if_true] using h
    · simp only [h1, if_false] at h ⊢
      by_cases h2 : (next_char (parse_string s).2).1 ≠ ':'
      · rw [if_pos h2] at h ⊢; exact h
      · rw [if_neg h2] at h ⊢
        cases hv : v (next_char (parse_string s).2).2 with
        | none => simp [hv] at h
        | some r =>
          simp only [hv] at h
          simp only [hvw _ _ hv]
          by_cases h3 : r.1 = NULL
          · simpa only [h3, if_true] using h
          · simp only [h3, if_false] at h ⊢
            unfold loop_continue at h ⊢
            by_cases h4 : (peek_char r.2).1 = '}'
            · simpa only [h4, if_true] using h
            · simp only [h4, if_false] at h ⊢
              by_cases h5 : (peek_char r.2).1 = ','
              · simp only [h5, if_true] at h ⊢
                exact ih _ _ _ h
              · simpa only [h5, if_false] using h

theorem parse_object_unfold (v : List Char → Option (json_ptr × List Char)) (n : Nat)
    (s : List Char) :
    parse_object v n s =
      if (next_char s).1 ≠ '{' then some (NULL, (next_char s).2)
      else if (peek_char (next_char s).2).1 = '}' then
        some (set_type json_new JSON_OBJECT, (next_char (peek_char (next_char s).2).2).2)
      else parse_object_loop v n (peek_char (next_char s).2).2
        (set_type json_new JSON_OBJECT) := rfl

theorem parse_value_unfold (fuel : Nat) (s : List Char) :
    parse_value (fuel + 1) s =
      if (peek_char s).1 = '"' then some (parse_string (peek_char s).2)
      else if (peek_char s).1 = '{' then parse_object (parse_value fuel) fuel (peek_char s).2
      else if (peek_char s).1 = '[' then some (parse_array (peek_char s).2)
      else if (peek_char s).1 = 't' ∨ (peek_char s).1 = 'f' ∨ (peek_char s).1 = 'n' then
        some (parse_literal (peek_char s).2)
      else if (peek_char s).1 = '-' ∨ isdigit (peek_char s).1 = true then
        some (parse_number (peek_char s).2)
      else some (NULL, (peek_char s).2) := rfl

theorem parse_object_mono (v w : List Char → Option (json_ptr × List Char))
    (hvw : ∀ s res, v s = some res → w s = some res)
    (n : Nat) (s : List Char) (res : json_ptr × List Char)
    (h : parse_object v n s = some res) : parse_object w (n + 1) s = some res := by
  rw [parse_object_unfold] at h ⊢
  by_cases h1 : (next_char s).1 ≠ '{'
  · rw [if_pos h1] at h ⊢; exact h
  · rw [if_neg h1] at h ⊢
    by_cases h2 : (peek_char (next_char s).2).1 = '}'
    · simpa only [h2, if_true] using h
    · simp only [h2, if_false] at h ⊢
      exact loop_mono v w hvw _ _ _ _ h

theorem parse_value_mono_succ :
    ∀ (fuel : Nat) (s : List Char) (res : json_ptr × List Char),
      parse_value fuel s = some res → parse_value (fuel + 1) s = some res := by
  intro fuel
  induction fuel with
  | zero => intro s res h; simp [parse_value] at h
  | succ n ih =>
    intro s res h
    rw [parse_value_unfold] at h ⊢
    by_cases h1 : (peek_char s).1 = '"'
    · simpa only [h1, if_true] using h
    · simp only [h1, if_false] at h ⊢
      by_cases h2 : (peek_char s).1 = '{'
      · simp only [h2, if_true] at h ⊢
        exact parse_object_mono _ _ ih _ _ _ h
      · simpa only [h2, if_false] using h

theorem parse_value_mono (fuel more : Nat) (s : List Char) (res : json_ptr × List Char)
    (h : parse_value fuel s = some res) : parse_value (fuel + more) s = some res := by
  induction more with
  | zero => exact h
  | succ m ih => exact parse_value_mono_succ _ _ _ ih

theorem peek_char_ne_nil (s : List Char) (c : Char) (h : (peek_char s).1 = c)
    (hc : c ≠ '\x00') : skip_whitespace s ≠ [] :=
  ne_nil_of_headD (skip_whitespace s) c h hc

theorem peek_next_extend (s x : List Char) (c : Char) (h : (peek_char s).1 = c)
    (hc : c ≠ '\x00') :
    (peek_char (s ++ x)).1 = c ∧
    (next_char (peek_char (s ++ x)).2).2 = (next_char (peek_char s).2).2 ++ x := by
  have hne := peek_char_ne_nil s c h hc
  have hne2 : skip_whitespace (peek_char s).2 ≠ [] := by
    show skip_whitespace (skip_whitespace s) ≠ []
    rw [skip_whitespace_idem]; exact hne
  rw [peek_char_extend s x hne]
  exact ⟨h, by rw [next_char_extend _ x hne2]⟩

theorem loop_extend (v : List Char → Option (json_ptr × List Char)) (x : List Char)
    (hv : ∀ s p r, v s = some (p, r) → p ≠ NULL → v (s ++ x) = some (p, r ++ x)) :
    ∀ (n : Nat) (s : List Char) (object p : json_ptr) (r : List Char),
      parse_object_loop v n s object = some (p, r) → p ≠ NULL →
      parse_object_loop v n (s ++ x) object = some (p, r ++ x) := by
  intro n
  induction n with
  | zero => intro s object p r h; simp [parse_object_loop] at h
  | succ n ih =>
    intro s object p r h hp
    rw [loop_unfold] at h ⊢
    by_cases h1 : (parse_string s).1 = NULL
    · rw [if_pos h1] at h
      simp only [Option.some.injEq, Prod.mk.injEq] at h
      exact absurd h.1.symm hp
    · rw [if_neg h1] at h
      have hstr := parse_string_extend s x h1
      simp only [hstr]
      rw [if_neg h1]
      by_cases h2 : (next_char (parse_string s).2).1 ≠ ':'
      · rw [if_pos h2] at h
        simp only [Option.some.injEq, Prod.mk.injEq] at h
        exact absurd h.1.symm hp
      · rw [if_neg h2] at h
        have h2c : (next_char (parse_string s).2).1 = ':' := not_not.mp h2
        have hnx := next_char_extend (parse_string s).2 x
          (next_char_ne_nil _ ':' h2c (by decide))
        simp only [hnx]
        rw [if_neg h2]
        cases hval : v (next_char (parse_string s).2).2 with
        | none => simp [hval] at h
        | some res =>
          simp only [hval] at h
          by_cases h3 : res.1 = NULL
          · rw [if_pos h3] at h
            simp only [Option.some.injEq, Prod.mk.injEq] at h
            exact absurd h.1.symm hp
          · rw [if_neg h3] at h
            have hvx := hv _ res.1 res.2 hval h3
            simp only [hvx]
            rw [if_neg h3]
            unfold loop_continue at h ⊢
            by_cases h4 : (peek_char res.2).1 = '}'
            · obtain ⟨e1, e2⟩ := peek_next_extend res.2 x '}' h4 (by decide)
              rw [if_pos h4] at h
              rw [if_pos e1, e2]
              simp only [Option.some.injEq, Prod.mk.injEq] at h ⊢
              exact ⟨h.1, by rw [h.2]⟩
            · rw [if_neg h4] at h
              by_cases h5 : (peek_char res.2).1 = ','
              · obtain ⟨e1, e2⟩ := peek_next_extend res.2 x ',' h5 (by decide)
                rw [if_pos h5] at h
                have e3 : ¬ (peek_char (res.2 ++ x)).1 = '}' := by rw [e1]; decide
                rw [if_neg e3, if_pos e1, e2]
                exact ih _ _ _ _ h hp
              · rw [if_neg h5] at h
                simp only [Option.some.injEq, Prod.mk.injEq] at h
                exact absurd h.1.symm hp

theorem parse_object_extend (v : List Char → Option (json_ptr × List Char)) (x : List Char)
    (hv : ∀ s p r, v s = some (p, r) → p ≠ NULL → v (s ++ x) = some (p, r ++ x))
    (n : Nat) (s : List Char) (p : json_ptr) (r : List Char)
    (h : parse_object v n s = some (p, r)) (hp : p ≠ NULL) :
    parse_object v n (s ++ x) = some (p, r ++ x) := by
  rw [parse_object_unfold] at h ⊢
  by_cases h1 : (next_char s).1 ≠ '{'
  · rw [if_pos h1] at h
    simp only [Option.some.injEq, Prod.mk.injEq] at h
    exact absurd h.1.symm hp
  · rw [if_neg h1] at h
    have h1c : (next_char s).1 = '{' := not_not.mp h1
    have hnx := next_char_extend s x (next_char_ne_nil _ '{' h1c (by decide))
    simp only [hnx]
    rw [if_neg h1]
    by_cases h2 : (peek_char (next_char s).2).1 = '}'
    · obtain ⟨e1, e2⟩ := peek_next_extend (next_char s).2 x '}' h2 (by decide)
      rw [if_pos h2] at h
      rw [if_pos e1, e2]
      simp only [Option.some.injEq, Prod.mk.injEq] at h ⊢
      exact ⟨h.1, by rw [h.2]⟩
    · rw [if_neg h2] at h
      have hne : skip_whitespace (next_char s).2 ≠ [] := by
        cases n with
        | zero => simp [parse_object_loop] at h
        | succ m =>
          obtain ⟨k, s1, s2, item, s3, hk, hkn, -⟩ := loop_inv v m _ _ _ _ h hp
          have := parse_string_ne_nil (peek_char (next_char s).2).2
            (by rw [hk]; exact hkn)
          rw [show (peek_char (next_char s).2).2 = skip_whitespace (next_char s).2 from rfl,
            skip_whitespace_idem] at this
          exact this
      have hpk := peek_char_extend (next_char s).2 x hne
      have e3 : ¬ (peek_char ((next_char s).2 ++ x)).1 = '}' := by rw [hpk]; exact h2
      rw [if_neg e3, hpk]
      exact loop_extend v x hv _ _ _ _ _ h hp

theorem parse_value_extend (x : List Char)
    (hx : isdigit (x.headD '\x00') = false) (hdot : x.headD '\x00' ≠ '.') :
    ∀ (fuel : Nat) (s : List Char) (p : json_ptr) (r : List Char),
      parse_value fuel s = some (p, r) → p ≠ NULL →
      parse_value fuel (s ++ x) = some (p, r ++ x) := by
  intro fuel
  induction fuel with
  | zero => intro s p r h; simp [parse_value] at h
  | succ n ih =>
    intro s p r h hp
    rw [parse_value_unfold] at h ⊢
    have hnz : (peek_char s).1 ≠ '\x00' := by
      intro hz
      rw [hz] at h
      simp only [Char.reduceEq, if_false, false_or, show isdigit '\x00' = false from rfl,
        Bool.false_eq_true, Option.some.injEq, Prod.mk.injEq] at h
      exact absurd h.1.symm hp
    have hne := peek_char_ne_nil s _ rfl hnz
    have hpk := peek_char_extend s x hne
    simp only [hpk]
    by_cases h1 : (peek_char s).1 = '"'
    · rw [if_pos h1] at h ⊢
      simp only [Option.some.injEq] at h ⊢
      have hs : (parse_string (peek_char s).2).1 ≠ NULL := by rw [h]; exact hp
      rw [parse_string_extend _ x hs, h]
    · rw [if_neg h1] at h ⊢
      by_cases h2 : (peek_char s).1 = '{'
      · rw [if_pos h2] at h ⊢
        exact parse_object_extend _ x ih _ _ _ _ h hp
      · rw [if_neg h2] at h ⊢
        by_cases h3 : (peek_char s).1 = '['
        · rw [if_pos h3] at h
          simp only [parse_array, Option.some.injEq, Prod.mk.injEq] at h
          exact absurd h.1.symm hp
        · rw [if_neg h3] at h ⊢
          by_cases h4 : (peek_char s).1 = 't' ∨ (peek_char s).1 = 'f' ∨ (peek_char s).1 = 'n'
          · rw [if_pos h4] at h ⊢
            simp only [Option.some.injEq] at h ⊢
            have hs : (parse_literal (peek_char s).2).1 ≠ NULL := by rw [h]; exact hp
            rw [parse_literal_extend _ x hs, h]
          · rw [if_neg h4] at h ⊢
            by_cases h5 : (peek_char s).1 = '-' ∨ isdigit (peek_char s).1 = true
            · rw [if_pos h5] at h ⊢
              simp only [Option.some.injEq] at h ⊢
              have hs : (parse_number (peek_char s).2).1 ≠ NULL := by rw [h]; exact hp
              rw [parse_number_extend _ x hs hx hdot, h]
            · rw [if_neg h5] at h
              simp only [Option.some.injEq, Prod.mk.injEq] at h
              exact absurd h.1.symm hp

/-- C1 as amended: trailing data is not rejected.  When `json_parse` succeeds
on a text, it returns the same Value on that text followed by any further
characters, as long as these do not begin with a digit or `.` (which could
lengthen a number at the end of the text); in particular a complete value
followed by whitespace and anything else parses to that value. -/
theorem json_parse_ignores_trailing (t x : List Char)
    (hok : json_parse (some t) ≠ NULL)
    (hx : isdigit (x.headD '\x00') = false) (hdot : x.headD '\x00' ≠ '.') :
    json_parse (some (t ++ x)) = json_parse (some t) := by
  simp only [json_parse] at hok ⊢
  cases hv : parse_value (t.length + 1) t with
  | none => simp [hv] at hok
  | some res =>
    rcases res with ⟨p, r⟩
    simp only [hv] at hok ⊢
    have hext := parse_value_extend x hx hdot _ t p r hv hok
    have hmono := parse_value_mono _ x.length _ _ hext
    have hlen : (t ++ x).length + 1 = t.length + 1 + x.length := by
      simp only [List.length_append]; omega
    rw [hlen, hmono]

/-- Witness for C1 as amended: the text `1` followed by ` 2`. -/
theorem json_parse_ignores_trailing_witness :
    json_parse (some (['1'] ++ [' ', '2'])) = json_parse (some ['1']) :=
  json_parse_ignores_trailing ['1'] [' ', '2'] (by decide) (by decide) (by decide)

/-- Counterexample to C1: on `1 2`, a complete value followed by a space and a
further non-whitespace character, `json_parse` returns the Number 1 and not
`NULL`. -/
theorem json_parse_trailing_accepted :
    json_parse (some "1 2".toList) = node NULL NULL JSON_NUMBER none 1 none ∧
    json_parse (some "1 2".toList) ≠ NULL := by
  decide

/-! ### Objects -/

theorem append_sibling_NULL (p : json_ptr) : append_sibling p NULL = p := by
  induction p with
  | NULL => rfl
  | node nx ch t vs vn s ih _ => simp [append_sibling, ih]

theorem append_sibling_assoc (a b c : json_ptr) :
    append_sibling (append_sibling a b) c = append_sibling a (append_sibling b c) := by
  induction a with
  | NULL => rfl
  | node nx ch t vs vn s ih _ => simp [append_sibling, ih]

theorem loop_next_NULL (v : List Char → Option (json_ptr × List Char)) :
    ∀ (n : Nat) (s : List Char) (object p : json_ptr) (r : List Char),
      parse_object_loop v n s object = some (p, r) → get_next object = NULL →
      get_next p = NULL := by
  intro n
  induction n with
  | zero => intro s object p r h; simp [parse_object_loop] at h
  | succ n ih =>
    intro s object p r h hobj
    have hNULL : ∀ q : List Char, some (NULL, q) = some (p, r) → get_next p = NULL := by
      intro q hq
      simp only [Option.some.injEq, Prod.mk.injEq] at hq
      rw [← hq.1]; rfl
    have hset : ∀ c, get_next (set_child object c) = NULL := by
      intro c
      cases object with
      | NULL => rfl
      | node a b c d e f => simpa [set_child, get_next] using hobj
    rw [loop_unfold] at h
    by_cases h1 : (parse_string s).1 = NULL
    · rw [if_pos h1] at h; exact hNULL _ h
    · rw [if_neg h1] at h
      by_cases h2 : (next_char (parse_string s).2).1 ≠ ':'
      · rw [if_pos h2] at h; exact hNULL _ h
      · rw [if_neg h2] at h
        cases hval : v (next_char (parse_string s).2).2 with
        | none => simp [hval] at h
        | some res =>
          simp only [hval] at h
          by_cases h3 : res.1 = NULL
          · rw [if_pos h3] at h; exact hNULL _ h
          · rw [if_neg h3] at h
            unfold loop_continue at h
            by_cases h4 : (peek_char res.2).1 = '}'
            · rw [if_pos h4] at h
              simp only [Option.some.injEq, Prod.mk.injEq] at h
              rw [← h.1]; exact hset _
            · rw [if_neg h4] at h
              by_cases h5 : (peek_char res.2).1 = ','
              · rw [if_pos h5] at h
                exact ih _ _ _ _ h (hset _)
              · rw [if_neg h5] at h; exact hNULL _ h

theorem parse_number_next_NULL (s : List Char) : get_next (parse_number s).1 = NULL := by
  by_cases hd : (!isdigit ((if s.headD '\x00' = '-' then s.tail else s).headD '\x00')) = true
  · simp only [parse_number, hd, if_true]; rfl
  · simp only [parse_number, hd, if_false]; rfl

theorem parse_value_next_NULL (fuel : Nat) (s : List Char) (p : json_ptr) (r : List Char)
    (h : parse_value fuel s = some (p, r)) : get_next p = NULL := by
  cases fuel with
  | zero => simp [parse_value] at h
  | succ n =>
    rw [parse_value_unfold] at h
    by_cases h1 : (peek_char s).1 = '"'
    · rw [if_pos h1] at h
      simp only [Option.some.injEq] at h
      have : p = (parse_string (peek_char s).2).1 := by rw [h]
      rw [this]
      simp only [parse_string]
      split
      · rfl
      · split <;> rfl
    · rw [if_neg h1] at h
      by_cases h2 : (peek_char s).1 = '{'
      · rw [if_pos h2, parse_object_unfold] at h
        by_cases h6 : (next_char (peek_char s).2).1 ≠ '{'
        · rw [if_pos h6] at h
          simp only [Option.some.injEq, Prod.mk.injEq] at h
          rw [← h.1]; rfl
        · rw [if_neg h6] at h
          by_cases h7 : (peek_char (next_char (peek_char s).2).2).1 = '}'
          · rw [if_pos h7] at h
            simp only [Option.some.injEq, Prod.mk.injEq] at h
            rw [← h.1]; rfl
          · rw [if_neg h7] at h
            exact loop_next_NULL _ _ _ _ _ _ h rfl
      · rw [if_neg h2] at h
        by_cases h3 : (peek_char s).1 = '['
        · rw [if_pos h3] at h
          simp only [parse_array, Option.some.injEq, Prod.mk.injEq] at h
          rw [← h.1]; rfl
        · rw [if_neg h3] at h
          by_cases h4 : (peek_char s).1 = 't' ∨ (peek_char s).1 = 'f' ∨ (peek_char s).1 = 'n'
          · rw [if_pos h4] at h
            simp only [Option.some.injEq] at h
            have : p = (parse_literal (peek_char s).2).1 := by rw [h]
            rw [this]
            simp only [parse_literal]
            split
            · rfl
            · split
              · rfl
              · split <;> rfl
          · rw [if_neg h4] at h
            by_cases h5 : (peek_char s).1 = '-' ∨ isdigit (peek_char s).1 = true
            · rw [if_pos h5] at h
              simp only [Option.some.injEq] at h
              have : p = (parse_number (peek_char s).2).1 := by rw [h]
              rw [this]
              exact parse_number_next_NULL _
            · rw [if_neg h5] at h
              simp only [Option.some.injEq, Prod.mk.injEq] at h
              rw [← h.1]; rfl


theorem value_in_context (f : Nat) (v tail : List Char) (p : json_ptr) (hp : p ≠ NULL)
    (hv : parse_value (v.length + 1) v = some (p, [])) (hf : v.length + 1 ≤ f)
    (htail : isdigit (tail.headD '\x00') = false) (hdot : tail.headD '\x00' ≠ '.') :
    parse_value f (v ++ tail) = some (p, tail) := by
  have hext := parse_value_extend tail htail hdot _ v p [] hv hp
  have hmono := parse_value_mono _ (f - (v.length + 1)) _ _ hext
  have hfe : v.length + 1 + (f - (v.length + 1)) = f := by omega
  rw [hfe] at hmono
  simpa using hmono

theorem loop_member_step (f n : Nat) (k v tail : List Char) (ch p : json_ptr)
    (hk : ∀ c ∈ k, c ≠ '"') (hp : p ≠ NULL)
    (hv : parse_value f (v ++ tail) = some (p, tail)) :
    parse_object_loop (parse_value f) (n + 1) ('"' :: (k ++ '"' :: ':' :: (v ++ tail)))
        (node NULL ch JSON_OBJECT none 0 none) =
      loop_continue (parse_value f) n (node NULL ch JSON_OBJECT none 0 none) (some k) p
        tail := by
  have hkey := parse_string_quoted [] k (':' :: (v ++ tail)) (by simp) hk
  simp only [List.nil_append] at hkey
  have hcolon : next_char (':' :: (v ++ tail)) = (':', v ++ tail) := by
    simp only [next_char, skip_whitespace_cons ':' _ (by decide)]
  exact loop_step (parse_value f) n _ _ _ _ _ _ p hkey (by simp) hcolon hv hp

theorem loop_continue_close (v : List Char → Option (json_ptr × List Char)) (n : Nat)
    (ch p : json_ptr) (k : List Char) (rest : List Char) :
    loop_continue v n (node NULL ch JSON_OBJECT none 0 none) (some k) p ('}' :: rest) =
      some (node NULL (append_sibling ch (set_string p (some k))) JSON_OBJECT none 0 none,
        rest) := by
  have hskip := skip_whitespace_cons '}' rest (by decide)
  simp only [loop_continue, peek_char, next_char, hskip, skip_whitespace_idem,
    List.headD_cons, if_true, set_child, get_child]

theorem loop_continue_comma (v : List Char → Option (json_ptr × List Char)) (n : Nat)
    (ch p : json_ptr) (k : List Char) (rest : List Char) :
    loop_continue v n (node NULL ch JSON_OBJECT none 0 none) (some k) p (',' :: rest) =
      parse_object_loop v n rest
        (node NULL (append_sibling ch (set_string p (some k))) JSON_OBJECT none 0 none) := by
  have hskip := skip_whitespace_cons ',' rest (by decide)
  simp only [loop_continue, peek_char, next_char, hskip, skip_whitespace_idem,
    List.headD_cons, Char.reduceEq, if_false, if_true, set_child, get_child]

theorem loop_members (f : Nat) :
    ∀ (ms : List (List Char × List Char)), ms ≠ [] →
      ∀ (n : Nat) (ch : json_ptr) (rest : List Char),
      (∀ m ∈ ms, plain_key m.1 ∧ complete_value m.2 ∧ m.2.length + 1 ≤ f) →
      ms.length ≤ n →
      parse_object_loop (parse_value f) n (members_text ms ++ rest)
          (node NULL ch JSON_OBJECT none 0 none) =
        some (node NULL (append_sibling ch (link (member_items ms))) JSON_OBJECT none 0 none,
          rest) := by
  intro ms
  induction ms with
  | nil => intro h; exact absurd rfl h
  | cons m tl ih =>
    intro _ n ch rest hall hn
    obtain ⟨hkey, ⟨p, hp, hv⟩, hf⟩ := hall m (by simp)
    have hk : ∀ c ∈ m.1, c ≠ '"' := fun c hc => (hkey c hc).1
    have hparse : json_parse (some m.2) = p := by simp only [json_parse, hv]
    cases n with
    | zero => simp at hn
    | succ n =>
      cases tl with
      | nil =>
        have htext : members_text [m] ++ rest =
            '"' :: (m.1 ++ '"' :: ':' :: (m.2 ++ '}' :: rest)) := by
          simp [members_text, member_text]
        have hval := value_in_context f m.2 ('}' :: rest) p hp hv hf
          (by show isdigit '}' = false; decide) (by show '}' ≠ '.'; decide)
        rw [htext, loop_member_step f n m.1 m.2 ('}' :: rest) ch p hk hp hval,
          loop_continue_close]
        simp [member_items, link, hparse, append_sibling_NULL]
      | cons m2 tl2 =>
        have htext : members_text (m :: m2 :: tl2) ++ rest =
            '"' :: (m.1 ++ '"' :: ':' :: (m.2 ++ ',' :: (members_text (m2 :: tl2) ++ rest)))
            := by
          simp [members_text, member_text]
        have hval := value_in_context f m.2 (',' :: (members_text (m2 :: tl2) ++ rest)) p hp
          hv hf (by show isdigit ',' = false; decide) (by show ',' ≠ '.'; decide)
        rw [htext, loop_member_step f n m.1 m.2 _ ch p hk hp hval, loop_continue_comma]
        rw [ih (by simp) n _ rest (fun m' hm' => hall m' (by simp [hm']))
          (by simp only [List.length_cons] at hn ⊢; omega)]
        simp [member_items, link, hparse, append_sibling_assoc]


theorem members_text_head (ms : List (List Char × List Char)) (hne : ms ≠ []) :
    ∃ t, members_text ms = '"' :: t := by
  cases ms with
  | nil => exact absurd rfl hne
  | cons m tl =>
    cases tl with
    | nil => exact ⟨_, rfl⟩
    | cons m2 tl2 => exact ⟨_, rfl⟩

theorem members_text_length (ms : List (List Char × List Char)) :
    ms.length ≤ (members_text ms).length ∧
    ∀ m ∈ ms, m.2.length ≤ (members_text ms).length := by
  induction ms with
  | nil => simp [members_text]
  | cons m tl ih =>
    cases tl with
    | nil =>
      refine ⟨by simp [members_text, member_text], ?_⟩
      intro m' hm'
      simp only [List.mem_singleton] at hm'
      subst hm'
      simp only [members_text, member_text, List.length_append, List.length_cons]
      omega
    | cons m2 tl2 =>
      obtain ⟨ih1, ih2⟩ := ih
      have hlen : (members_text (m :: m2 :: tl2)).length =
          (member_text m).length + 1 + (members_text (m2 :: tl2)).length := by
        simp only [members_text, List.length_append, List.length_cons]
        omega
      have hm : m.2.length ≤ (member_text m).length := by
        simp only [member_text, List.length_append, List.length_cons]
        omega
      refine ⟨by simp only [List.length_cons] at ih1 ⊢; omega, ?_⟩
      intro m' hm'
      rcases List.mem_cons.mp hm' with h | h
      · subst h; omega
      · have := ih2 m' h; omega

theorem siblings_link (items : List json_ptr)
    (h : ∀ a ∈ items, a ≠ NULL ∧ get_next a = NULL) :
    (siblings (link items)).map (fun c => set_next c NULL) = items := by
  induction items with
  | nil => rfl
  | cons a tl ih =>
    obtain ⟨ha, hnx⟩ := h a (by simp)
    cases a with
    | NULL => exact absurd rfl ha
    | node nx ch t vs vn s =>
      simp only [get_next] at hnx
      subst hnx
      simp only [link, append_sibling, siblings, List.map_cons]
      rw [ih (fun b hb => h b (by simp [hb]))]
      rfl

theorem member_items_sound (ms : List (List Char × List Char))
    (hvals : ∀ m ∈ ms, complete_value m.2) :
    ∀ a ∈ member_items ms, a ≠ NULL ∧ get_next a = NULL := by
  intro a ha
  simp only [member_items, List.mem_map] at ha
  obtain ⟨m, hm, rfl⟩ := ha
  obtain ⟨p, hp, hv⟩ := hvals m hm
  have hparse : json_parse (some m.2) = p := by simp only [json_parse, hv]
  have hnx := parse_value_next_NULL _ _ _ _ hv
  rw [hparse]
  cases p with
  | NULL => exact absurd rfl hp
  | node nx ch t vs vn s => exact ⟨by simp [set_string], by simpa [set_string, get_next] using hnx⟩

theorem parse_object_text (ms : List (List Char × List Char)) (hne : ms ≠ [])
    (hkeys : ∀ m ∈ ms, plain_key m.1) (hvals : ∀ m ∈ ms, complete_value m.2) :
    json_parse (some ('{' :: members_text ms)) =
      node NULL (link (member_items ms)) JSON_OBJECT none 0 none := by
  obtain ⟨t, ht⟩ := members_text_head ms hne
  obtain ⟨hlen1, hlen2⟩ := members_text_length ms
  have hloop := loop_members (('{' :: members_text ms).length) ms hne
    (('{' :: members_text ms).length) NULL []
    (fun m hm => ⟨hkeys m hm, hvals m hm, by
      have := hlen2 m hm
      simp only [List.length_cons]; omega⟩)
    (by simp only [List.length_cons]; omega)
  simp only [List.append_nil, append_sibling] at hloop
  have hskip1 := skip_whitespace_cons '{' (members_text ms) (by decide)
  have hskip2 : skip_whitespace (members_text ms) = members_text ms := by
    rw [ht]; exact skip_whitespace_cons '"' t (by decide)
  have hhead : (members_text ms).headD '\x00' = '"' := by rw [ht]; rfl
  simp only [json_parse]
  rw [parse_value_unfold, parse_object_unfold]
  simp only [peek_char, next_char, hskip1, hskip2, hhead, List.headD_cons, Char.reduceEq,
    if_false, if_true, ne_eq, not_true_eq_false, set_type, json_new, hloop]


/-- C3 as amended: object parsing keeps members, keys and order for value
texts that the parser reads completely.  For one or more members whose keys
have no double quote, backslash or control character and on whose value texts
`parse_value` succeeds and consumes the whole text (which holds for no array
text), the text `{"k1":v1,...,"kn":vn}` parses to an Object whose children are,
in source order, the parses of the value texts, each carrying its key as member
name; there are exactly `n` of them.  Duplicate keys are kept, and
`json_object_get` on the parse of `{"k":1,"k":2}` with key `k` returns the
first member, the Number 1. -/
theorem json_parse_object_members (ms : List (List Char × List Char)) (hne : ms ≠ [])
    (hkeys : ∀ m ∈ ms, plain_key m.1) (hvals : ∀ m ∈ ms, complete_value m.2) :
    json_parse (some ('{' :: members_text ms)) =
      node NULL (link (member_items ms)) JSON_OBJECT none 0 none ∧
    (siblings (get_child (json_parse (some ('{' :: members_text ms))))).map
      (fun c => set_next c NULL) = member_items ms ∧
    (siblings (get_child (json_parse (some ('{' :: members_text ms))))).length = ms.length ∧
    json_object_get (json_parse (some "\x7b\"k\":1,\"k\":2\x7d".toList)) (some ['k']) =
      node (node NULL NULL JSON_NUMBER none 2 (some ['k'])) NULL JSON_NUMBER none 1
        (some ['k']) := by
  have hparse := parse_object_text ms hne hkeys hvals
  have hsib := siblings_link (member_items ms) (member_items_sound ms hvals)
  refine ⟨hparse, ?_, ?_, by decide⟩
  · rw [hparse]; exact hsib
  · rw [hparse]
    have := congrArg List.length hsib
    simpa [member_items, get_child] using this

/-- Witness for C3 as amended: the members `"k":1` and `"k":2`. -/
theorem json_parse_object_members_witness :
    json_parse (some ('{' :: members_text [(['k'], ['1']), (['k'], ['2'])])) =
      node NULL (link (member_items [(['k'], ['1']), (['k'], ['2'])])) JSON_OBJECT none 0
        none :=
  (json_parse_object_members [(['k'], ['1']), (['k'], ['2'])] (by simp)
    (by
      intro m hm
      simp only [List.mem_cons, List.mem_singleton, List.not_mem_nil, or_false] at hm
      rcases hm with h | h <;> subst h <;> unfold plain_key <;> decide)
    (by
      intro m hm
      simp only [List.mem_cons, List.mem_singleton, List.not_mem_nil, or_false] at hm
      rcases hm with h | h
      · subst h
        exact ⟨node NULL NULL JSON_NUMBER none 1 none, by decide, by decide⟩
      · subst h
        exact ⟨node NULL NULL JSON_NUMBER none 2 none, by decide, by decide⟩)).1


/-- Counterexample to C3: `1e2` is a valid JSON number text, not an array, and
`json_parse` accepts it (as the Number 1, reading only `1`); yet as a member
value, in `{"k":1e2}`, it makes `json_parse` return `NULL`. -/
theorem json_parse_object_exponent_member :
    json_parse (some "1e2".toList) = node NULL NULL JSON_NUMBER none 1 none ∧
    json_parse (some "\x7b\"k\":1e2\x7d".toList) = NULL := by
  decide

/-! ### Totality: the bound of `json_parse` is never reached -/

theorem skip_whitespace_length (s : List Char) : (skip_whitespace s).length ≤ s.length :=
  (List.dropWhile_suffix isspace).length_le

theorem peek_char_length (s : List Char) : (peek_char s).2.length ≤ s.length :=
  skip_whitespace_length s

theorem next_char_length (s : List Char) : (next_char s).2.length ≤ s.length := by
  have h := skip_whitespace_length s
  simp only [next_char]
  cases hs : skip_whitespace s with
  | nil => simp
  | cons c t =>
    rw [hs] at h
    simp only [List.length_cons] at h ⊢
    omega

theorem parse_string_length (s : List Char) :
    (parse_string s).2.length ≤ s.length ∧
    ((parse_string s).1 ≠ NULL → (parse_string s).2.length < s.length) := by
  have h := skip_whitespace_length s
  simp only [parse_string, next_char]
  cases hs : skip_whitespace s with
  | nil => simp
  | cons c t =>
    rw [hs] at h
    simp only [List.length_cons] at h
    by_cases hc : c = '"'
    · subst hc
      simp only [ne_eq, not_true_eq_false, if_false]
      have hd := (List.dropWhile_suffix (l := t) (fun ch => ch != '"')).length_le
      cases hdw : t.dropWhile (fun ch => ch != '"') with
      | nil => simp
      | cons q after =>
        rw [hdw] at hd
        simp only [List.length_cons] at hd
        exact ⟨by show after.length ≤ s.length; omega,
          fun _ => by show after.length < s.length; omega⟩
    · simp only [ne_eq, hc, not_false_eq_true, if_true, not_true_eq_false, false_implies,
        and_true]
      omega

theorem parse_number_length (s : List Char) : (parse_number s).2.length ≤ s.length := by
  have h1 : (if s.headD '\x00' = '-' then s.tail else s).length ≤ s.length := by
    split
    · simp
    · exact le_refl _
  generalize hs1 : (if s.headD '\x00' = '-' then s.tail else s) = s1 at h1
  cases hd : isdigit (s1.headD '\x00') with
  | false =>
    simp only [parse_number, hs1, hd, Bool.not_false, if_true]; exact h1
  | true =>
    simp only [parse_number, hs1, hd, Bool.not_true, Bool.false_eq_true, if_false]
    have h2 := (List.dropWhile_suffix (l := s1) isdigit).length_le
    split
    · have h3 := (List.dropWhile_suffix (l := (s1.dropWhile isdigit).tail) isdigit).length_le
      have h4 : (s1.dropWhile isdigit).tail.length ≤ (s1.dropWhile isdigit).length := by simp
      omega
    · omega

theorem parse_literal_length (s : List Char) : (parse_literal s).2.length ≤ s.length := by
  simp only [parse_literal]
  split
  · simp
  · split
    · simp
    · split
      · simp
      · exact le_refl _

theorem loop_total (v : List Char → Option (json_ptr × List Char)) (f : Nat)
    (hv : ∀ s : List Char, s.length < f → ∃ res, v s = some res ∧ res.2.length ≤ s.length) :
    ∀ (n : Nat) (s : List Char) (object : json_ptr), s.length < n → s.length ≤ f →
      ∃ res, parse_object_loop v n s object = some res ∧ res.2.length ≤ s.length := by
  intro n
  induction n with
  | zero => intro s object h; omega
  | succ n ih =>
    intro s object hn hf
    obtain ⟨hs1, hs2⟩ := parse_string_length s
    have hnx := next_char_length (parse_string s).2
    rw [loop_unfold]
    by_cases h1 : (parse_string s).1 = NULL
    · rw [if_pos h1]; exact ⟨_, rfl, hs1⟩
    · rw [if_neg h1]
      have hlt := hs2 h1
      by_cases h2 : (next_char (parse_string s).2).1 ≠ ':'
      · rw [if_pos h2]; exact ⟨_, rfl, by dsimp only; omega⟩
      · rw [if_neg h2]
        obtain ⟨res, hres, hlen⟩ := hv (next_char (parse_string s).2).2 (by omega)
        simp only [hres]
        by_cases h3 : res.1 = NULL
        · rw [if_pos h3]; exact ⟨_, rfl, by dsimp only; omega⟩
        · rw [if_neg h3]
          have hpk := peek_char_length res.2
          have hnx2 := next_char_length (peek_char res.2).2
          unfold loop_continue
          by_cases h4 : (peek_char res.2).1 = '}'
          · rw [if_pos h4]; exact ⟨_, rfl, by dsimp only; omega⟩
          · rw [if_neg h4]
            by_cases h5 : (peek_char res.2).1 = ','
            · rw [if_pos h5]
              obtain ⟨r2, hr2, hlen2⟩ := ih (next_char (peek_char res.2).2).2
                (set_child object (append_sibling (get_child object)
                  (set_string res.1 (get_valuestring (parse_string s).1))))
                (by omega) (by omega)
              exact ⟨r2, hr2, by omega⟩
            · rw [if_neg h5]; exact ⟨_, rfl, by dsimp only; omega⟩

theorem parse_value_total :
    ∀ (f : Nat) (s : List Char), s.length < f →
      ∃ res, parse_value f s = some res ∧ res.2.length ≤ s.length := by
  intro f
  induction f with
  | zero => intro s h; omega
  | succ f ih =>
    intro s hf
    have hpk := peek_char_length s
    rw [parse_value_unfold]
    by_cases h1 : (peek_char s).1 = '"'
    · rw [if_pos h1]
      exact ⟨_, rfl, le_trans (parse_string_length _).1 hpk⟩
    · rw [if_neg h1]
      by_cases h2 : (peek_char s).1 = '{'
      · rw [if_pos h2, parse_object_unfold]
        have hnx := next_char_length (peek_char s).2
        by_cases h6 : (next_char (peek_char s).2).1 ≠ '{'
        · rw [if_pos h6]; exact ⟨_, rfl, by dsimp only; omega⟩
        · rw [if_neg h6]
          have hpk2 := peek_char_length (next_char (peek_char s).2).2
          have hnx2 := next_char_length (peek_char (next_char (peek_char s).2).2).2
          by_cases h7 : (peek_char (next_char (peek_char s).2).2).1 = '}'
          · rw [if_pos h7]; exact ⟨_, rfl, by dsimp only; omega⟩
          · rw [if_neg h7]
            have hstrict : (next_char (peek_char s).2).2.length < (peek_char s).2.length := by
              have hne := next_char_ne_nil (peek_char s).2 '{' (not_not.mp h6) (by decide)
              simp only [next_char]
              cases hs : skip_whitespace (peek_char s).2 with
              | nil => exact absurd hs hne
              | cons c t =>
                have := skip_whitespace_length (peek_char s).2
                rw [hs] at this
                simp only [List.length_cons] at this ⊢
                omega
            obtain ⟨res, hres, hlen⟩ := loop_total (parse_value f) f ih f
              (peek_char (next_char (peek_char s).2).2).2 (set_type json_new JSON_OBJECT)
              (by omega) (by omega)
            exact ⟨res, hres, by omega⟩
      · rw [if_neg h2]
        by_cases h3 : (peek_char s).1 = '['
        · rw [if_pos h3]; exact ⟨_, rfl, hpk⟩
        · rw [if_neg h3]
          by_cases h4 : (peek_char s).1 = 't' ∨ (peek_char s).1 = 'f' ∨ (peek_char s).1 = 'n'
          · rw [if_pos h4]
            exact ⟨_, rfl, le_trans (parse_literal_length _) hpk⟩
          · rw [if_neg h4]
            by_cases h5 : (peek_char s).1 = '-' ∨ isdigit (peek_char s).1 = true
            · rw [if_pos h5]
              exact ⟨_, rfl, le_trans (parse_number_length _) hpk⟩
            · rw [if_neg h5]; exact ⟨_, rfl, hpk⟩

theorem json_parse_total (t : List Char) :
    ∃ res, parse_value (t.length + 1) t = some res ∧ json_parse (some t) = res.1 := by
  obtain ⟨res, hres, -⟩ := parse_value_total (t.length + 1) t (Nat.lt_succ_self _)
  exact ⟨res, hres, by simp only [json_parse, hres]⟩

/-! ### Exponents and integers -/

/-- C11 as amended: an exponent is not part of the number lexeme.  A text
that starts with an integer lexeme (an optional `-` and one or more digits)
followed by `e` or `E` and anything else parses to a Number with no child and
no member name, and the exponent is left unread; when the integer has a
magnitude below 2^53 (where the exact decimal value used for `atof` is the
`double` it returns), the value of the Number is that of the integer alone. -/
theorem json_parse_exponent_unread (neg : Bool) (ip rest : List Char) (mark : Char)
    (hne : ip ≠ []) (hip : ∀ c ∈ ip, isdigit c = true)
    (hmark : mark = 'e' ∨ mark = 'E') :
    json_parse (some ((if neg then ['-'] else []) ++ (ip ++ mark :: rest))) ≠ NULL ∧
    get_type (json_parse (some ((if neg then ['-'] else []) ++ (ip ++ mark :: rest)))) =
      JSON_NUMBER ∧
    get_child (json_parse (some ((if neg then ['-'] else []) ++ (ip ++ mark :: rest)))) =
      NULL ∧
    get_string (json_parse (some ((if neg then ['-'] else []) ++ (ip ++ mark :: rest)))) =
      none ∧
    parse_value (((if neg then ['-'] else []) ++ (ip ++ mark :: rest)).length + 1)
        ((if neg then ['-'] else []) ++ (ip ++ mark :: rest)) =
      some (json_parse (some ((if neg then ['-'] else []) ++ (ip ++ mark :: rest))),
        mark :: rest) ∧
    (digits_value ip < 2 ^ 53 →
      json_parse (some ((if neg then ['-'] else []) ++ (ip ++ mark :: rest))) =
        node NULL NULL JSON_NUMBER none
          (((if neg then -(digits_value ip : Int) else (digits_value ip : Int)) : Int) : Rat)
          none) := by
  suffices hmain : parse_value (((if neg then ['-'] else []) ++ (ip ++ mark :: rest)).length + 1)
        ((if neg then ['-'] else []) ++ (ip ++ mark :: rest)) =
      some (node NULL NULL JSON_NUMBER none
        (((if neg then -(digits_value ip : Int) else (digits_value ip : Int)) : Int) : Rat)
        none, mark :: rest) by
    have hjp : json_parse (some ((if neg then ['-'] else []) ++ (ip ++ mark :: rest))) =
        node NULL NULL JSON_NUMBER none
          (((if neg then -(digits_value ip : Int) else (digits_value ip : Int)) : Int) : Rat)
          none := by
      simp only [json_parse, hmain]
    rw [hjp]
    exact ⟨by simp, rfl, rfl, rfl, hmain, fun _ => rfl⟩
  have hstop : isdigit ((mark :: rest).headD '\x00') = false ∧
      (mark :: rest).headD '\x00' ≠ '.' := by
    show isdigit mark = false ∧ mark ≠ '.'
    rcases hmark with h | h <;> subst h <;> exact ⟨by decide, by decide⟩
  have hv := parse_value_number
    (((if neg then ['-'] else []) ++ (ip ++ mark :: rest)).length) neg ip (mark :: rest)
    hne hip
  have hn := parse_number_integer neg ip (mark :: rest) hne hip hstop.1 hstop.2
  have ha := atof_integer neg ip hne hip
  rw [hv, hn, ha]

/-- Witness for C11 as amended: the text `25E-1`. -/
theorem json_parse_exponent_unread_witness :
    json_parse (some ((if false then ['-'] else []) ++ (['2', '5'] ++ 'E' :: ['-', '1']))) =
      node NULL NULL JSON_NUMBER none
        (((if false then -(digits_value ['2', '5'] : Int)
          else (digits_value ['2', '5'] : Int)) : Int) : Rat) none :=
  (json_parse_exponent_unread false ['2', '5'] ['-', '1'] 'E' (by decide) (by decide)
    (Or.inr rfl)).2.2.2.2.2 (by decide)

/-- Counterexample to C11: `1e2` parses to the Number 1, not 100, and `25E-1`
to the Number 25, not 2.5. -/
theorem json_parse_exponent_dropped :
    json_parse (some "1e2".toList) = node NULL NULL JSON_NUMBER none 1 none ∧
    get_valuenumber (json_parse (some "1e2".toList)) ≠ 100 ∧
    json_parse (some "25E-1".toList) = node NULL NULL JSON_NUMBER none 25 none ∧
    get_valuenumber (json_parse (some "25E-1".toList)) ≠ mkRat 25 10 := by
  decide

/-- C12: integers parse to their value.  A text made of an optional `-`
followed by `0` or by digits not starting with `0`, of magnitude below 2^53
(where the exact decimal value used for `atof` is the `double` it returns),
parses to a Number with that value, no child and no member name. -/
theorem json_parse_integer (neg : Bool) (ip : List Char) (hne : ip ≠ [])
    (hip : ∀ c ∈ ip, isdigit c = true)
    (_hshape : ip = ['0'] ∨ ip.head? ≠ some '0')
    (_hmag : digits_value ip < 2 ^ 53) :
    json_parse (some ((if neg then ['-'] else []) ++ ip)) =
      node NULL NULL JSON_NUMBER none
        (((if neg then -(digits_value ip : Int) else (digits_value ip : Int)) : Int) : Rat)
        none := by
  have hv := parse_value_number
    (((if neg then ['-'] else []) ++ ip).length) neg ip [] hne hip
  have hn := parse_number_integer neg ip [] hne hip (by decide) (by decide)
  have ha := atof_integer neg ip hne hip
  simp only [List.append_nil] at hv hn
  simp only [json_parse, hv, hn, ha]

/-- Witness for C12: the text `-123`. -/
theorem json_parse_integer_witness :
    json_parse (some ((if true then ['-'] else []) ++ ['1', '2', '3'])) =
      node NULL NULL JSON_NUMBER none
        (((if true then -(digits_value ['1', '2', '3'] : Int)
          else (digits_value ['1', '2', '3'] : Int)) : Int) : Rat) none :=
  json_parse_integer true ['1', '2', '3'] (by decide) (by decide) (by decide) (by decide)

/-! ### Plain strings, literals, empty objects -/

/-- C13: plain strings parse to their contents.  For a text `s` with no double
quote, no backslash and no control character, the input quote, `s`, quote
parses to a String whose value is exactly `s`. -/
theorem json_parse_plain_string (s : List Char)
    (hs : ∀ c ∈ s, c ≠ '"' ∧ c ≠ '\\' ∧ 32 ≤ c.toNat) :
    json_parse (some ('"' :: (s ++ ['"']))) = node NULL NULL JSON_STRING (some s) 0 none ∧
    get_valuestring (json_parse (some ('"' :: (s ++ ['"'])))) = some s := by
  have h := parse_value_quoted (('"' :: (s ++ ['"'])).length) [] s []
    (by simp) (fun c hc => (hs c hc).1)
  simp only [List.nil_append] at h
  simp only [json_parse, h, get_valuestring, and_self]

/-- Witness for C13: the input `"hello world"`. -/
theorem json_parse_plain_string_witness :
    json_parse (some ('"' :: ("hello world".toList ++ ['"']))) =
      node NULL NULL JSON_STRING (some "hello world".toList) 0 none :=
  (json_parse_plain_string "hello world".toList (by decide)).1

theorem parse_value_literal_start (fuel : Nat) (c : Char) (rest : List Char)
    (hc : c = 't' ∨ c = 'f' ∨ c = 'n') :
    parse_value (fuel + 1) (c :: rest) = some (parse_literal (c :: rest)) := by
  have hsp : isspace c = false := by
    rcases hc with h | h | h <;> subst h <;> decide
  have hskip := skip_whitespace_cons c rest hsp
  rw [parse_value_unfold]
  simp only [peek_char, hskip, List.headD_cons]
  rcases hc with h | h | h <;> subst h <;> simp

/-- C15: the empty object.  The text `{`, optional whitespace, `}` parses to a
node of type Object with no child, and `json_object_get` on it is `NULL` for
every key. -/
theorem json_parse_empty_object (ws : List Char) (hws : ∀ x ∈ ws, isspace x = true) :
    json_parse (some ('{' :: (ws ++ ['}']))) = node NULL NULL JSON_OBJECT none 0 none ∧
    get_child (json_parse (some ('{' :: (ws ++ ['}'])))) = NULL ∧
    ∀ key, json_object_get (json_parse (some ('{' :: (ws ++ ['}'])))) key = NULL := by
  have hskip1 := skip_whitespace_cons '{' (ws ++ ['}']) (by decide)
  have hskip2 := skip_whitespace_append ws '}' [] hws (by decide)
  have hskip3 := skip_whitespace_cons '}' [] (by decide)
  have hparse : json_parse (some ('{' :: (ws ++ ['}']))) =
      node NULL NULL JSON_OBJECT none 0 none := by
    simp only [json_parse]
    rw [parse_value_unfold, parse_object_unfold]
    simp only [peek_char, next_char, hskip1, hskip2, hskip3, List.headD_cons, Char.reduceEq,
      if_false, if_true, ne_eq, not_true_eq_false, set_type, json_new]
  refine ⟨hparse, by rw [hparse]; rfl, ?_⟩
  intro key
  rw [hparse]
  cases key <;> simp [json_object_get, object_get_loop]

/-- Witness for C15: the text `{ }`. -/
theorem json_parse_empty_object_witness :
    json_parse (some ('{' :: ([' '] ++ ['}']))) = node NULL NULL JSON_OBJECT none 0 none :=
  (json_parse_empty_object [' '] (by decide)).1

/-! ### Inputs on which no value can start -/

/-- C16 as amended: no value can start.  With whitespace as `isspace` classifies
it (space, tab, newline, vertical tab, form feed, carriage return),
`json_parse` returns `NULL` for a null text, for the empty text, for a text of
whitespace only, and for a text whose first character after the whitespace is
not a double quote, `{`, `[`, `-`, a digit, `t`, `f` or `n`. -/
theorem json_parse_no_value_start (ws rest : List Char)
    (hws : ∀ x ∈ ws, isspace x = true)
    (hrest : rest = [] ∨ ∃ c t, rest = c :: t ∧ isspace c = false ∧ c ≠ '"' ∧ c ≠ '{' ∧
      c ≠ '[' ∧ c ≠ '-' ∧ isdigit c = false ∧ c ≠ 't' ∧ c ≠ 'f' ∧ c ≠ 'n') :
    json_parse (some (ws ++ rest)) = NULL ∧ json_parse none = NULL := by
  refine ⟨?_, rfl⟩
  simp only [json_parse]
  rw [parse_value_unfold]
  rcases hrest with h | ⟨c, t, h, hsp, h1, h2, h3, h4, h5, h6, h7, h8⟩
  · subst h
    have hskip : skip_whitespace ws = [] := by
      simp only [skip_whitespace]
      exact List.dropWhile_eq_nil_iff.mpr hws
    simp only [List.append_nil, peek_char, hskip, List.headD_nil]
    simp [isdigit]
  · subst h
    have hskip := skip_whitespace_append ws c t hws hsp
    simp [peek_char, hskip, h1, h2, h3, h4, h5, h6, h7, h8]

/-- Witness for C16 as amended: the text `invalid`. -/
theorem json_parse_no_value_start_witness :
    json_parse (some ([] ++ "invalid".toList)) = NULL :=
  (json_parse_no_value_start [] "invalid".toList (by simp)
    (Or.inr ⟨'i', "nvalid".toList, rfl, by decide, by decide, by decide, by decide,
      by decide, by decide, by decide, by decide, by decide⟩)).1

/-- Counterexample to C16: the first character of the text form feed, `1` is
neither space, tab, newline nor carriage return, and is none of the characters
that start a value; yet the text parses to the Number 1. -/
theorem json_parse_form_feed_skipped :
    json_parse (some ['\x0c', '1']) = node NULL NULL JSON_NUMBER none 1 none ∧
    json_parse (some ['\x0c', '1']) ≠ NULL := by
  decide

/-! ### Control characters in strings -/

/-- C19 as amended: an unescaped control character inside a string is
accepted.  A string literal whose text between the quotes has no double quote
and contains a character with code below 0x20 parses to a String whose value
is that text, control character included. -/
theorem json_parse_control_char_kept (body : List Char)
    (hbody : ∀ c ∈ body, c ≠ '"') (hctl : ∃ c ∈ body, c.toNat < 32) :
    json_parse (some ('"' :: (body ++ ['"']))) =
      node NULL NULL JSON_STRING (some body) 0 none ∧
    ∃ c ∈ body, c.toNat < 32 ∧
      get_valuestring (json_parse (some ('"' :: (body ++ ['"'])))) = some body := by
  have h := parse_value_quoted (('"' :: (body ++ ['"'])).length) [] body [] (by simp) hbody
  simp only [List.nil_append] at h
  have hparse : json_parse (some ('"' :: (body ++ ['"']))) =
      node NULL NULL JSON_STRING (some body) 0 none := by
    simp only [json_parse, h]
  obtain ⟨c, hc, hlt⟩ := hctl
  exact ⟨hparse, c, hc, hlt, by rw [hparse]; rfl⟩

/-- Witness for C19 as amended: a raw newline between `a` and `b`. -/
theorem json_parse_control_char_kept_witness :
    json_parse (some ('"' :: (['a', '\n', 'b'] ++ ['"']))) =
      node NULL NULL JSON_STRING (some ['a', '\n', 'b']) 0 none :=
  (json_parse_control_char_kept ['a', '\n', 'b'] (by decide)
    ⟨'\n', by decide, by decide⟩).1

/-- Counterexample to C19: string literals holding a raw newline or a raw tab
are accepted. -/
theorem json_parse_raw_control_accepted :
    json_parse (some ['"', 'a', '\n', 'b', '"']) =
      node NULL NULL JSON_STRING (some ['a', '\n', 'b']) 0 none ∧
    json_parse (some ['"', '\t', '"']) = node NULL NULL JSON_STRING (some ['\t']) 0 none ∧
    json_parse (some ['"', 'a', '\n', 'b', '"']) ≠ NULL := by
  decide

/-! ### Type predicates -/

/-- C20: the type predicates.  Each of the seven variant predicates is true
exactly when the handle is not `NULL` and its type is the named one;
`json_is_bool` holds iff `json_is_true` or `json_is_false` does; all eight are
false on `NULL`; and on a node of one of the seven types exactly one of
`json_is_null`, `json_is_bool`, `json_is_number`, `json_is_string`,
`json_is_array`, `json_is_object` holds. -/
theorem json_is_predicates (h : json_ptr) :
    (json_is_null h = true ↔ h ≠ NULL ∧ get_type h = JSON_NULL) ∧
    (json_is_true h = true ↔ h ≠ NULL ∧ get_type h = JSON_TRUE) ∧
    (json_is_false h = true ↔ h ≠ NULL ∧ get_type h = JSON_FALSE) ∧
    (json_is_number h = true ↔ h ≠ NULL ∧ get_type h = JSON_NUMBER) ∧
    (json_is_string h = true ↔ h ≠ NULL ∧ get_type h = JSON_STRING) ∧
    (json_is_array h = true ↔ h ≠ NULL ∧ get_type h = JSON_ARRAY) ∧
    (json_is_object h = true ↔ h ≠ NULL ∧ get_type h = JSON_OBJECT) ∧
    (json_is_bool h = true ↔ json_is_true h = true ∨ json_is_false h = true) ∧
    (h = NULL → json_is_null h = false ∧ json_is_true h = false ∧ json_is_false h = false ∧
      json_is_bool h = false ∧ json_is_number h = false ∧ json_is_string h = false ∧
      json_is_array h = false ∧ json_is_object h = false) ∧
    (h ≠ NULL →
      (get_type h = JSON_NULL ∨ get_type h = JSON_TRUE ∨ get_type h = JSON_FALSE ∨
        get_type h = JSON_NUMBER ∨ get_type h = JSON_STRING ∨ get_type h = JSON_ARRAY ∨
        get_type h = JSON_OBJECT) →
      [json_is_null h, json_is_bool h, json_is_number h, json_is_string h, json_is_array h,
        json_is_object h].count true = 1) := by
  cases h with
  | NULL =>
    simp [json_is_null, json_is_true, json_is_false, json_is_bool, json_is_number,
      json_is_string, json_is_array, json_is_object]
  | node nx ch t vs vn s =>
    refine ⟨by simp [json_is_null, get_type], by simp [json_is_true, get_type],
      by simp [json_is_false, get_type], by simp [json_is_number, get_type],
      by simp [json_is_string, get_type], by simp [json_is_array, get_type],
      by simp [json_is_object, get_type],
      by simp [json_is_bool, json_is_true, json_is_false], by simp, ?_⟩
    intro _ ht
    simp only [get_type] at ht
    rcases ht with h | h | h | h | h | h | h <;> subst h <;> rfl

/-- Witness for C20: on a Number node exactly one of the six predicates
holds. -/
theorem json_is_predicates_witness :
    [json_is_null (node NULL NULL 8 none 1 none), json_is_bool (node NULL NULL 8 none 1 none),
      json_is_number (node NULL NULL 8 none 1 none),
      json_is_string (node NULL NULL 8 none 1 none),
      json_is_array (node NULL NULL 8 none 1 none),
      json_is_object (node NULL NULL 8 none 1 none)].count true = 1 :=
  (json_is_predicates (node NULL NULL 8 none 1 none)).2.2.2.2.2.2.2.2.2 (by decide)
    (Or.inr (Or.inr (Or.inr (Or.inl rfl))))

/-! ### Text extension without a condition on what follows, and proper parts of a text -/

theorem dropWhile_extend_rest (p : Char → Bool) (a x : List Char)
    (h : a.dropWhile p ≠ [] ∨ p (x.headD '\x00') = false) :
    (a ++ x).dropWhile p = a.dropWhile p ++ x := by
  rcases h with h | h
  · rw [List.dropWhile_append]
    simp [h]
  · exact dropWhile_extend p a x h

theorem parse_number_extend_rest (s x : List Char) (h : (parse_number s).1 ≠ NULL)
    (hc : (parse_number s).2 ≠ [] ∨
      (isdigit (x.headD '\x00') = false ∧ x.headD '\x00' ≠ '.')) :
    parse_number (s ++ x) = ((parse_number s).1, (parse_number s).2 ++ x) := by
  have hdig : isdigit ((if s.headD '\x00' = '-' then s.tail else s).headD '\x00') = true := by
    by_contra hcon
    simp only [Bool.not_eq_true] at hcon
    simp only [parse_number, hcon, Bool.not_false, if_true] at h
    exact h rfl
  have hs1 : (if s.headD '\x00' = '-' then s.tail else s) ≠ [] := by
    intro hnil
    rw [hnil] at hdig
    revert hdig
    decide
  have hs : s ≠ [] := by
    intro hnil
    subst hnil
    simp at hs1
  have hsign : (if (s ++ x).headD '\x00' = '-' then (s ++ x).tail else s ++ x) =
      (if s.headD '\x00' = '-' then s.tail else s) ++ x := by
    rw [headD_extend s x hs, tail_extend s x hs]
    split <;> rfl
  have hrest : (parse_number s).2 =
      (if ((if s.headD '\x00' = '-' then s.tail else s).dropWhile isdigit).headD '\x00' = '.'
        then ((if s.headD '\x00' = '-' then s.tail else s).dropWhile isdigit).tail.dropWhile
          isdigit
        else (if s.headD '\x00' = '-' then s.tail else s).dropWhile isdigit) := by
    simp only [parse_number, hdig, Bool.not_true, Bool.false_eq_true, if_false]
  rw [hrest] at hc
  generalize hs1def : (if s.headD '\x00' = '-' then s.tail else s) = s1
    at hdig hs1 hsign hc
  generalize hddef : s1.dropWhile isdigit = d at hc
  have hc2 : d ≠ [] ∨ (isdigit (x.headD '\x00') = false ∧ x.headD '\x00' ≠ '.') := by
    rcases hc with hc | hc
    · left
      intro hd
      subst hd
      simp at hc
    · exact Or.inr hc
  have hdrop : (s1 ++ x).dropWhile isdigit = d ++ x := by
    rw [← hddef]
    apply dropWhile_extend_rest
    rw [hddef]
    exact hc2.imp id (fun h => h.1)
  have hpoint : (if (d ++ x).headD '\x00' = '.' then (d ++ x).tail.dropWhile isdigit
      else d ++ x) =
      (if d.headD '\x00' = '.' then d.tail.dropWhile isdigit else d) ++ x := by
    cases d with
    | nil =>
      have hx := hc2.resolve_left (by simp)
      simp only [List.nil_append, List.headD_nil]
      rw [if_neg hx.2, if_neg (by decide)]
      rfl
    | cons c t =>
      simp only [List.cons_append, List.headD_cons, List.tail_cons] at hc ⊢
      split
      · rename_i hcdot
        rw [if_pos hcdot] at hc
        exact dropWhile_extend_rest isdigit t x (hc.imp id (fun h => h.1))
      · rfl
  have hsuf : (if d.headD '\x00' = '.' then d.tail.dropWhile isdigit else d).length ≤
      s.length := by
    have h1 : d.length ≤ s1.length := by
      rw [← hddef]
      exact (List.dropWhile_suffix isdigit).length_le
    have h2 : s1.length ≤ s.length := by
      rw [← hs1def]
      split
      · simp
      · exact le_refl _
    have h3 : (if d.headD '\x00' = '.' then d.tail.dropWhile isdigit else d).length ≤
        d.length := by
      split
      · exact le_trans (List.dropWhile_suffix isdigit).length_le (by simp)
      · exact le_refl _
    omega
  generalize hedef : (if d.headD '\x00' = '.' then d.tail.dropWhile isdigit else d) = e
    at hpoint hsuf
  have hlen : (s ++ x).length - (e ++ x).length = s.length - e.length := by
    simp only [List.length_append]
    omega
  have hle : s.length - e.length ≤ s.length := Nat.sub_le _ _
  have hdig2 : isdigit ((s1 ++ x).headD '\x00') = true := by
    rw [headD_extend s1 x hs1]; exact hdig
  simp only [parse_number, hsign, hs1def, hdig, hdig2, hdrop, hddef, hpoint, hedef, hlen,
    List.take_append_of_le_length hle, Bool.not_true, Bool.false_eq_true, if_false]

theorem parse_number_type (s : List Char) (h : (parse_number s).1 ≠ NULL) :
    get_type (parse_number s).1 = JSON_NUMBER := by
  cases hd : isdigit ((if s.headD '\x00' = '-' then s.tail else s).headD '\x00') with
  | false => simp only [parse_number, hd, Bool.not_false, if_true] at h; exact absurd rfl h
  | true => simp only [parse_number, hd, Bool.not_true, Bool.false_eq_true, if_false]; rfl

theorem ne_nil_of_skip (s : List Char) (h : skip_whitespace s ≠ []) : s ≠ [] := by
  intro hs
  subst hs
  exact h rfl

theorem loop_extend_rest (v : List Char → Option (json_ptr × List Char)) (x : List Char)
    (hv : ∀ s p r, v s = some (p, r) → p ≠ NULL → r ≠ [] →
      v (s ++ x) = some (p, r ++ x)) :
    ∀ (n : Nat) (s : List Char) (object p : json_ptr) (r : List Char),
      parse_object_loop v n s object = some (p, r) → p ≠ NULL →
      parse_object_loop v n (s ++ x) object = some (p, r ++ x) := by
  intro n
  induction n with
  | zero => intro s object p r h; simp [parse_object_loop] at h
  | succ n ih =>
    intro s object p r h hp
    rw [loop_unfold] at h ⊢
    by_cases h1 : (parse_string s).1 = NULL
    · rw [if_pos h1] at h
      simp only [Option.some.injEq, Prod.mk.injEq] at h
      exact absurd h.1.symm hp
    · rw [if_neg h1] at h
      have hstr := parse_string_extend s x h1
      simp only [hstr]
      rw [if_neg h1]
      by_cases h2 : (next_char (parse_string s).2).1 ≠ ':'
      · rw [if_pos h2] at h
        simp only [Option.some.injEq, Prod.mk.injEq] at h
        exact absurd h.1.symm hp
      · rw [if_neg h2] at h
        have h2c : (next_char (parse_string s).2).1 = ':' := not_not.mp h2
        have hnx := next_char_extend (parse_string s).2 x
          (next_char_ne_nil _ ':' h2c (by decide))
        simp only [hnx]
        rw [if_neg h2]
        cases hval : v (next_char (parse_string s).2).2 with
        | none => simp [hval] at h
        | some res =>
          simp only [hval] at h
          by_cases h3 : res.1 = NULL
          · rw [if_pos h3] at h
            simp only [Option.some.injEq, Prod.mk.injEq] at h
            exact absurd h.1.symm hp
          · rw [if_neg h3] at h
            unfold loop_continue at h
            by_cases h4 : (peek_char res.2).1 = '}'
            · obtain ⟨e1, e2⟩ := peek_next_extend res.2 x '}' h4 (by decide)
              have hne := ne_nil_of_skip _ (peek_char_ne_nil res.2 '}' h4 (by decide))
              have hvx := hv _ res.1 res.2 hval h3 hne
              simp only [hvx]
              rw [if_neg h3]
              unfold loop_continue
              rw [if_pos h4] at h
              rw [if_pos e1, e2]
              simp only [Option.some.injEq, Prod.mk.injEq] at h ⊢
              exact ⟨h.1, by rw [h.2]⟩
            · rw [if_neg h4] at h
              by_cases h5 : (peek_char res.2).1 = ','
              · obtain ⟨e1, e2⟩ := peek_next_extend res.2 x ',' h5 (by decide)
                have hne := ne_nil_of_skip _ (peek_char_ne_nil res.2 ',' h5 (by decide))
                have hvx := hv _ res.1 res.2 hval h3 hne
                simp only [hvx]
                rw [if_neg h3]
                unfold loop_continue
                rw [if_pos h5] at h
                have e3 : ¬ (peek_char (res.2 ++ x)).1 = '}' := by rw [e1]; decide
                rw [if_neg e3, if_pos e1, e2]
                exact ih _ _ _ _ h hp
              · rw [if_neg h5] at h
                simp only [Option.some.injEq, Prod.mk.injEq] at h
                exact absurd h.1.symm hp

theorem parse_object_extend_rest (v : List Char → Option (json_ptr × List Char))
    (x : List Char)
    (hv : ∀ s p r, v s = some (p, r) → p ≠ NULL → r ≠ [] →
      v (s ++ x) = some (p, r ++ x))
    (n : Nat) (s : List Char) (p : json_ptr) (r : List Char)
    (h : parse_object v n s = some (p, r)) (hp : p ≠ NULL) :
    parse_object v n (s ++ x) = some (p, r ++ x) := by
  rw [parse_object_unfold] at h ⊢
  by_cases h1 : (next_char s).1 ≠ '{'
  · rw [if_pos h1] at h
    simp only [Option.some.injEq, Prod.mk.injEq] at h
    exact absurd h.1.symm hp
  · rw [if_neg h1] at h
    have h1c : (next_char s).1 = '{' := not_not.mp h1
    have hnx := next_char_extend s x (next_char_ne_nil _ '{' h1c (by decide))
    simp only [hnx]
    rw [if_neg h1]
    by_cases h2 : (peek_char (next_char s).2).1 = '}'
    · obtain ⟨e1, e2⟩ := peek_next_extend (next_char s).2 x '}' h2 (by decide)
      rw [if_pos h2] at h
      rw [if_pos e1, e2]
      simp only [Option.some.injEq, Prod.mk.injEq] at h ⊢
      exact ⟨h.1, by rw [h.2]⟩
    · rw [if_neg h2] at h
      have hne : skip_whitespace (next_char s).2 ≠ [] := by
        cases n with
        | zero => simp [parse_object_loop] at h
        | succ m =>
          obtain ⟨k, s1, s2, item, s3, hk, hkn, -⟩ := loop_inv v m _ _ _ _ h hp
          have := parse_string_ne_nil (peek_char (next_char s).2).2
            (by rw [hk]; exact hkn)
          rw [show (peek_char (next_char s).2).2 = skip_whitespace (next_char s).2 from rfl,
            skip_whitespace_idem] at this
          exact this
      have hpk := peek_char_extend (next_char s).2 x hne
      have e3 : ¬ (peek_char ((next_char s).2 ++ x)).1 = '}' := by rw [hpk]; exact h2
      rw [if_neg e3, hpk]
      exact loop_extend_rest v x hv _ _ _ _ _ h hp

theorem parse_value_extend_rest (x : List Char) :
    ∀ (fuel : Nat) (s : List Char) (p : json_ptr) (r : List Char),
      parse_value fuel s = some (p, r) → p ≠ NULL →
      (r ≠ [] ∨ ¬ ((peek_char s).1 = '-' ∨ isdigit (peek_char s).1 = true)) →
      parse_value fuel (s ++ x) = some (p, r ++ x) := by
  intro fuel
  induction fuel with
  | zero => intro s p r h; simp [parse_value] at h
  | succ n ih =>
    intro s p r h hp hc
    rw [parse_value_unfold] at h ⊢
    have hnz : (peek_char s).1 ≠ '\x00' := by
      intro hz
      rw [hz] at h
      simp only [Char.reduceEq, if_false, false_or, show isdigit '\x00' = false from rfl,
        Bool.false_eq_true, Option.some.injEq, Prod.mk.injEq] at h
      exact absurd h.1.symm hp
    have hne := peek_char_ne_nil s _ rfl hnz
    have hpk := peek_char_extend s x hne
    simp only [hpk]
    by_cases h1 : (peek_char s).1 = '"'
    · rw [if_pos h1] at h ⊢
      simp only [Option.some.injEq] at h ⊢
      have hs : (parse_string (peek_char s).2).1 ≠ NULL := by rw [h]; exact hp
      rw [parse_string_extend _ x hs, h]
    · rw [if_neg h1] at h ⊢
      by_cases h2 : (peek_char s).1 = '{'
      · rw [if_pos h2] at h ⊢
        exact parse_object_extend_rest _ x
          (fun s p r hs hp hr => ih s p r hs hp (Or.inl hr)) _ _ _ _ h hp
      · rw [if_neg h2] at h ⊢
        by_cases h3 : (peek_char s).1 = '['
        · rw [if_pos h3] at h
          simp only [parse_array, Option.some.injEq, Prod.mk.injEq] at h
          exact absurd h.1.symm hp
        · rw [if_neg h3] at h ⊢
          by_cases h4 : (peek_char s).1 = 't' ∨ (peek_char s).1 = 'f' ∨ (peek_char s).1 = 'n'
          · rw [if_pos h4] at h ⊢
            simp only [Option.some.injEq] at h ⊢
            have hs : (parse_literal (peek_char s).2).1 ≠ NULL := by rw [h]; exact hp
            rw [parse_literal_extend _ x hs, h]
          · rw [if_neg h4] at h ⊢
            by_cases h5 : (peek_char s).1 = '-' ∨ isdigit (peek_char s).1 = true
            · rw [if_pos h5] at h ⊢
              simp only [Option.some.injEq] at h ⊢
              have hs : (parse_number (peek_char s).2).1 ≠ NULL := by rw [h]; exact hp
              have hr : (parse_number (peek_char s).2).2 ≠ [] := by
                rw [h]
                exact hc.resolve_right (not_not.mpr h5)
              rw [parse_number_extend_rest _ x hs (Or.inl hr), h]
            · rw [if_neg h5] at h
              simp only [Option.some.injEq, Prod.mk.injEq] at h
              exact absurd h.1.symm hp

/-- C18: unterminated strings and containers are rejected.  When `json_parse`
succeeds on a text with a String or an Object and has consumed all of the text,
it returns `NULL` on every proper part of the text taken from its start; in
particular on `{"key": "value"` and on a string with no closing quote. -/
theorem json_parse_unterminated_rejected (t x : List Char) (p : json_ptr) (hx : x ≠ [])
    (hfull : parse_value ((t ++ x).length + 1) (t ++ x) = some (p, []))
    (htype : get_type p = JSON_STRING ∨ get_type p = JSON_OBJECT) :
    json_parse (some t) = NULL ∧
    json_parse (some "\x7b\"key\": \"value\"".toList) = NULL ∧
    json_parse (some "\"value".toList) = NULL := by
  refine ⟨?_, by decide, by decide⟩
  obtain ⟨res, hres, hjp⟩ := json_parse_total t
  rw [hjp]
  by_contra hp
  have hpn : p ≠ NULL := by
    intro h
    subst h
    rcases htype with h | h <;> simp [get_type, JSON_INVALID, JSON_STRING, JSON_OBJECT] at h
  have hnz : (peek_char t).1 ≠ '\x00' := by
    intro hz
    rw [parse_value_unfold, hz] at hres
    simp only [Char.reduceEq, if_false, false_or, show isdigit '\x00' = false from rfl,
      Bool.false_eq_true, Option.some.injEq] at hres
    rw [← hres] at hp
    exact hp rfl
  have hne := peek_char_ne_nil t _ rfl hnz
  have hpk := peek_char_extend t x hne
  by_cases hnum : (peek_char t).1 = '-' ∨ isdigit (peek_char t).1 = true
  · have hd : isdigit (peek_char t).1 = true → (peek_char t).1 ≠ '"' ∧
        (peek_char t).1 ≠ '{' ∧ (peek_char t).1 ≠ '[' ∧ (peek_char t).1 ≠ 't' ∧
        (peek_char t).1 ≠ 'f' ∧ (peek_char t).1 ≠ 'n' := fun h =>
      let hh := isdigit_chars _ h
      ⟨hh.2.1, hh.2.2.1, hh.2.2.2.1, hh.2.2.2.2.1, hh.2.2.2.2.2.1, hh.2.2.2.2.2.2.1⟩
    have hchars : (peek_char t).1 ≠ '"' ∧ (peek_char t).1 ≠ '{' ∧ (peek_char t).1 ≠ '[' ∧
        (peek_char t).1 ≠ 't' ∧ (peek_char t).1 ≠ 'f' ∧ (peek_char t).1 ≠ 'n' := by
      rcases hnum with h | h
      · rw [h]; decide
      · exact hd h
    obtain ⟨c1, c2, c3, c4, c5, c6⟩ := hchars
    rw [parse_value_unfold] at hfull
    simp only [hpk] at hfull
    rw [if_neg c1, if_neg c2, if_neg c3, if_neg (by simp [c4, c5, c6]), if_pos hnum] at hfull
    simp only [Option.some.injEq] at hfull
    have hs : (parse_number ((peek_char t).2 ++ x)).1 ≠ NULL := by rw [hfull]; exact hpn
    have hty := parse_number_type _ hs
    rw [hfull] at hty
    rcases htype with h | h <;> rw [hty] at h <;> revert h <;> decide
  · have hext := parse_value_extend_rest x _ t res.1 res.2 hres hp (Or.inr hnum)
    have hmono := parse_value_mono _ x.length _ _ hext
    have hlen : t.length + 1 + x.length = (t ++ x).length + 1 := by
      simp only [List.length_append]; omega
    rw [hlen, hfull] at hmono
    simp only [Option.some.injEq, Prod.mk.injEq] at hmono
    have := hmono.2
    simp at this
    exact hx this.2

/-- Witness for C18: the object text `{"key": "value"}` without its closing
brace. -/
theorem json_parse_unterminated_rejected_witness :
    json_parse (some "\x7b\"key\": \"value\"".toList) = NULL :=
  (json_parse_unterminated_rejected "\x7b\"key\": \"value\"".toList ['}']
    (node NULL (node NULL NULL JSON_STRING (some "value".toList) 0 (some "key".toList))
      JSON_OBJECT none 0 none) (by decide) (by decide) (Or.inr rfl)).1

/-! ### Lengths and progress at any fuel -/

theorem parse_value_fuel_irrelevant (f g : Nat) (s : List Char) (res : json_ptr × List Char)
    (h : parse_value f s = some res) (hg : s.length < g) : parse_value g s = some res := by
  obtain ⟨res2, hres2, -⟩ := parse_value_total g s hg
  have h1 := parse_value_mono f g s res h
  have h2 := parse_value_mono g f s res2 hres2
  rw [Nat.add_comm] at h2
  rw [h1] at h2
  rw [hres2, ← Option.some.inj h2]

theorem parse_value_length (f : Nat) (s : List Char) (res : json_ptr × List Char)
    (h : parse_value f s = some res) : res.2.length ≤ s.length := by
  obtain ⟨res2, hres2, hlen⟩ := parse_value_total (s.length + 1) s (Nat.lt_succ_self _)
  have := parse_value_fuel_irrelevant f (s.length + 1) s res h (Nat.lt_succ_self _)
  rw [this] at hres2
  rw [Option.some.inj hres2]
  exact hlen

theorem loop_length (v : List Char → Option (json_ptr × List Char))
    (hv : ∀ s res, v s = some res → res.2.length ≤ s.length) :
    ∀ (n : Nat) (s : List Char) (object : json_ptr) (res : json_ptr × List Char),
      parse_object_loop v n s object = some res → res.2.length ≤ s.length := by
  intro n
  induction n with
  | zero => intro s object res h; simp [parse_object_loop] at h
  | succ n ih =>
    intro s object res h
    have hs1 := (parse_string_length s).1
    have hnx := next_char_length (parse_string s).2
    rw [loop_unfold] at h
    by_cases h1 : (parse_string s).1 = NULL
    · rw [if_pos h1] at h
      rw [← Option.some.inj h]; exact hs1
    · rw [if_neg h1] at h
      by_cases h2 : (next_char (parse_string s).2).1 ≠ ':'
      · rw [if_pos h2] at h
        rw [← Option.some.inj h]; dsimp only; omega
      · rw [if_neg h2] at h
        cases hval : v (next_char (parse_string s).2).2 with
        | none => simp [hval] at h
        | some r =>
          simp only [hval] at h
          have hlen := hv _ _ hval
          have hpk := peek_char_length r.2
          have hnx2 := next_char_length (peek_char r.2).2
          by_cases h3 : r.1 = NULL
          · rw [if_pos h3] at h
            rw [← Option.some.inj h]; dsimp only; omega
          · rw [if_neg h3] at h
            unfold loop_continue at h
            by_cases h4 : (peek_char r.2).1 = '}'
            · rw [if_pos h4] at h
              rw [← Option.some.inj h]; dsimp only; omega
            · rw [if_neg h4] at h
              by_cases h5 : (peek_char r.2).1 = ','
              · rw [if_pos h5] at h
                have := ih _ _ _ h
                omega
              · rw [if_neg h5] at h
                rw [← Option.some.inj h]; dsimp only; omega

theorem next_char_progress (s : List Char) (h : skip_whitespace s ≠ []) :
    (next_char s).2.length < s.length := by
  have hl := skip_whitespace_length s
  simp only [next_char]
  cases hs : skip_whitespace s with
  | nil => exact absurd hs h
  | cons c t =>
    rw [hs] at hl
    simp only [List.length_cons] at hl ⊢
    omega

theorem parse_literal_progress (s : List Char) (h : (parse_literal s).1 ≠ NULL) :
    (parse_literal s).2.length < s.length := by
  have key : ∀ lit : List Char, lit ≠ [] → strncmp_eq s lit = true →
      (s.drop lit.length).length < s.length := by
    intro lit hlit hcmp
    have hs := strncmp_eq_split s lit hcmp
    have hl : lit.length ≤ s.length := by
      have := congrArg List.length hs
      simp only [List.length_append] at this
      omega
    have hpos : 0 < lit.length := List.length_pos.mpr hlit
    simp only [List.length_drop]
    omega
  by_cases h1 : strncmp_eq s ['t', 'r', 'u', 'e'] = true
  · simpa [parse_literal, h1] using key _ (by simp) h1
  · by_cases h2 : strncmp_eq s ['f', 'a', 'l', 's', 'e'] = true
    · simpa [parse_literal, h1, h2] using key _ (by simp) h2
    · by_cases h3 : strncmp_eq s ['n', 'u', 'l', 'l'] = true
      · simpa [parse_literal, h1, h2, h3] using key _ (by simp) h3
      · simp [parse_literal, h1, h2, h3] at h

theorem parse_number_progress (s : List Char) (h : (parse_number s).1 ≠ NULL) :
    (parse_number s).2.length < s.length := by
  have h1 : (if s.headD '\x00' = '-' then s.tail else s).length ≤ s.length := by
    split
    · simp
    · exact le_refl _
  generalize hs1 : (if s.headD '\x00' = '-' then s.tail else s) = s1 at h1
  cases hd : isdigit (s1.headD '\x00') with
  | false =>
    simp only [parse_number, hs1, hd, Bool.not_false, if_true] at h
    exact absurd rfl h
  | true =>
    simp only [parse_number, hs1, hd, Bool.not_true, Bool.false_eq_true, if_false]
    have h2 : (s1.dropWhile isdigit).length < s1.length := by
      cases s1 with
      | nil => revert hd; decide
      | cons c t =>
        have hc : isdigit c = true := by simpa using hd
        rw [List.dropWhile_cons_of_pos hc]
        have := (List.dropWhile_suffix (l := t) isdigit).length_le
        simp only [List.length_cons]
        omega
    split
    · have h3 := (List.dropWhile_suffix (l := (s1.dropWhile isdigit).tail) isdigit).length_le
      have h4 : (s1.dropWhile isdigit).tail.length ≤ (s1.dropWhile isdigit).length := by simp
      omega
    · omega

theorem parse_value_progress (f : Nat) (s : List Char) (p : json_ptr) (r : List Char)
    (h : parse_value f s = some (p, r)) (hp : p ≠ NULL) : r.length < s.length := by
  cases f with
  | zero => simp [parse_value] at h
  | succ f =>
    have hpk := peek_char_length s
    rw [parse_value_unfold] at h
    by_cases h1 : (peek_char s).1 = '"'
    · rw [if_pos h1] at h
      simp only [Option.some.injEq] at h
      have := (parse_string_length (peek_char s).2).2 (by rw [h]; exact hp)
      rw [h] at this
      dsimp only at this
      omega
    · rw [if_neg h1] at h
      by_cases h2 : (peek_char s).1 = '{'
      · rw [if_pos h2, parse_object_unfold] at h
        by_cases h6 : (next_char (peek_char s).2).1 ≠ '{'
        · rw [if_pos h6] at h
          simp only [Option.some.injEq, Prod.mk.injEq] at h
          exact absurd h.1.symm hp
        · rw [if_neg h6] at h
          have hne := next_char_ne_nil (peek_char s).2 '{' (not_not.mp h6) (by decide)
          have hstrict := next_char_progress (peek_char s).2 hne
          have hpk2 := peek_char_length (next_char (peek_char s).2).2
          have hnx2 := next_char_length (peek_char (next_char (peek_char s).2).2).2
          by_cases h7 : (peek_char (next_char (peek_char s).2).2).1 = '}'
          · rw [if_pos h7] at h
            simp only [Option.some.injEq, Prod.mk.injEq] at h
            rw [← h.2]
            omega
          · rw [if_neg h7] at h
            have := loop_length (parse_value f) (fun s res hs => parse_value_length f s res hs)
              _ _ _ _ h
            dsimp only at this
            omega
      · rw [if_neg h2] at h
        by_cases h3 : (peek_char s).1 = '['
        · rw [if_pos h3] at h
          simp only [parse_array, Option.some.injEq, Prod.mk.injEq] at h
          exact absurd h.1.symm hp
        · rw [if_neg h3] at h
          by_cases h4 : (peek_char s).1 = 't' ∨ (peek_char s).1 = 'f' ∨ (peek_char s).1 = 'n'
          · rw [if_pos h4] at h
            simp only [Option.some.injEq] at h
            have := parse_literal_progress (peek_char s).2 (by rw [h]; exact hp)
            rw [h] at this
            dsimp only at this
            omega
          · rw [if_neg h4] at h
            by_cases h5 : (peek_char s).1 = '-' ∨ isdigit (peek_char s).1 = true
            · rw [if_pos h5] at h
              simp only [Option.some.injEq] at h
              have := parse_number_progress (peek_char s).2 (by rw [h]; exact hp)
              rw [h] at this
              dsimp only at this
              omega
            · rw [if_neg h5] at h
              simp only [Option.some.injEq, Prod.mk.injEq] at h
              exact absurd h.1.symm hp

/-! ### Cutting off what follows a value -/

theorem skip_whitespace_of_nil (a x : List Char) (h : skip_whitespace a = []) :
    skip_whitespace (a ++ x) = skip_whitespace x := by
  unfold skip_whitespace at h ⊢
  rw [List.dropWhile_append]
  simp [h]

theorem next_char_cut (a x : List Char) (hx : x ≠ [])
    (hlong : x.length ≤ (next_char (a ++ x)).2.length) : skip_whitespace a ≠ [] := by
  intro hnil
  have heq : next_char (a ++ x) = next_char x := by
    simp only [next_char, skip_whitespace_of_nil a x hnil]
  rw [heq] at hlong
  by_cases hsx : skip_whitespace x = []
  · simp only [next_char, hsx, List.length_nil, Nat.le_zero_eq] at hlong
    exact hx (List.length_eq_zero.mp hlong)
  · have := next_char_progress x hsx
    omega

theorem parse_string_cut (a x : List Char)
    (h : (parse_string (a ++ x)).1 ≠ NULL)
    (hlong : x.length ≤ (parse_string (a ++ x)).2.length) :
    (parse_string a).1 ≠ NULL := by
  by_cases hnil : skip_whitespace a = []
  · have heq : parse_string (a ++ x) = parse_string x := by
      simp only [parse_string, next_char, skip_whitespace_of_nil a x hnil]
    rw [heq] at h hlong
    have := (parse_string_length x).2 h
    omega
  · have hnx := next_char_extend a x hnil
    rcases hnc : next_char a with ⟨c, a1⟩
    rw [hnc] at hnx
    by_cases hc : c = '"'
    · subst hc
      cases hd : a1.dropWhile (fun ch => ch != '"') with
      | nil =>
        exfalso
        have hd2 : (a1 ++ x).dropWhile (fun ch => ch != '"') =
            x.dropWhile (fun ch => ch != '"') := by
          rw [List.dropWhile_append, hd]
          simp
        have hsuf := (List.dropWhile_suffix (l := x) (fun ch => ch != '"')).length_le
        cases hdx : x.dropWhile (fun ch => ch != '"') with
        | nil => simp [parse_string, hnx, hd2, hdx] at h
        | cons q after =>
          rw [hdx] at hsuf
          simp only [parse_string, hnx, hd2, hdx, ne_eq, not_true_eq_false, if_false,
            List.length_cons] at hlong hsuf
          omega
      | cons q after =>
        simp [parse_string, hnc, hd, set_valuestring, set_type, json_new]
    · simp [parse_string, hnx, hc] at h

theorem parse_literal_cut (a x : List Char)
    (h : (parse_literal (a ++ x)).1 ≠ NULL)
    (hlong : x.length ≤ (parse_literal (a ++ x)).2.length) :
    (parse_literal a).1 ≠ NULL := by
  have key : ∀ lit : List Char, strncmp_eq (a ++ x) lit = true →
      x.length ≤ ((a ++ x).drop lit.length).length → strncmp_eq a lit = true := by
    intro lit hcmp hl
    have hs := strncmp_eq_split (a ++ x) lit hcmp
    have hlen : lit.length ≤ (a ++ x).length := by
      have := congrArg List.length hs
      simp only [List.length_append, List.length_drop] at this ⊢
      omega
    have hla : lit.length ≤ a.length := by
      simp only [List.length_drop, List.length_append] at hl hlen
      omega
    simp only [strncmp_eq, beq_iff_eq] at hcmp ⊢
    rw [List.take_append_of_le_length hla] at hcmp
    exact hcmp
  by_cases h1 : strncmp_eq (a ++ x) ['t', 'r', 'u', 'e'] = true
  · have := key _ h1 (by simpa [parse_literal, h1] using hlong)
    simp [parse_literal, this, set_type, json_new]
  · by_cases h2 : strncmp_eq (a ++ x) ['f', 'a', 'l', 's', 'e'] = true
    · have := key _ h2 (by simpa [parse_literal, h1, h2] using hlong)
      have hs := strncmp_eq_split a _ this
      rw [hs]
      simp [parse_literal, strncmp_eq, set_type, json_new]
    · by_cases h3 : strncmp_eq (a ++ x) ['n', 'u', 'l', 'l'] = true
      · have := key _ h3 (by simpa [parse_literal, h1, h2, h3] using hlong)
        have hs := strncmp_eq_split a _ this
        rw [hs]
        simp [parse_literal, strncmp_eq, set_type, json_new]
      · simp [parse_literal, h1, h2, h3] at h

theorem parse_number_cut (a x : List Char)
    (hstop : isdigit (x.headD '\x00') = false)
    (h : (parse_number (a ++ x)).1 ≠ NULL)
    (hlong : x.length ≤ (parse_number (a ++ x)).2.length) :
    (parse_number a).1 ≠ NULL := by
  cases a with
  | nil =>
    exfalso
    simp only [List.nil_append] at h hlong
    have := parse_number_progress x h
    omega
  | cons c t =>
    have hdig : isdigit ((if ((c :: t) ++ x).headD '\x00' = '-' then ((c :: t) ++ x).tail
        else (c :: t) ++ x).headD '\x00') = true := by
      by_contra hcon
      simp only [Bool.not_eq_true] at hcon
      simp only [parse_number, hcon, Bool.not_false, if_true] at h
      exact h rfl
    simp only [List.cons_append, List.headD_cons, List.tail_cons] at hdig
    have hgoal : isdigit ((if (c :: t).headD '\x00' = '-' then (c :: t).tail
        else c :: t).headD '\x00') = true := by
      simp only [List.headD_cons, List.tail_cons]
      by_cases hc : c = '-'
      · rw [if_pos hc] at hdig ⊢
        cases t with
        | nil =>
          simp only [List.nil_append] at hdig
          rw [hdig] at hstop
          exact absurd hstop (by decide)
        | cons d t2 => simpa using hdig
      · rw [if_neg hc] at hdig ⊢
        simpa using hdig
    simp only [parse_number, hgoal, Bool.not_true, Bool.false_eq_true, if_false]
    simp [set_valuenumber, set_type, json_new]

theorem loop_continue_length (v : List Char → Option (json_ptr × List Char))
    (hlen : ∀ s res, v s = some res → res.2.length ≤ s.length)
    (n : Nat) (object : json_ptr) (key : Option (List Char)) (item : json_ptr)
    (c : List Char) (res : json_ptr × List Char)
    (h : loop_continue v n object key item c = some res) : res.2.length ≤ c.length := by
  unfold loop_continue at h
  have hpk := peek_char_length c
  have hnx := next_char_length (peek_char c).2
  by_cases h4 : (peek_char c).1 = '}'
  · rw [if_pos h4] at h
    rw [← Option.some.inj h]; dsimp only; omega
  · rw [if_neg h4] at h
    by_cases h5 : (peek_char c).1 = ','
    · rw [if_pos h5] at h
      have := loop_length v hlen _ _ _ _ h
      omega
    · rw [if_neg h5] at h
      rw [← Option.some.inj h]; dsimp only; omega

theorem loop_progress (v : List Char → Option (json_ptr × List Char))
    (hlen : ∀ s res, v s = some res → res.2.length ≤ s.length)
    (n : Nat) (s : List Char) (object p : json_ptr) (R : List Char)
    (h : parse_object_loop v n s object = some (p, R)) (hp : p ≠ NULL) :
    R.length < s.length := by
  cases n with
  | zero => simp [parse_object_loop] at h
  | succ m =>
    obtain ⟨k, s1, s2, item, s3, hk, hkn, hcol, hvv, hin⟩ := loop_inv v m _ _ _ _ h hp
    rw [loop_step v m s s1 s2 s3 object k item hk hkn hcol hvv hin] at h
    have h1 := loop_continue_length v hlen _ _ _ _ _ _ h
    have h2 := hlen _ _ hvv
    have h3 := next_char_length s1
    have h4 := (parse_string_length s).2 (by rw [hk]; exact hkn)
    rw [hcol] at h3
    rw [hk] at h4
    dsimp only at h1 h2 h3 h4
    omega

theorem next_char_peek (s : List Char) : next_char (peek_char s).2 = next_char s := by
  show next_char (skip_whitespace s) = next_char s
  simp only [next_char, skip_whitespace_idem]

theorem loop_cut (v : List Char → Option (json_ptr × List Char)) (x : List Char)
    (hx : x ≠ [])
    (hlen : ∀ s res, v s = some res → res.2.length ≤ s.length)
    (hv : ∀ a p R, v (a ++ x) = some (p, R) → p ≠ NULL → x.length ≤ R.length →
      ∃ r, v a = some (p, r) ∧ R = r ++ x) :
    ∀ (n : Nat) (a : List Char) (object p : json_ptr) (R : List Char),
      parse_object_loop v n (a ++ x) object = some (p, R) → p ≠ NULL →
      x.length ≤ R.length →
      ∃ r, parse_object_loop v n a object = some (p, r) ∧ R = r ++ x := by
  intro n
  induction n with
  | zero => intro a object p R h; simp [parse_object_loop] at h
  | succ n ih =>
    intro a object p R h hp hlong
    have hRlen := loop_length v hlen _ _ _ _ h
    rw [loop_unfold] at h ⊢
    by_cases h1 : (parse_string (a ++ x)).1 = NULL
    · rw [if_pos h1] at h
      simp only [Option.some.injEq, Prod.mk.injEq] at h
      exact absurd h.1.symm hp
    · rw [if_neg h1] at h
      by_cases h2 : (next_char (parse_string (a ++ x)).2).1 ≠ ':'
      · rw [if_pos h2] at h
        simp only [Option.some.injEq, Prod.mk.injEq] at h
        exact absurd h.1.symm hp
      · rw [if_neg h2] at h
        cases hval : v (next_char (parse_string (a ++ x)).2).2 with
        | none => simp [hval] at h
        | some res =>
          simp only [hval] at h
          by_cases h3 : res.1 = NULL
          · rw [if_pos h3] at h
            simp only [Option.some.injEq, Prod.mk.injEq] at h
            exact absurd h.1.symm hp
          · rw [if_neg h3] at h
            -- the rest after the value is at least as long as what is left at the end
            have hres_long : x.length ≤ res.2.length := by
              unfold loop_continue at h
              have hpk := peek_char_length res.2
              have hnx := next_char_length (peek_char res.2).2
              by_cases h4 : (peek_char res.2).1 = '}'
              · rw [if_pos h4] at h
                simp only [Option.some.injEq, Prod.mk.injEq] at h
                rw [← h.2] at hlong
                omega
              · rw [if_neg h4] at h
                by_cases h5 : (peek_char res.2).1 = ','
                · rw [if_pos h5] at h
                  have := loop_length v hlen _ _ _ _ h
                  dsimp only at this
                  omega
                · rw [if_neg h5] at h
                  simp only [Option.some.injEq, Prod.mk.injEq] at h
                  exact absurd h.1.symm hp
            have hl3 := hlen _ _ hval
            have hl2 := next_char_length (parse_string (a ++ x)).2
            -- the key
            have hkey := parse_string_cut a x h1 (by omega)
            have hstr := parse_string_extend a x hkey
            rw [hstr] at h2 hval hl2 hl3
            dsimp only at h2 hval hl2 hl3
            simp only [hstr] at h
            rw [if_neg hkey]
            -- the colon
            have hsk := next_char_cut (parse_string a).2 x hx (by omega)
            have hnx := next_char_extend (parse_string a).2 x hsk
            rw [hnx] at h2 hval
            dsimp only at h2 hval
            rw [if_neg h2]
            -- the value
            obtain ⟨r3, hv3, hr3⟩ := hv _ res.1 res.2 hval h3 hres_long
            simp only [hv3]
            rw [if_neg h3]
            rw [hr3] at h
            -- the continuation
            unfold loop_continue at h ⊢
            by_cases h4 : (peek_char (r3 ++ x)).1 = '}'
            · rw [if_pos h4] at h
              simp only [Option.some.injEq, Prod.mk.injEq] at h
              have hsk3 := next_char_cut r3 x hx (by
                rw [← next_char_peek, h.2]; exact hlong)
              have hpk3 := peek_char_extend r3 x hsk3
              have h4c : (peek_char r3).1 = '}' := by rw [hpk3] at h4; exact h4
              obtain ⟨-, e2⟩ := peek_next_extend r3 x '}' h4c (by decide)
              rw [if_pos h4c]
              exact ⟨_, by rw [h.1], by rw [← h.2, e2]⟩
            · rw [if_neg h4] at h
              by_cases h5 : (peek_char (r3 ++ x)).1 = ','
              · rw [if_pos h5] at h
                have hl4 := loop_length v hlen _ _ _ _ h
                dsimp only at hl4
                have hsk3 := next_char_cut r3 x hx (by
                  rw [← next_char_peek]; omega)
                have hpk3 := peek_char_extend r3 x hsk3
                have h5c : (peek_char r3).1 = ',' := by rw [hpk3] at h5; exact h5
                have h4c : ¬ (peek_char r3).1 = '}' := by rw [h5c]; decide
                obtain ⟨-, e2⟩ := peek_next_extend r3 x ',' h5c (by decide)
                rw [e2] at h
                rw [if_neg h4c, if_pos h5c]
                exact ih _ _ _ _ h hp hlong
              · rw [if_neg h5] at h
                simp only [Option.some.injEq, Prod.mk.injEq] at h
                exact absurd h.1.symm hp

theorem parse_object_cut (v : List Char → Option (json_ptr × List Char)) (x : List Char)
    (hx : x ≠ [])
    (hlen : ∀ s res, v s = some res → res.2.length ≤ s.length)
    (hv : ∀ a p R, v (a ++ x) = some (p, R) → p ≠ NULL → x.length ≤ R.length →
      ∃ r, v a = some (p, r) ∧ R = r ++ x)
    (n : Nat) (a : List Char) (p : json_ptr) (R : List Char)
    (h : parse_object v n (a ++ x) = some (p, R)) (hp : p ≠ NULL)
    (hlong : x.length ≤ R.length) :
    ∃ r, parse_object v n a = some (p, r) ∧ R = r ++ x := by
  rw [parse_object_unfold] at h ⊢
  by_cases h1 : (next_char (a ++ x)).1 ≠ '{'
  · rw [if_pos h1] at h
    simp only [Option.some.injEq, Prod.mk.injEq] at h
    exact absurd h.1.symm hp
  · rw [if_neg h1] at h
    have hl1 := next_char_length (peek_char (next_char (a ++ x)).2).2
    have hl2 := peek_char_length (next_char (a ++ x)).2
    have hfirst : x.length ≤ (next_char (a ++ x)).2.length := by
      by_cases h2 : (peek_char (next_char (a ++ x)).2).1 = '}'
      · rw [if_pos h2] at h
        simp only [Option.some.injEq, Prod.mk.injEq] at h
        rw [← h.2] at hlong
        omega
      · rw [if_neg h2] at h
        have := loop_length v hlen _ _ _ _ h
        dsimp only at this
        omega
    have hsk := next_char_cut a x hx hfirst
    have hnx := next_char_extend a x hsk
    rw [hnx] at h1
    dsimp only at h1
    simp only [hnx] at h
    rw [if_neg h1]
    by_cases h2 : (peek_char ((next_char a).2 ++ x)).1 = '}'
    · rw [if_pos h2] at h
      simp only [Option.some.injEq, Prod.mk.injEq] at h
      have hsk2 := next_char_cut (next_char a).2 x hx (by
        rw [← next_char_peek, h.2]; exact hlong)
      have hpk := peek_char_extend (next_char a).2 x hsk2
      have h2c : (peek_char (next_char a).2).1 = '}' := by rw [hpk] at h2; exact h2
      obtain ⟨-, e2⟩ := peek_next_extend (next_char a).2 x '}' h2c (by decide)
      rw [if_pos h2c]
      exact ⟨_, by rw [h.1], by rw [← h.2, e2]⟩
    · rw [if_neg h2] at h
      have hl3 := loop_length v hlen _ _ _ _ h
      dsimp only at hl3
      -- the loop starts at a key, which lies before `x`
      have hsk2 : skip_whitespace (next_char a).2 ≠ [] := by
        intro hnil
        cases n with
        | zero => simp [parse_object_loop] at h
        | succ m =>
          have hpkx : (peek_char ((next_char a).2 ++ x)).2 = skip_whitespace x := by
            show skip_whitespace ((next_char a).2 ++ x) = skip_whitespace x
            exact skip_whitespace_of_nil _ x hnil
          rw [hpkx] at h
          have := loop_progress v hlen _ _ _ _ _ h hp
          have hk3 := skip_whitespace_length x
          omega
      have hpk := peek_char_extend (next_char a).2 x hsk2
      have h2c : ¬ (peek_char (next_char a).2).1 = '}' := by rw [hpk] at h2; exact h2
      rw [hpk] at h
      dsimp only at h
      rw [if_neg h2c]
      exact loop_cut v x hx hlen hv _ _ _ _ _ h hp hlong

theorem parse_value_cut (x : List Char) (hx : x ≠ [])
    (hstop : isdigit (x.headD '\x00') = false) (hdot : x.headD '\x00' ≠ '.') :
    ∀ (fuel : Nat) (a : List Char) (p : json_ptr) (R : List Char),
      parse_value fuel (a ++ x) = some (p, R) → p ≠ NULL → x.length ≤ R.length →
      ∃ r, parse_value fuel a = some (p, r) ∧ R = r ++ x := by
  intro fuel
  induction fuel with
  | zero => intro a p R h; simp [parse_value] at h
  | succ n ih =>
    intro a p R h hp hlong
    have hsk : skip_whitespace a ≠ [] := by
      intro hnil
      have hpk : peek_char (a ++ x) = peek_char x := by
        simp only [peek_char, skip_whitespace_of_nil a x hnil]
      have heq : parse_value (n + 1) (a ++ x) = parse_value (n + 1) x := by
        rw [parse_value_unfold, parse_value_unfold, hpk]
      rw [heq] at h
      have := parse_value_progress _ _ _ _ h hp
      omega
    have hpk := peek_char_extend a x hsk
    rw [parse_value_unfold] at h ⊢
    simp only [hpk] at h
    by_cases h1 : (peek_char a).1 = '"'
    · rw [if_pos h1] at h ⊢
      simp only [Option.some.injEq] at h
      have hs := parse_string_cut (peek_char a).2 x (by rw [h]; exact hp)
        (by rw [h]; exact hlong)
      have hext := parse_string_extend _ x hs
      rw [h] at hext
      simp only [Prod.mk.injEq] at hext
      exact ⟨(parse_string (peek_char a).2).2, by rw [hext.1], hext.2⟩
    · rw [if_neg h1] at h ⊢
      by_cases h2 : (peek_char a).1 = '{'
      · rw [if_pos h2] at h ⊢
        exact parse_object_cut _ x hx (fun s res hs => parse_value_length n s res hs) ih
          _ _ _ _ h hp hlong
      · rw [if_neg h2] at h ⊢
        by_cases h3 : (peek_char a).1 = '['
        · rw [if_pos h3] at h
          simp only [parse_array, Option.some.injEq, Prod.mk.injEq] at h
          exact absurd h.1.symm hp
        · rw [if_neg h3] at h ⊢
          by_cases h4 : (peek_char a).1 = 't' ∨ (peek_char a).1 = 'f' ∨ (peek_char a).1 = 'n'
          · rw [if_pos h4] at h ⊢
            simp only [Option.some.injEq] at h
            have hs := parse_literal_cut (peek_char a).2 x (by rw [h]; exact hp)
              (by rw [h]; exact hlong)
            have hext := parse_literal_extend _ x hs
            rw [h] at hext
            simp only [Prod.mk.injEq] at hext
            exact ⟨(parse_literal (peek_char a).2).2, by rw [hext.1], hext.2⟩
          · rw [if_neg h4] at h ⊢
            by_cases h5 : (peek_char a).1 = '-' ∨ isdigit (peek_char a).1 = true
            · rw [if_pos h5] at h ⊢
              simp only [Option.some.injEq] at h
              have hs := parse_number_cut (peek_char a).2 x hstop (by rw [h]; exact hp)
                (by rw [h]; exact hlong)
              have hext := parse_number_extend _ x hs hstop hdot
              rw [h] at hext
              simp only [Prod.mk.injEq] at hext
              exact ⟨(parse_number (peek_char a).2).2, by rw [hext.1], hext.2⟩
            · rw [if_neg h5] at h
              simp only [Option.some.injEq, Prod.mk.injEq] at h
              exact absurd h.1.symm hp

/-! ### A comma in place of the closing brace -/

theorem loop_comma_fails (v w : List Char → Option (json_ptr × List Char))
    (z : List Char) (hz : (parse_string z).1 = NULL)
    (hlen : ∀ s res, v s = some res → res.2.length ≤ s.length)
    (hcut : ∀ a p R, v (a ++ ['}']) = some (p, R) → p ≠ NULL → 1 ≤ R.length →
      ∃ r, v a = some (p, r) ∧ R = r ++ ['}'])
    (hext : ∀ s p r, v s = some (p, r) → p ≠ NULL →
      w (s ++ ',' :: z) = some (p, r ++ ',' :: z)) :
    ∀ (n : Nat) (a : List Char) (object p : json_ptr),
      parse_object_loop v n (a ++ ['}']) object = some (p, []) → p ≠ NULL →
      ∃ R, parse_object_loop w (n + 1) (a ++ ',' :: z) object = some (NULL, R) := by
  intro n
  induction n with
  | zero => intro a object p h; simp [parse_object_loop] at h
  | succ n ih =>
    intro a object p h hp
    obtain ⟨k, S1, S2, item, S3, hk, hkn, hcol, hvv, hin⟩ := loop_inv v n _ _ _ _ h hp
    rw [loop_step v n _ S1 S2 S3 object k item hk hkn hcol hvv hin] at h
    have hl3 := hlen _ _ hvv
    have hl2 := next_char_length S1
    rw [hcol] at hl2
    dsimp only at hl2 hl3
    -- the rest after the value still holds the closing brace
    have hS3 : 1 ≤ S3.length := by
      unfold loop_continue at h
      by_cases h4 : (peek_char S3).1 = '}'
      · have := ne_nil_of_skip _ (peek_char_ne_nil S3 '}' h4 (by decide))
        exact List.length_pos.mpr this
      · rw [if_neg h4] at h
        by_cases h5 : (peek_char S3).1 = ','
        · have := ne_nil_of_skip _ (peek_char_ne_nil S3 ',' h5 (by decide))
          exact List.length_pos.mpr this
        · rw [if_neg h5] at h
          simp only [Option.some.injEq, Prod.mk.injEq] at h
          exact absurd h.1.symm hp
    -- the key
    have hk1 : (parse_string (a ++ ['}'])).1 ≠ NULL := by rw [hk]; exact hkn
    have hkey := parse_string_cut a ['}'] hk1 (by rw [hk]; simp only [List.length_singleton]; omega)
    have hstrx := parse_string_extend a ['}'] hkey
    have hstry := parse_string_extend a (',' :: z) hkey
    rw [hk] at hstrx
    simp only [Prod.mk.injEq] at hstrx
    obtain ⟨hk_eq, hS1⟩ := hstrx
    -- the colon
    rw [hS1] at hcol
    have hsk := next_char_cut (parse_string a).2 ['}'] (by simp)
      (by rw [hcol]; simp only [List.length_singleton]; omega)
    have hnxx := next_char_extend (parse_string a).2 ['}'] hsk
    have hnxy := next_char_extend (parse_string a).2 (',' :: z) hsk
    rw [hcol] at hnxx
    simp only [Prod.mk.injEq] at hnxx
    obtain ⟨hc_eq, hS2⟩ := hnxx
    -- the value
    rw [hS2] at hvv
    obtain ⟨r3, hv3, hr3⟩ := hcut _ item S3 hvv hin hS3
    have hwy := hext _ item r3 hv3 hin
    have hcoly : next_char ((parse_string a).2 ++ ',' :: z) =
        (':', (next_char (parse_string a).2).2 ++ ',' :: z) := by
      rw [hnxy, ← hc_eq]
    have hky : parse_string (a ++ ',' :: z) = (k, (parse_string a).2 ++ ',' :: z) := by
      rw [hstry, hk_eq]
    rw [loop_step w (n + 1) _ _ _ _ object k item hky hkn hcoly hwy hin]
    -- the continuation
    rw [hr3] at h
    unfold loop_continue at h ⊢
    have hskip_y : skip_whitespace (',' :: z) = ',' :: z := skip_whitespace_cons ',' z (by decide)
    by_cases h4 : (peek_char (r3 ++ ['}'])).1 = '}'
    · rw [if_pos h4] at h
      simp only [Option.some.injEq, Prod.mk.injEq] at h
      have hnil : skip_whitespace r3 = [] := by
        by_contra hne
        have := next_char_extend r3 ['}'] hne
        rw [← next_char_peek, Prod.ext_iff] at this
        have h2 := this.2
        dsimp only at h2
        rw [h.2] at h2
        simp at h2
      have hsy : skip_whitespace (r3 ++ ',' :: z) = ',' :: z := by
        rw [skip_whitespace_of_nil r3 _ hnil, hskip_y]
      have hpky : peek_char (r3 ++ ',' :: z) = (',', ',' :: z) := by
        simp only [peek_char, hsy, List.headD_cons]
      have hnxz : next_char (',' :: z) = (',', z) := by
        simp only [next_char, hskip_y]
      rw [hpky]
      dsimp only
      rw [if_neg (by decide), if_pos rfl, hnxz, loop_unfold, if_pos hz]
      exact ⟨_, rfl⟩
    · rw [if_neg h4] at h
      by_cases h5 : (peek_char (r3 ++ ['}'])).1 = ','
      · rw [if_pos h5] at h
        have hl4 := loop_progress v hlen _ _ _ _ _ h hp
        have hsk3 := next_char_cut r3 ['}'] (by simp) (by
          rw [← next_char_peek]
          simp only [List.length_singleton, List.length_nil] at hl4 ⊢
          omega)
        have hpk3 := peek_char_extend r3 ['}'] hsk3
        have h5c : (peek_char r3).1 = ',' := by rw [hpk3] at h5; exact h5
        obtain ⟨-, e2⟩ := peek_next_extend r3 ['}'] ',' h5c (by decide)
        obtain ⟨f1, f2⟩ := peek_next_extend r3 (',' :: z) ',' h5c (by decide)
        rw [e2] at h
        have f3 : ¬ (peek_char (r3 ++ ',' :: z)).1 = '}' := by rw [f1]; decide
        rw [if_neg f3, if_pos f1, f2]
        exact ih _ _ _ h hp
      · rw [if_neg h5] at h
        simp only [Option.some.injEq, Prod.mk.injEq] at h
        exact absurd h.1.symm hp

theorem object_comma_fails (m z : List Char) (p : json_ptr)
    (hz : (parse_string z).1 = NULL)
    (hfull : parse_value (('{' :: (m ++ ['}'])).length + 1) ('{' :: (m ++ ['}'])) =
      some (p, []))
    (hp : p ≠ NULL) :
    json_parse (some ('{' :: (m ++ ',' :: z))) = NULL := by
  have hskip1 : ∀ t, skip_whitespace ('{' :: t) = '{' :: t :=
    fun t => skip_whitespace_cons '{' t (by decide)
  have hskip_y : skip_whitespace (',' :: z) = ',' :: z := skip_whitespace_cons ',' z (by decide)
  -- it is enough to reach a failure with some bound
  suffices hsome : ∃ g R, parse_value g ('{' :: (m ++ ',' :: z)) = some (NULL, R) by
    obtain ⟨g, R, hg⟩ := hsome
    have := parse_value_fuel_irrelevant g (('{' :: (m ++ ',' :: z)).length + 1) _ _ hg
      (Nat.lt_succ_self _)
    simp only [json_parse, this]
  generalize hF : ('{' :: (m ++ ['}'])).length = F at hfull
  rw [parse_value_unfold, parse_object_unfold] at hfull
  simp only [peek_char, next_char, hskip1, List.headD_cons, Char.reduceEq, if_false, if_true,
    ne_eq, not_true_eq_false] at hfull
  refine ⟨F + 2, ?_⟩
  rw [parse_value_unfold, parse_object_unfold]
  simp only [peek_char, next_char, hskip1, List.headD_cons, Char.reduceEq, if_false, if_true,
    ne_eq, not_true_eq_false]
  by_cases hnil : skip_whitespace m = []
  · -- only whitespace before the comma: the member loop starts at the comma
    have hsy : skip_whitespace (m ++ ',' :: z) = ',' :: z := by
      rw [skip_whitespace_of_nil m _ hnil, hskip_y]
    have hstr : (parse_string (',' :: z)).1 = NULL := by
      simp [parse_string, next_char, hskip_y]
    rw [hsy]
    simp only [List.headD_cons, Char.reduceEq, if_false]
    rw [loop_unfold, if_pos hstr]
    exact ⟨_, rfl⟩
  · have hsx := skip_whitespace_extend m ['}'] hnil
    have hsy := skip_whitespace_extend m (',' :: z) hnil
    have hhx := headD_extend (skip_whitespace m) ['}'] hnil
    have hhy := headD_extend (skip_whitespace m) (',' :: z) hnil
    rw [hsx, hhx] at hfull
    rw [hsy, hhy]
    by_cases h2 : (skip_whitespace m).headD '\x00' = '}'
    · exfalso
      rw [if_pos h2] at hfull
      simp only [Option.some.injEq, Prod.mk.injEq] at hfull
      have hne2 : skip_whitespace (skip_whitespace m ++ ['}']) ≠ [] := by
        rw [← hsx, skip_whitespace_idem, hsx]; simp
      have hidem : skip_whitespace (skip_whitespace m) ≠ [] := by
        rw [skip_whitespace_idem]; exact hnil
      have hsx2 := skip_whitespace_extend (skip_whitespace m) ['}'] hidem
      rw [hsx2] at hfull
      cases hs : skip_whitespace (skip_whitespace m) with
      | nil => exact hidem hs
      | cons c t =>
        rw [hs] at hfull
        simp at hfull
    · rw [if_neg h2] at hfull
      rw [if_neg h2]
      have hstop : isdigit ((',' :: z).headD '\x00') = false := by
        show isdigit ',' = false; decide
      have hdot : (',' :: z).headD '\x00' ≠ '.' := by
        show ',' ≠ '.'; decide
      exact loop_comma_fails (parse_value F) (parse_value (F + 1)) z hz
        (fun s res hs => parse_value_length F s res hs)
        (fun a p R h hp hl => parse_value_cut ['}'] (by simp) (by decide) (by decide) F a p R
          h hp (by simpa using hl))
        (fun s p r h hp => parse_value_mono_succ _ _ _
          (parse_value_extend (',' :: z) hstop hdot F s p r h hp))
        F _ _ p hfull hp

theorem parse_string_other_char (ws : List Char) (c : Char) (rest : List Char)
    (hws : ∀ x ∈ ws, isspace x = true) (hc : isspace c = false) (hq : c ≠ '"') :
    (parse_string (ws ++ c :: rest)).1 = NULL := by
  have hskip := skip_whitespace_append ws c rest hws hc
  simp only [parse_string, next_char, hskip, ne_eq, hq, not_false_eq_true, if_true]

/-- C17: trailing and duplicate commas are rejected in both containers.  When
the object text `{`, `m`, `}` parses successfully and is consumed completely,
`json_parse` returns `NULL` on `{`, `m`, `,`, whitespace, `}` and on `{`, `m`,
`,`, whitespace, `,` followed by anything; and it returns `NULL` on every text
that starts with `[`, so also on an array text with a comma before `]` or with
two commas in a row.  The inputs `{"key": "value",}`, `[1, 2,]` and `[1,, 2]`
are rejected. -/
theorem json_parse_comma_rejected (m w tail : List Char) (p : json_ptr)
    (hw : ∀ c ∈ w, isspace c = true)
    (hfull : parse_value (('{' :: (m ++ ['}'])).length + 1) ('{' :: (m ++ ['}'])) =
      some (p, []))
    (hp : p ≠ NULL) :
    json_parse (some ('{' :: (m ++ ',' :: (w ++ ['}'])))) = NULL ∧
    json_parse (some ('{' :: (m ++ ',' :: (w ++ ',' :: tail)))) = NULL ∧
    (∀ e : List Char, json_parse (some ('[' :: (e ++ ',' :: (w ++ [']'])))) = NULL) ∧
    (∀ e1 e2 : List Char,
      json_parse (some ('[' :: (e1 ++ ',' :: (w ++ ',' :: e2)))) = NULL) ∧
    json_parse (some "\x7b\"key\": \"value\",\x7d".toList) = NULL ∧
    json_parse (some "[1, 2,]".toList) = NULL ∧
    json_parse (some "[1,, 2]".toList) = NULL := by
  have harr : ∀ rest : List Char, json_parse (some ('[' :: rest)) = NULL := by
    intro rest
    have := parse_value_bracket (('[' :: rest).length) [] rest (by simp)
    simp only [List.nil_append] at this
    simp only [json_parse, this]
  refine ⟨?_, ?_, fun e => harr _, fun e1 e2 => harr _, by decide, by decide, by decide⟩
  · exact object_comma_fails m (w ++ ['}']) p
      (parse_string_other_char w '}' [] hw (by decide) (by decide)) hfull hp
  · exact object_comma_fails m (w ++ ',' :: tail) p
      (parse_string_other_char w ',' tail hw (by decide) (by decide)) hfull hp

/-- Witness for C17: the member list `"key": "value"`. -/
theorem json_parse_comma_rejected_witness :
    json_parse (some ('{' :: ("\"key\": \"value\"".toList ++ ',' :: ([] ++ ['}'])))) =
      NULL :=
  (json_parse_comma_rejected "\"key\": \"value\"".toList [] []
    (node NULL (node NULL NULL JSON_STRING (some "value".toList) 0 (some "key".toList))
      JSON_OBJECT none 0 none) (by simp) (by decide) (by decide)).1

/-! ### Leading whitespace -/

theorem skip_whitespace_leading (ws s : List Char) (hws : ∀ x ∈ ws, isspace x = true) :
    skip_whitespace (ws ++ s) = skip_whitespace s := by
  unfold skip_whitespace
  exact List.dropWhile_append_of_pos hws

theorem parse_value_leading (f : Nat) (ws s : List Char) (hws : ∀ x ∈ ws, isspace x = true) :
    parse_value f (ws ++ s) = parse_value f s := by
  cases f with
  | zero => rfl
  | succ n =>
    have hpk : peek_char (ws ++ s) = peek_char s := by
      simp only [peek_char, skip_whitespace_leading ws s hws]
    rw [parse_value_unfold, parse_value_unfold, hpk]

theorem json_parse_leading (ws t : List Char) (hws : ∀ x ∈ ws, isspace x = true) :
    json_parse (some (ws ++ t)) = json_parse (some t) := by
  obtain ⟨res, hres, hjp⟩ := json_parse_total t
  have h1 : parse_value (t.length + 1) (ws ++ t) = some res := by
    rw [parse_value_leading _ ws t hws]; exact hres
  have h2 := parse_value_fuel_irrelevant _ ((ws ++ t).length + 1) _ _ h1 (Nat.lt_succ_self _)
  rw [hjp]
  simp only [json_parse, h2]

theorem isspace_iff (c : Char) :
    isspace c = true ↔
      c = ' ' ∨ c = '\t' ∨ c = '\n' ∨ c = '\x0b' ∨ c = '\x0c' ∨ c = '\r' := by
  constructor
  · intro h
    simp only [isspace, Bool.or_eq_true, Bool.and_eq_true, decide_eq_true_eq] at h
    have hc : c = Char.ofNat c.toNat := (Char.ofNat_toNat c).symm
    have hcases : c.toNat = 32 ∨ c.toNat = 9 ∨ c.toNat = 10 ∨ c.toNat = 11 ∨ c.toNat = 12 ∨
        c.toNat = 13 := by omega
    rcases hcases with h1 | h1 | h1 | h1 | h1 | h1 <;> rw [h1] at hc <;> rw [hc] <;> decide
  · intro h
    rcases h with h | h | h | h | h | h <;> subst h <;> decide

/-- C23 as amended: the skippable whitespace set is the `isspace` set.  A
first character is skipped exactly when it is space, tab, newline, vertical
tab, form feed or carriage return, and the text then parses like the text
after it; a first character that is none of these and starts no value makes
`json_parse` return `NULL`, whatever follows it. -/
theorem json_parse_whitespace_set (c : Char) (rest : List Char) :
    (isspace c = true ↔
      c = ' ' ∨ c = '\t' ∨ c = '\n' ∨ c = '\x0b' ∨ c = '\x0c' ∨ c = '\r') ∧
    (isspace c = true → json_parse (some (c :: rest)) = json_parse (some rest)) ∧
    (isspace c = false → c ≠ '"' → c ≠ '{' → c ≠ '[' → c ≠ '-' → isdigit c = false →
      c ≠ 't' → c ≠ 'f' → c ≠ 'n' → json_parse (some (c :: rest)) = NULL) := by
  refine ⟨isspace_iff c, ?_, ?_⟩
  · intro h
    exact json_parse_leading [c] rest (by simpa using h)
  · intro hsp h1 h2 h3 h4 h5 h6 h7 h8
    have hskip := skip_whitespace_cons c rest hsp
    simp only [json_parse]
    rw [parse_value_unfold]
    simp [peek_char, hskip, h1, h2, h3, h4, h5, h6, h7, h8]

/-- Witness for C23 as amended: a vertical tab before `true` is skipped. -/
theorem json_parse_whitespace_set_witness :
    json_parse (some ('\x0b' :: "true".toList)) = json_parse (some "true".toList) :=
  (json_parse_whitespace_set '\x0b' "true".toList).2.1 (by decide)

/-- Counterexample to C23: a form feed or a vertical tab before `1` is skipped,
and the text parses to the Number 1. -/
theorem json_parse_form_feed_vertical_tab :
    json_parse (some ['\x0c', '1']) = node NULL NULL JSON_NUMBER none 1 none ∧
    json_parse (some ['\x0b', '1']) = node NULL NULL JSON_NUMBER none 1 none ∧
    json_parse (some ['\x0c', '1']) ≠ NULL ∧ json_parse (some ['\x0b', '1']) ≠ NULL := by
  decide

/-! ### Positions: what is left is a final part of what was there -/

theorem skip_whitespace_suffix (s : List Char) : skip_whitespace s <:+ s :=
  List.dropWhile_suffix isspace

theorem peek_char_suffix (s : List Char) : (peek_char s).2 <:+ s :=
  skip_whitespace_suffix s

theorem next_char_suffix (s : List Char) : (next_char s).2 <:+ s := by
  have h := skip_whitespace_suffix s
  simp only [next_char]
  cases hs : skip_whitespace s with
  | nil => exact List.nil_suffix
  | cons c t =>
    rw [hs] at h
    exact (List.suffix_cons c t).trans h

theorem parse_string_suffix (s : List Char) : (parse_string s).2 <:+ s := by
  have h := next_char_suffix s
  rcases hnc : next_char s with ⟨c, s1⟩
  rw [hnc] at h
  by_cases hc : c = '"'
  · subst hc
    have hd := List.dropWhile_suffix (l := s1) (fun ch => ch != '"')
    cases hdw : s1.dropWhile (fun ch => ch != '"') with
    | nil =>
      simp only [parse_string, hnc, hdw, ne_eq, not_true_eq_false, if_false]
      exact List.nil_suffix
    | cons q after =>
      rw [hdw] at hd
      simp only [parse_string, hnc, hdw, ne_eq, not_true_eq_false, if_false]
      exact ((List.suffix_cons q after).trans hd).trans h
  · simp only [parse_string, hnc, ne_eq, hc, not_false_eq_true, if_true]
    exact h

theorem parse_number_suffix (s : List Char) : (parse_number s).2 <:+ s := by
  have h1 : (if s.headD '\x00' = '-' then s.tail else s) <:+ s := by
    split
    · exact List.tail_suffix s
    · exact List.suffix_refl s
  generalize hs1 : (if s.headD '\x00' = '-' then s.tail else s) = s1 at h1
  cases hd : isdigit (s1.headD '\x00') with
  | false =>
    simp only [parse_number, hs1, hd, Bool.not_false, if_true]; exact h1
  | true =>
    simp only [parse_number, hs1, hd, Bool.not_true, Bool.false_eq_true, if_false]
    have h2 := List.dropWhile_suffix (l := s1) isdigit
    split
    · have h3 := List.dropWhile_suffix (l := (s1.dropWhile isdigit).tail) isdigit
      exact ((h3.trans (List.tail_suffix _)).trans h2).trans h1
    · exact h2.trans h1

theorem parse_literal_suffix (s : List Char) : (parse_literal s).2 <:+ s := by
  simp only [parse_literal]
  split
  · exact List.drop_suffix 4 s
  · split
    · exact List.drop_suffix 5 s
    · split
      · exact List.drop_suffix 4 s
      · exact List.suffix_refl s

theorem loop_suffix (v : List Char → Option (json_ptr × List Char))
    (hv : ∀ s res, v s = some res → res.2 <:+ s) :
    ∀ (n : Nat) (s : List Char) (object : json_ptr) (res : json_ptr × List Char),
      parse_object_loop v n s object = some res → res.2 <:+ s := by
  intro n
  induction n with
  | zero => intro s object res h; simp [parse_object_loop] at h
  | succ n ih =>
    intro s object res h
    have hs1 := parse_string_suffix s
    have hnx := (next_char_suffix (parse_string s).2).trans hs1
    rw [loop_unfold] at h
    by_cases h1 : (parse_string s).1 = NULL
    · rw [if_pos h1] at h
      rw [← Option.some.inj h]; exact hs1
    · rw [if_neg h1] at h
      by_cases h2 : (next_char (parse_string s).2).1 ≠ ':'
      · rw [if_pos h2] at h
        rw [← Option.some.inj h]; exact hnx
      · rw [if_neg h2] at h
        cases hval : v (next_char (parse_string s).2).2 with
        | none => simp [hval] at h
        | some r =>
          simp only [hval] at h
          have hr := (hv _ _ hval).trans hnx
          have hpk := (peek_char_suffix r.2).trans hr
          have hnx2 := (next_char_suffix (peek_char r.2).2).trans hpk
          by_cases h3 : r.1 = NULL
          · rw [if_pos h3] at h
            rw [← Option.some.inj h]; exact hr
          · rw [if_neg h3] at h
            unfold loop_continue at h
            by_cases h4 : (peek_char r.2).1 = '}'
            · rw [if_pos h4] at h
              rw [← Option.some.inj h]; exact hnx2
            · rw [if_neg h4] at h
              by_cases h5 : (peek_char r.2).1 = ','
              · rw [if_pos h5] at h
                exact (ih _ _ _ h).trans hnx2
              · rw [if_neg h5] at h
                rw [← Option.some.inj h]; exact hpk

theorem parse_object_suffix (v : List Char → Option (json_ptr × List Char))
    (hv : ∀ s res, v s = some res → res.2 <:+ s)
    (n : Nat) (s : List Char) (res : json_ptr × List Char)
    (h : parse_object v n s = some res) : res.2 <:+ s := by
  have hnx := next_char_suffix s
  have hpk := (peek_char_suffix (next_char s).2).trans hnx
  have hnx2 := (next_char_suffix (peek_char (next_char s).2).2).trans hpk
  rw [parse_object_unfold] at h
  by_cases h1 : (next_char s).1 ≠ '{'
  · rw [if_pos h1] at h
    rw [← Option.some.inj h]; exact hnx
  · rw [if_neg h1] at h
    by_cases h2 : (peek_char (next_char s).2).1 = '}'
    · rw [if_pos h2] at h
      rw [← Option.some.inj h]; exact hnx2
    · rw [if_neg h2] at h
      exact (loop_suffix v hv _ _ _ _ h).trans hpk

theorem parse_value_suffix :
    ∀ (f : Nat) (s : List Char) (res : json_ptr × List Char),
      parse_value f s = some res → res.2 <:+ s := by
  intro f
  induction f with
  | zero => intro s res h; simp [parse_value] at h
  | succ f ih =>
    intro s res h
    have hpk := peek_char_suffix s
    rw [parse_value_unfold] at h
    by_cases h1 : (peek_char s).1 = '"'
    · rw [if_pos h1] at h
      rw [← Option.some.inj h]; exact (parse_string_suffix _).trans hpk
    · rw [if_neg h1] at h
      by_cases h2 : (peek_char s).1 = '{'
      · rw [if_pos h2] at h
        exact (parse_object_suffix _ ih _ _ _ h).trans hpk
      · rw [if_neg h2] at h
        by_cases h3 : (peek_char s).1 = '['
        · rw [if_pos h3] at h
          rw [← Option.some.inj h]; exact hpk
        · rw [if_neg h3] at h
          by_cases h4 : (peek_char s).1 = 't' ∨ (peek_char s).1 = 'f' ∨ (peek_char s).1 = 'n'
          · rw [if_pos h4] at h
            rw [← Option.some.inj h]; exact (parse_literal_suffix _).trans hpk
          · rw [if_neg h4] at h
            by_cases h5 : (peek_char s).1 = '-' ∨ isdigit (peek_char s).1 = true
            · rw [if_pos h5] at h
              rw [← Option.some.inj h]; exact (parse_number_suffix _).trans hpk
            · rw [if_neg h5] at h
              rw [← Option.some.inj h]; exact hpk

theorem parse_object_progress (v : List Char → Option (json_ptr × List Char))
    (hlen : ∀ s res, v s = some res → res.2.length ≤ s.length)
    (n : Nat) (s : List Char) (p : json_ptr) (r : List Char)
    (h : parse_object v n s = some (p, r)) (hp : p ≠ NULL) : r.length < s.length := by
  rw [parse_object_unfold] at h
  by_cases h1 : (next_char s).1 ≠ '{'
  · rw [if_pos h1] at h
    simp only [Option.some.injEq, Prod.mk.injEq] at h
    exact absurd h.1.symm hp
  · rw [if_neg h1] at h
    have hne := next_char_ne_nil s '{' (not_not.mp h1) (by decide)
    have hstrict := next_char_progress s hne
    have hpk2 := peek_char_length (next_char s).2
    have hnx2 := next_char_length (peek_char (next_char s).2).2
    by_cases h2 : (peek_char (next_char s).2).1 = '}'
    · rw [if_pos h2] at h
      simp only [Option.some.injEq, Prod.mk.injEq] at h
      rw [← h.2]
      omega
    · rw [if_neg h2] at h
      have := loop_length v hlen _ _ _ _ h
      dsimp only at this
      omega

/-- The position reached, counted from the start of the text. -/
theorem drop_of_suffix (t : List Char) (pos : Nat) (r : List Char) (hpos : pos ≤ t.length)
    (h : r <:+ t.drop pos) :
    ∃ pos2, pos ≤ pos2 ∧ pos2 ≤ t.length ∧ r = t.drop pos2 := by
  obtain ⟨c, hc⟩ := h
  refine ⟨pos + c.length, Nat.le_add_right _ _, ?_, ?_⟩
  · have := congrArg List.length hc
    simp only [List.length_append, List.length_drop] at this
    omega
  · have : t.drop (pos + c.length) = (t.drop pos).drop c.length := by
      rw [List.drop_drop, Nat.add_comm]
    rw [this, ← hc, List.drop_left]

theorem position_after (t : List Char) (pos : Nat) (r : List Char) (c : Prop)
    (hpos : pos ≤ t.length) (hsuf : r <:+ t.drop pos)
    (hprog : c → r.length < (t.drop pos).length) :
    ∃ pos2, pos ≤ pos2 ∧ pos2 ≤ t.length ∧ r = t.drop pos2 ∧ (c → pos < pos2) := by
  obtain ⟨pos2, h1, h2, h3⟩ := drop_of_suffix t pos r hpos hsuf
  refine ⟨pos2, h1, h2, h3, ?_⟩
  intro hc
  have := hprog hc
  rw [h3] at this
  simp only [List.length_drop] at this
  omega

theorem loop_congr (v w : List Char → Option (json_ptr × List Char))
    (hlen : ∀ s res, v s = some res → res.2.length ≤ s.length) :
    ∀ (n : Nat) (s : List Char) (object : json_ptr),
      (∀ c : List Char, c.length < s.length → v c = w c) →
      parse_object_loop v n s object = parse_object_loop w n s object := by
  intro n
  induction n with
  | zero => intro s object _; rfl
  | succ n ih =>
    intro s object h
    rw [loop_unfold, loop_unfold]
    by_cases h1 : (parse_string s).1 = NULL
    · rw [if_pos h1, if_pos h1]
    · rw [if_neg h1, if_neg h1]
      by_cases h2 : (next_char (parse_string s).2).1 ≠ ':'
      · rw [if_pos h2, if_pos h2]
      · rw [if_neg h2, if_neg h2]
        have hs1 := (parse_string_length s).2 h1
        have hs2 := next_char_length (parse_string s).2
        have hvw := h (next_char (parse_string s).2).2 (by omega)
        rw [← hvw]
        cases hval : v (next_char (parse_string s).2).2 with
        | none => rfl
        | some r =>
          dsimp only
          by_cases h3 : r.1 = NULL
          · rw [if_pos h3, if_pos h3]
          · rw [if_neg h3, if_neg h3]
            have hr := hlen _ _ hval
            have hpk := peek_char_length r.2
            have hnx := next_char_length (peek_char r.2).2
            unfold loop_continue
            by_cases h4 : (peek_char r.2).1 = '}'
            · rw [if_pos h4, if_pos h4]
            · rw [if_neg h4, if_neg h4]
              by_cases h5 : (peek_char r.2).1 = ','
              · rw [if_pos h5, if_pos h5]
                exact ih _ _ (fun c hc => h c (by omega))
              · rw [if_neg h5, if_neg h5]

theorem parse_object_congr (v w : List Char → Option (json_ptr × List Char))
    (hlen : ∀ s res, v s = some res → res.2.length ≤ s.length)
    (n : Nat) (s : List Char)
    (h : ∀ c : List Char, c.length < s.length → v c = w c) :
    parse_object v n s = parse_object w n s := by
  rw [parse_object_unfold, parse_object_unfold]
  by_cases h1 : (next_char s).1 ≠ '{'
  · rw [if_pos h1, if_pos h1]
  · rw [if_neg h1, if_neg h1]
    by_cases h2 : (peek_char (next_char s).2).1 = '}'
    · rw [if_pos h2, if_pos h2]
    · rw [if_neg h2, if_neg h2]
      have hs1 := next_char_length s
      have hs2 := peek_char_length (next_char s).2
      exact loop_congr v w hlen n _ _ (fun c hc => h c (by omega))

/-- C26: the parser is total and makes progress.  From every position `pos`
of every text, `parse_value` returns a result with the bound `remaining + 1`,
and the same result with every larger bound; the position it leaves is at or
after `pos` and within the text, and strictly after `pos` when it succeeds.
The same holds for `parse_string`, `parse_number`, `parse_literal` and
`parse_object`.  The recursion descends on the number of remaining characters:
what `parse_object` returns at a position depends on `parse_value` only at
contexts with fewer remaining characters. -/
theorem parser_total_progress (t : List Char) (pos : Nat) (hpos : pos ≤ t.length) :
    (∃ p pos2,
      parse_value ((t.drop pos).length + 1) (t.drop pos) = some (p, t.drop pos2) ∧
      (∀ g, (t.drop pos).length < g →
        parse_value g (t.drop pos) = some (p, t.drop pos2)) ∧
      pos ≤ pos2 ∧ pos2 ≤ t.length ∧ (p ≠ NULL → pos < pos2)) ∧
    (∃ pos2, pos ≤ pos2 ∧ pos2 ≤ t.length ∧ (parse_string (t.drop pos)).2 = t.drop pos2 ∧
      ((parse_string (t.drop pos)).1 ≠ NULL → pos < pos2)) ∧
    (∃ pos2, pos ≤ pos2 ∧ pos2 ≤ t.length ∧ (parse_number (t.drop pos)).2 = t.drop pos2 ∧
      ((parse_number (t.drop pos)).1 ≠ NULL → pos < pos2)) ∧
    (∃ pos2, pos ≤ pos2 ∧ pos2 ≤ t.length ∧ (parse_literal (t.drop pos)).2 = t.drop pos2 ∧
      ((parse_literal (t.drop pos)).1 ≠ NULL → pos < pos2)) ∧
    (∀ f n p r, parse_object (parse_value f) n (t.drop pos) = some (p, r) →
      ∃ pos2, pos ≤ pos2 ∧ pos2 ≤ t.length ∧ r = t.drop pos2 ∧ (p ≠ NULL → pos < pos2)) ∧
    (∀ f g n, (∀ c : List Char, c.length < (t.drop pos).length →
        parse_value f c = parse_value g c) →
      parse_object (parse_value f) n (t.drop pos) =
        parse_object (parse_value g) n (t.drop pos)) := by
  refine ⟨?_, ?_, ?_, ?_, ?_, ?_⟩
  · obtain ⟨res, hres, -⟩ := parse_value_total ((t.drop pos).length + 1) (t.drop pos)
      (Nat.lt_succ_self _)
    obtain ⟨pos2, h1, h2, h3, h4⟩ := position_after t pos res.2 (res.1 ≠ NULL) hpos
      (parse_value_suffix _ _ _ hres)
      (fun hp => parse_value_progress _ _ res.1 res.2 hres hp)
    have hres2 : parse_value ((t.drop pos).length + 1) (t.drop pos) =
        some (res.1, t.drop pos2) := by rw [hres, ← h3]
    exact ⟨res.1, pos2, hres2,
      fun g hg => parse_value_fuel_irrelevant _ g _ _ hres2 hg, h1, h2, h4⟩
  · exact position_after t pos _ _ hpos (parse_string_suffix _)
      (parse_string_length _).2
  · exact position_after t pos _ _ hpos (parse_number_suffix _)
      (parse_number_progress _)
  · exact position_after t pos _ _ hpos (parse_literal_suffix _)
      (parse_literal_progress _)
  · intro f n p r h
    exact position_after t pos r (p ≠ NULL) hpos
      (parse_object_suffix _ (parse_value_suffix f) _ _ _ h)
      (fun hp => parse_object_progress _ (fun s res hs => parse_value_length f s res hs)
        _ _ _ _ h hp)
  · intro f g n h
    exact parse_object_congr _ _ (fun s res hs => parse_value_length f s res hs) n _ h

/-- Witness for C26: `parse_value` at position 5 of `{"a":{"b":1}}`, the start
of the inner object, returns a result and leaves a position within the text,
a later one when it succeeds. -/
theorem parser_total_progress_witness :
    ∃ p pos2,
      parse_value (("\x7b\"a\":\x7b\"b\":1\x7d\x7d".toList.drop 5).length + 1)
        ("\x7b\"a\":\x7b\"b\":1\x7d\x7d".toList.drop 5) =
        some (p, "\x7b\"a\":\x7b\"b\":1\x7d\x7d".toList.drop pos2) ∧
      5 ≤ pos2 ∧ pos2 ≤ "\x7b\"a\":\x7b\"b\":1\x7d\x7d".toList.length ∧
      (p ≠ NULL → 5 < pos2) := by
  obtain ⟨p, pos2, h1, -, h3, h4, h5⟩ :=
    (parser_total_progress "\x7b\"a\":\x7b\"b\":1\x7d\x7d".toList 5 (by decide)).1
  exact ⟨p, pos2, h1, h3, h4, h5⟩

/-! ### The shape of parsed trees -/

theorem nodes_append_sibling (a b : json_ptr) :
    nodes (append_sibling a b) = nodes a ++ nodes b := by
  induction a with
  | NULL => rfl
  | node nx ch t vs vn s ih _ => simp [append_sibling, nodes, ih]

theorem siblings_append_sibling (a b : json_ptr) :
    (siblings (append_sibling a b)).map (fun c => set_next c NULL) =
      (siblings a).map (fun c => set_next c NULL) ++
        (siblings b).map (fun c => set_next c NULL) := by
  induction a with
  | NULL => rfl
  | node nx ch t vs vn s ih _ =>
    simp only [append_sibling, siblings, List.map_cons, List.cons_append, ih]
    rfl

theorem next_char_inv (s r : List Char) (c : Char) (h : next_char s = (c, r))
    (hc : c ≠ '\x00') :
    ∃ ws, s = ws ++ c :: r ∧ ∀ x ∈ ws, isspace x = true := by
  have hsplit : s.takeWhile isspace ++ skip_whitespace s = s := List.takeWhile_append_dropWhile _ _
  cases hs : skip_whitespace s with
  | nil =>
    simp only [next_char, hs, Prod.mk.injEq] at h
    exact absurd h.1.symm hc
  | cons d rest =>
    simp only [next_char, hs, Prod.mk.injEq] at h
    refine ⟨s.takeWhile isspace, ?_, fun x hx => List.mem_takeWhile_imp hx⟩
    rw [← h.1, ← h.2, ← hs, hsplit]

theorem parse_string_inv (s : List Char) (h : (parse_string s).1 ≠ NULL) :
    ∃ ws body, s = ws ++ '"' :: (body ++ '"' :: (parse_string s).2) ∧
      (∀ x ∈ ws, isspace x = true) ∧ (∀ x ∈ body, x ≠ '"') ∧
      (parse_string s).1 = node NULL NULL JSON_STRING (some body) 0 none := by
  rcases hnc : next_char s with ⟨c, r⟩
  by_cases hq : c = '"'
  · subst hq
    obtain ⟨ws, hs, hws⟩ := next_char_inv s r '"' hnc (by decide)
    have hsplit : r.takeWhile (fun ch => ch != '"') ++ r.dropWhile (fun ch => ch != '"') = r :=
      List.takeWhile_append_dropWhile _ _
    have hbody : ∀ x ∈ r.takeWhile (fun ch => ch != '"'), x ≠ '"' := by
      intro x hx
      simpa using List.mem_takeWhile_imp hx
    cases hd : r.dropWhile (fun ch => ch != '"') with
    | nil =>
      simp [parse_string, hnc, hd] at h
    | cons q after =>
      have hq : q = '"' := by
        have := List.head_dropWhile_not (fun ch => ch != '"') r (by rw [hd]; simp)
        simpa [hd] using this
      subst hq
      rw [hd] at hsplit
      have hs2 : s = ws ++ '"' :: (r.takeWhile (fun ch => ch != '"') ++ '"' :: after) := by
        rw [hsplit]; exact hs
      have hps := parse_string_quoted ws (r.takeWhile (fun ch => ch != '"')) after hws hbody
      rw [← hs2] at hps
      refine ⟨ws, r.takeWhile (fun ch => ch != '"'), ?_, hws, hbody, ?_⟩
      · rw [hps]; exact hs2
      · rw [hps]
  · simp [parse_string, hnc, hq] at h

theorem parsed_node_set_string (t : List Char) (n : json_ptr) (k : Option (List Char))
    (h : parsed_node t n) : parsed_node t (set_string n k) := by
  cases n with
  | NULL => exact h
  | node nx ch ty vs vn s => exact h

theorem nodes_set_string (t : List Char) (p : json_ptr) (k : Option (List Char))
    (h : ∀ y ∈ nodes p, parsed_node t y) : ∀ x ∈ nodes (set_string p k), parsed_node t x := by
  cases p with
  | NULL => exact h
  | node nx ch ty vs vn s =>
    intro x hx
    simp only [set_string, nodes, List.mem_cons, List.mem_append] at hx
    rcases hx with hx | hx
    · subst hx
      exact parsed_node_set_string t (node NULL ch ty vs vn s) k
        (h _ (by simp [nodes]))
    · exact h x (by simp only [nodes, List.mem_cons, List.mem_append]; exact Or.inr hx)

theorem parse_string_nodes (t s : List Char) :
    (∀ n ∈ nodes (parse_string s).1, parsed_node t n) ∧ get_string (parse_string s).1 = none := by
  by_cases h : (parse_string s).1 = NULL
  · rw [h]; exact ⟨by simp [nodes], rfl⟩
  · obtain ⟨ws, body, -, -, hbody, hres⟩ := parse_string_inv s h
    rw [hres]
    refine ⟨?_, rfl⟩
    intro n hn
    simp only [nodes, List.append_nil, List.mem_singleton] at hn
    subst hn
    exact Or.inl ⟨rfl, rfl, rfl, body, rfl, hbody⟩

theorem atof_decimal (x : List Char) : ∃ (m : Int) (k : Nat), atof x = mkRat m (10 ^ k) := by
  unfold atof
  exact ⟨_, _, rfl⟩

theorem parse_number_nodes (t s : List Char) :
    (∀ n ∈ nodes (parse_number s).1, parsed_node t n) ∧ get_string (parse_number s).1 = none := by
  cases hd : isdigit ((if s.headD '\x00' = '-' then s.tail else s).headD '\x00') with
  | false =>
    simp only [parse_number, hd, Bool.not_false, if_true]
    exact ⟨by simp [nodes], rfl⟩
  | true =>
    simp only [parse_number, hd, Bool.not_true, Bool.false_eq_true, if_false, json_new,
      set_type, set_valuenumber]
    refine ⟨?_, rfl⟩
    intro n hn
    simp only [nodes, List.append_nil, List.mem_singleton] at hn
    subst hn
    exact Or.inr (Or.inl ⟨rfl, rfl, rfl, atof_decimal _⟩)

theorem parse_literal_nodes (t s : List Char) :
    (∀ n ∈ nodes (parse_literal s).1, parsed_node t n) ∧
      get_string (parse_literal s).1 = none := by
  unfold parse_literal
  split
  · refine ⟨?_, rfl⟩
    intro n hn
    simp only [json_new, set_type, nodes, List.append_nil, List.mem_singleton] at hn
    subst hn
    exact Or.inr (Or.inr (Or.inl ⟨Or.inl rfl, rfl, rfl, rfl⟩))
  · split
    · refine ⟨?_, rfl⟩
      intro n hn
      simp only [json_new, set_type, nodes, List.append_nil, List.mem_singleton] at hn
      subst hn
      exact Or.inr (Or.inr (Or.inl ⟨Or.inr (Or.inl rfl), rfl, rfl, rfl⟩))
    · split
      · refine ⟨?_, rfl⟩
        intro n hn
        simp only [json_new, set_type, nodes, List.append_nil, List.mem_singleton] at hn
        subst hn
        exact Or.inr (Or.inr (Or.inl ⟨Or.inr (Or.inr rfl), rfl, rfl, rfl⟩))
      · exact ⟨by simp [nodes], rfl⟩

theorem loop_nodes (t : List Char) (f : Nat)
    (ihv : ∀ s res, s <:+ t → parse_value f s = some res →
      (∀ n ∈ nodes res.1, parsed_node t n) ∧ get_string res.1 = none) :
    ∀ (n : Nat) (s : List Char) (ch : json_ptr) (res : json_ptr × List Char),
      s <:+ t →
      parse_object_loop (parse_value f) n s (node NULL ch JSON_OBJECT none 0 none) = some res →
      res.1 ≠ NULL →
      (∀ x ∈ nodes ch, parsed_node t x) →
      (∀ c ∈ (siblings ch).map (fun c => set_next c NULL),
        ∃ key, get_string c = some key ∧ member_in_source t key c) →
      ∃ ch2, res.1 = node NULL ch2 JSON_OBJECT none 0 none ∧
        (∀ x ∈ nodes ch2, parsed_node t x) ∧
        (∀ c ∈ (siblings ch2).map (fun c => set_next c NULL),
          ∃ key, get_string c = some key ∧ member_in_source t key c) := by
  intro n
  induction n with
  | zero => intro s ch res _ h; simp [parse_object_loop] at h
  | succ n ih =>
    intro s ch res hst h hres hnodes hmem
    obtain ⟨p, r⟩ := res
    obtain ⟨key_item, s1, s2, item, s3, hkey, hk, hcolon, hval, hitem⟩ :=
      loop_inv _ n s r _ p h hres
    rw [loop_step _ n s s1 s2 s3 _ key_item item hkey hk hcolon hval hitem] at h
    -- the key and the colon as text
    have hk2 : (parse_string s).1 ≠ NULL := by rw [hkey]; exact hk
    obtain ⟨ws1, body, hs, hws1, hbody, hkres⟩ := parse_string_inv s hk2
    rw [hkey] at hs hkres
    dsimp only at hs hkres
    obtain ⟨ws2, hs1, hws2⟩ := next_char_inv s1 s2 ':' hcolon (by decide)
    have hs1t : s1 <:+ t := by
      have := parse_string_suffix s
      rw [hkey] at this
      exact this.trans hst
    have hs2t : s2 <:+ t := by
      have := next_char_suffix s1
      rw [hcolon] at this
      exact this.trans hs1t
    have hs3t : s3 <:+ t := (parse_value_suffix f s2 _ hval).trans hs2t
    obtain ⟨hinodes, histr⟩ := ihv s2 _ hs2t hval
    dsimp only at hinodes histr
    have hinext := parse_value_next_NULL f s2 item s3 hval
    have hkv : get_valuestring key_item = some body := by rw [hkres]; rfl
    rw [hkv] at h
    -- the new child
    have hnew_nodes : ∀ x ∈ nodes (append_sibling ch (set_string item (some body))),
        parsed_node t x := by
      intro x hx
      rw [nodes_append_sibling, List.mem_append] at hx
      rcases hx with hx | hx
      · exact hnodes x hx
      · exact nodes_set_string t item (some body) hinodes x hx
    have hnew_mem : ∀ c ∈ (siblings (append_sibling ch (set_string item (some body)))).map
        (fun c => set_next c NULL),
        ∃ key, get_string c = some key ∧ member_in_source t key c := by
      intro c hc
      rw [siblings_append_sibling, List.mem_append] at hc
      rcases hc with hc | hc
      · exact hmem c hc
      · cases item with
        | NULL => exact absurd rfl hitem
        | node nx ich ity ivs ivn istr =>
          simp only [get_next] at hinext
          subst hinext
          simp only [set_string, siblings, List.map_cons, List.map_nil, set_next,
            List.mem_singleton] at hc
          subst hc
          refine ⟨body, rfl, ws1, ws2, s2, s3, node NULL ich ity ivs ivn istr, f, ?_, hws1,
            hws2, hbody, hval, hitem, rfl⟩
          rw [← hs1, ← hs]
          exact hst
    unfold loop_continue at h
    simp only [get_child, set_child] at h
    by_cases h4 : (peek_char s3).1 = '}'
    · rw [if_pos h4] at h
      simp only [Option.some.injEq, Prod.mk.injEq] at h
      exact ⟨_, h.1.symm, hnew_nodes, hnew_mem⟩
    · rw [if_neg h4] at h
      by_cases h5 : (peek_char s3).1 = ','
      · rw [if_pos h5] at h
        have hctx : (next_char (peek_char s3).2).2 <:+ t :=
          ((next_char_suffix _).trans (peek_char_suffix s3)).trans hs3t
        exact ih _ _ _ hctx h hres hnew_nodes hnew_mem
      · rw [if_neg h5] at h
        simp only [Option.some.injEq, Prod.mk.injEq] at h
        exact absurd h.1.symm hres

theorem parse_value_nodes (t : List Char) :
    ∀ (f : Nat) (s : List Char) (res : json_ptr × List Char),
      s <:+ t → parse_value f s = some res →
      (∀ n ∈ nodes res.1, parsed_node t n) ∧ get_string res.1 = none := by
  intro f
  induction f with
  | zero => intro s res _ h; simp [parse_value] at h
  | succ f ih =>
    intro s res hst h
    have hNULL : ∀ q : List Char, some (NULL, q) = some res →
        (∀ n ∈ nodes res.1, parsed_node t n) ∧ get_string res.1 = none := by
      intro q hq
      rw [← Option.some.inj hq]
      exact ⟨by simp [nodes], rfl⟩
    rw [parse_value_unfold] at h
    by_cases h1 : (peek_char s).1 = '"'
    · rw [if_pos h1] at h
      rw [← Option.some.inj h]; exact parse_string_nodes t _
    · rw [if_neg h1] at h
      by_cases h2 : (peek_char s).1 = '{'
      · rw [if_pos h2] at h
        rw [parse_object_unfold] at h
        by_cases h3 : (next_char (peek_char s).2).1 ≠ '{'
        · rw [if_pos h3] at h; exact hNULL _ h
        · rw [if_neg h3] at h
          by_cases h4 : (peek_char (next_char (peek_char s).2).2).1 = '}'
          · rw [if_pos h4] at h
            rw [← Option.some.inj h]
            refine ⟨?_, rfl⟩
            intro n hn
            simp only [json_new, set_type, nodes, List.append_nil, List.mem_singleton] at hn
            subst hn
            exact Or.inr (Or.inr (Or.inr ⟨rfl, rfl, rfl, by simp [children, get_child, siblings]⟩))
          · rw [if_neg h4] at h
            by_cases hres : res.1 = NULL
            · rw [hres]; exact ⟨by simp [nodes], rfl⟩
            · have hctx : (peek_char (next_char (peek_char s).2).2).2 <:+ t :=
                (((peek_char_suffix _).trans (next_char_suffix _)).trans
                  (peek_char_suffix s)).trans hst
              obtain ⟨ch2, hr, hn2, hm2⟩ := loop_nodes t f ih f _ NULL res hctx h hres
                (by simp [nodes]) (by simp [siblings])
              rw [hr]
              refine ⟨?_, rfl⟩
              intro n hn
              simp only [nodes, List.append_nil, List.mem_cons] at hn
              rcases hn with hn | hn
              · subst hn
                exact Or.inr (Or.inr (Or.inr ⟨rfl, rfl, rfl, hm2⟩))
              · exact hn2 n hn
      · rw [if_neg h2] at h
        by_cases h3 : (peek_char s).1 = '['
        · rw [if_pos h3] at h; exact hNULL _ h
        · rw [if_neg h3] at h
          by_cases h4 : (peek_char s).1 = 't' ∨ (peek_char s).1 = 'f' ∨ (peek_char s).1 = 'n'
          · rw [if_pos h4] at h
            rw [← Option.some.inj h]; exact parse_literal_nodes t _
          · rw [if_neg h4] at h
            by_cases h5 : (peek_char s).1 = '-' ∨ isdigit (peek_char s).1 = true
            · rw [if_pos h5] at h
              rw [← Option.some.inj h]; exact parse_number_nodes t _
            · rw [if_neg h5] at h; exact hNULL _ h

theorem nodes_cases (q n : json_ptr) (h : n ∈ nodes q) :
    n ∈ (siblings q).map (fun c => set_next c NULL) ∨ ∃ parent ∈ nodes q, n ∈ children parent := by
  induction q with
  | NULL => simp [nodes] at h
  | node nx ch ty vs vn s ih_nx ih_ch =>
    simp only [nodes, List.mem_cons, List.mem_append] at h
    rcases h with h | h | h
    · left
      subst h
      simp [siblings, set_next]
    · right
      rcases ih_ch h with h2 | ⟨parent, hpar, h2⟩
      · exact ⟨node NULL ch ty vs vn s, by simp [nodes], h2⟩
      · exact ⟨parent, by simp [nodes, hpar], h2⟩
    · rcases ih_nx h with h2 | ⟨parent, hpar, h2⟩
      · left
        simp only [siblings, List.map_cons, List.mem_cons]
        exact Or.inr h2
      · right
        exact ⟨parent, by simp [nodes, hpar], h2⟩

theorem children_of_parsed (t : List Char) (n : json_ptr) (h : parsed_node t n) :
    ∀ c ∈ children n,
      get_type n = JSON_OBJECT ∧ ∃ key, get_string c = some key ∧ member_in_source t key c := by
  intro c hc
  have hleaf : get_child n = NULL → False := by
    intro h0
    simp [children, h0, siblings] at hc
  rcases h with h | h | h | h
  · exact absurd h.2.1 hleaf
  · exact absurd h.2.1 hleaf
  · exact absurd h.2.1 hleaf
  · exact ⟨h.1, h.2.2.2 c hc⟩

/-- C24: the member names of a parsed tree.  In the tree `json_parse` returns
for a text `t`, the root has no member name (and no sibling); every direct
child of a node is the child of an Object and carries as member name the key
text that stands before its value in `t`, between double quotes and followed
by a colon; and a node that has a member name is a direct child of an Object
of the tree.  On `{"a":{"b":1},"c":"x"}` the children of the root are named
`a` and `c`, and the child of the first of them `b`. -/
theorem json_parse_member_names (t : List Char) :
    get_string (json_parse (some t)) = none ∧
    get_next (json_parse (some t)) = NULL ∧
    (∀ n ∈ nodes (json_parse (some t)), ∀ c ∈ children n,
      get_type n = JSON_OBJECT ∧
      ∃ key, get_string c = some key ∧ member_in_source t key c) ∧
    (∀ n ∈ nodes (json_parse (some t)), get_string n ≠ none →
      ∃ parent ∈ nodes (json_parse (some t)),
        get_type parent = JSON_OBJECT ∧ n ∈ children parent) ∧
    (nodes (json_parse (some "\x7b\"a\":\x7b\"b\":1\x7d,\"c\":\"x\"\x7d".toList))).map
      get_string = [none, some ['a'], some ['b'], some ['c']] := by
  obtain ⟨res, hres, hjp⟩ := json_parse_total t
  obtain ⟨hnodes, hstr⟩ := parse_value_nodes t _ t res List.suffix_rfl hres
  have hnext := parse_value_next_NULL _ _ res.1 res.2 hres
  rw [hjp]
  have hchildren : ∀ n ∈ nodes res.1, ∀ c ∈ children n,
      get_type n = JSON_OBJECT ∧
      ∃ key, get_string c = some key ∧ member_in_source t key c :=
    fun n hn => children_of_parsed t n (hnodes n hn)
  refine ⟨hstr, hnext, hchildren, ?_, by decide⟩
  intro n hn hname
  rcases nodes_cases res.1 n hn with h | ⟨parent, hpar, h⟩
  · exfalso
    apply hname
    cases hr : res.1 with
    | NULL => rw [hr] at h; simp [siblings] at h
    | node nx ch ty vs vn s =>
      rw [hr] at h hstr hnext
      simp only [get_next] at hnext
      subst hnext
      simp only [get_string] at hstr
      subst hstr
      simp only [siblings, List.map_cons, List.map_nil, List.mem_singleton, set_next] at h
      rw [h]; rfl
  · exact ⟨parent, hpar, (hchildren parent hpar n h).1, h⟩

/-! ### Failure at a value position -/

theorem parse_value_agree (f g : Nat) (s : List Char) (r1 r2 : json_ptr × List Char)
    (h1 : parse_value f s = some r1) (h2 : parse_value g s = some r2) : r1 = r2 := by
  have a := parse_value_mono f g s r1 h1
  have b := parse_value_mono g f s r2 h2
  rw [Nat.add_comm] at b
  rw [a] at b
  exact Option.some.inj b

theorem next_after_peek (s : List Char) (c : Char) (h : (peek_char s).1 = c)
    (hc : c ≠ '\x00') : (next_char (peek_char s).2).1 = c := by
  rw [next_char_peek]
  have hne := peek_char_ne_nil s c h hc
  simp only [peek_char] at h
  cases hs : skip_whitespace s with
  | nil => exact absurd hs hne
  | cons d r =>
    rw [hs] at h
    simp only [next_char, hs]
    exact h

theorem loop_position_fails (t : List Char) (s : List Char) (hpos : loop_position t s)
    (hall : ∀ g n object res, parse_object_loop (parse_value g) n s object = some res →
      res.1 = NULL) :
    json_parse (some t) = NULL := by
  induction hpos with
  | root h1 h2 =>
    obtain ⟨res, hres, hjp⟩ := json_parse_total t
    rw [hjp]
    rw [parse_value_unfold, if_neg (by rw [h1]; decide), if_pos h1, parse_object_unfold] at hres
    have h3 := next_after_peek t '{' h1 (by decide)
    rw [if_neg (by simpa using h3), if_neg h2] at hres
    exact hall _ _ _ _ hres
  | nested s s1 s2 key_item _ hkey hk hcolon h1 h2 ih =>
    apply ih
    intro g n object res hrun
    cases n with
    | zero => simp [parse_object_loop] at hrun
    | succ n =>
      rw [loop_unfold, hkey] at hrun
      dsimp only at hrun
      rw [if_neg hk, hcolon] at hrun
      dsimp only at hrun
      rw [if_neg (by simp)] at hrun
      cases hval : parse_value g s2 with
      | none => simp [hval] at hrun
      | some r =>
        simp only [hval] at hrun
        have hr : r.1 = NULL := by
          cases g with
          | zero => simp [parse_value] at hval
          | succ g =>
            rw [parse_value_unfold, if_neg (by rw [h1]; decide), if_pos h1,
              parse_object_unfold] at hval
            have h3 := next_after_peek s2 '{' h1 (by decide)
            rw [if_neg (by simpa using h3), if_neg h2] at hval
            exact hall _ _ _ _ hval
        rw [if_pos hr] at hrun
        rw [← Option.some.inj hrun]
  | later s s1 s2 s3 key_item item f _ hkey hk hcolon hv hitem hcomma ih =>
    apply ih
    intro g n object res hrun
    cases n with
    | zero => simp [parse_object_loop] at hrun
    | succ n =>
      rw [loop_unfold, hkey] at hrun
      dsimp only at hrun
      rw [if_neg hk, hcolon] at hrun
      dsimp only at hrun
      rw [if_neg (by simp)] at hrun
      cases hval : parse_value g s2 with
      | none => simp [hval] at hrun
      | some r =>
        simp only [hval] at hrun
        have hr := parse_value_agree g f s2 r (item, s3) hval hv
        subst hr
        dsimp only at hrun
        rw [if_neg hitem] at hrun
        unfold loop_continue at hrun
        rw [if_neg (by rw [hcomma]; decide), if_pos hcomma] at hrun
        exact hall _ _ _ _ hrun

theorem value_position_fails (t s : List Char) (hpos : value_position t s)
    (hall : ∀ g res, parse_value g s = some res → res.1 = NULL) :
    json_parse (some t) = NULL := by
  rcases hpos with h | ⟨s0, s1, key_item, hloop, hkey, hk, hcolon⟩
  · subst h
    obtain ⟨res, hres, hjp⟩ := json_parse_total s
    rw [hjp]
    exact hall _ _ hres
  · apply loop_position_fails t s0 hloop
    intro g n object res hrun
    cases n with
    | zero => simp [parse_object_loop] at hrun
    | succ n =>
      rw [loop_unfold, hkey] at hrun
      dsimp only at hrun
      rw [if_neg hk, hcolon] at hrun
      dsimp only at hrun
      rw [if_neg (by simp)] at hrun
      cases hval : parse_value g s with
      | none => simp [hval] at hrun
      | some r =>
        simp only [hval] at hrun
        rw [if_pos (hall g r hval)] at hrun
        rw [← Option.some.inj hrun]

theorem parse_value_bracket_NULL (f : Nat) (s : List Char) (res : json_ptr × List Char)
    (hb : (peek_char s).1 = '[') (h : parse_value f s = some res) : res.1 = NULL := by
  cases f with
  | zero => simp [parse_value] at h
  | succ f =>
    rw [parse_value_unfold, if_neg (by rw [hb]; decide), if_neg (by rw [hb]; decide),
      if_pos hb] at h
    rw [← Option.some.inj h]
    rfl

theorem parsed_node_type (t : List Char) (n : json_ptr) (h : parsed_node t n) :
    get_type n ≠ JSON_ARRAY := by
  rcases h with h | h | h | h
  · rw [h.1]; decide
  · rw [h.1]; decide
  · rcases h.1 with h1 | h1 | h1 <;> rw [h1] <;> decide
  · rw [h.1]; decide

/-- C25: `json_parse` never produces an Array.  No node of the tree
`json_parse` returns has type `JSON_ARRAY`, so on every node `json_is_array` is
false, `json_array_size` is 0 and `json_array_get` is `NULL` for every index;
and `json_parse` returns `NULL` whenever a value position the parser reaches,
the root or the value of an object member at any depth, has `[` as its first
character after whitespace.  In `{"a":1,"b":[2]}` the parser reaches the value
position `[2]}`, and the result is `NULL`. -/
theorem json_parse_never_array (t : List Char) :
    (∀ n ∈ nodes (json_parse (some t)),
      get_type n ≠ JSON_ARRAY ∧ json_is_array n = false ∧ json_array_size n = 0 ∧
      ∀ index, json_array_get n index = NULL) ∧
    (∀ s, value_position t s → (peek_char s).1 = '[' → json_parse (some t) = NULL) ∧
    ((peek_char t).1 = '[' → json_parse (some t) = NULL) ∧
    value_position "\x7b\"a\":1,\"b\":[2]\x7d".toList "[2]\x7d".toList ∧
    json_parse (some "\x7b\"a\":1,\"b\":[2]\x7d".toList) = NULL := by
  have hfail : ∀ s, value_position t s → (peek_char s).1 = '[' →
      json_parse (some t) = NULL :=
    fun s hpos hb => value_position_fails t s hpos
      (fun g res h => parse_value_bracket_NULL g s res hb h)
  refine ⟨?_, hfail, hfail t (Or.inl rfl), ?_, by decide⟩
  · obtain ⟨res, hres, hjp⟩ := json_parse_total t
    obtain ⟨hnodes, -⟩ := parse_value_nodes t _ t res List.suffix_rfl hres
    rw [hjp]
    intro n hn
    have hty := parsed_node_type t n (hnodes n hn)
    cases n with
    | NULL => exact ⟨hty, rfl, rfl, fun _ => rfl⟩
    | node nx ch ty vs vn s =>
      simp only [get_type] at hty
      refine ⟨hty, by simp [json_is_array, hty], by simp [json_array_size, hty], ?_⟩
      intro index
      simp [json_array_get, hty]
  · have h1 : loop_position "\x7b\"a\":1,\"b\":[2]\x7d".toList
        "\"a\":1,\"b\":[2]\x7d".toList :=
      @loop_position.root "\x7b\"a\":1,\"b\":[2]\x7d".toList (by decide) (by decide)
    have h2 : loop_position "\x7b\"a\":1,\"b\":[2]\x7d".toList "\"b\":[2]\x7d".toList :=
      loop_position.later "\"a\":1,\"b\":[2]\x7d".toList ":1,\"b\":[2]\x7d".toList
        "1,\"b\":[2]\x7d".toList ",\"b\":[2]\x7d".toList
        (node NULL NULL JSON_STRING (some ['a']) 0 none)
        (node NULL NULL JSON_NUMBER none 1 none) 1 h1 (by decide) (by decide) (by decide)
        (by decide) (by decide) (by decide)
    exact Or.inr ⟨_, ":[2]\x7d".toList, node NULL NULL JSON_STRING (some ['b']) 0 none, h2,
      by decide, by decide, by decide⟩

/-! ### Whitespace between tokens -/

theorem json_whitespace_isspace (w : List Char) (h : json_whitespace w) :
    ∀ x ∈ w, isspace x = true := by
  intro x hx
  rcases h x hx with h1 | h1 | h1 | h1 <;> subst h1 <;> decide

theorem isspace_not_digit (x : Char) (h : isspace x = true) : isdigit x = false ∧ x ≠ '.' := by
  rcases (isspace_iff x).mp h with h1 | h1 | h1 | h1 | h1 | h1 <;> subst h1 <;> decide

theorem head_after_space (w : List Char) (c : Char) (rest : List Char)
    (hw : ∀ x ∈ w, isspace x = true) (hc : isdigit c = false ∧ c ≠ '.') :
    isdigit ((w ++ c :: rest).headD '\x00') = false ∧ (w ++ c :: rest).headD '\x00' ≠ '.' := by
  cases w with
  | nil => exact hc
  | cons x xs => exact isspace_not_digit x (hw x (by simp))

theorem head_space_only (w : List Char) (hw : ∀ x ∈ w, isspace x = true) :
    isdigit (w.headD '\x00') = false ∧ w.headD '\x00' ≠ '.' := by
  cases w with
  | nil => exact ⟨by decide, by decide⟩
  | cons x xs => exact isspace_not_digit x (hw x (by simp))

theorem peek_char_leading (ws s : List Char) (hws : ∀ x ∈ ws, isspace x = true) :
    peek_char (ws ++ s) = peek_char s := by
  simp only [peek_char, skip_whitespace_leading ws s hws]

theorem next_char_leading (ws s : List Char) (hws : ∀ x ∈ ws, isspace x = true) :
    next_char (ws ++ s) = next_char s := by
  simp only [next_char, skip_whitespace_leading ws s hws]

theorem parse_string_leading (ws s : List Char) (hws : ∀ x ∈ ws, isspace x = true) :
    parse_string (ws ++ s) = parse_string s := by
  simp only [parse_string, next_char_leading ws s hws]

theorem loop_leading (v : List Char → Option (json_ptr × List Char)) (n : Nat)
    (ws s : List Char) (object : json_ptr) (hws : ∀ x ∈ ws, isspace x = true) :
    parse_object_loop v n (ws ++ s) object = parse_object_loop v n s object := by
  cases n with
  | zero => rfl
  | succ n => rw [loop_unfold, loop_unfold, parse_string_leading ws s hws]

theorem loop_continue_leading (v : List Char → Option (json_ptr × List Char)) (n : Nat)
    (object : json_ptr) (key : Option (List Char)) (item : json_ptr) (ws s : List Char)
    (hws : ∀ x ∈ ws, isspace x = true) :
    loop_continue v n object key item (ws ++ s) = loop_continue v n object key item s := by
  simp only [loop_continue, peek_char_leading ws s hws]

theorem loop_member_spaced (f n : Nat) (w1 k w2 w3 v tail : List Char) (ch p : json_ptr)
    (h1 : ∀ x ∈ w1, isspace x = true) (h2 : ∀ x ∈ w2, isspace x = true)
    (h3 : ∀ x ∈ w3, isspace x = true)
    (hk : ∀ c ∈ k, c ≠ '"') (hp : p ≠ NULL)
    (hv : parse_value f (v ++ tail) = some (p, tail)) :
    parse_object_loop (parse_value f) (n + 1)
        (w1 ++ '"' :: (k ++ '"' :: (w2 ++ ':' :: (w3 ++ (v ++ tail)))))
        (node NULL ch JSON_OBJECT none 0 none) =
      loop_continue (parse_value f) n (node NULL ch JSON_OBJECT none 0 none) (some k) p
        tail := by
  have hkey := parse_string_quoted w1 k (w2 ++ ':' :: (w3 ++ (v ++ tail))) h1 hk
  have hcolon : next_char (w2 ++ ':' :: (w3 ++ (v ++ tail))) = (':', w3 ++ (v ++ tail)) := by
    rw [next_char_leading w2 _ h2]
    simp only [next_char, skip_whitespace_cons ':' _ (by decide)]
  have hval : parse_value f (w3 ++ (v ++ tail)) = some (p, tail) := by
    rw [parse_value_leading f w3 _ h3]; exact hv
  exact loop_step (parse_value f) n _ _ _ _ _ _ p hkey (by simp) hcolon hval hp

theorem loop_skip (v : List Char → Option (json_ptr × List Char)) (n : Nat)
    (s : List Char) (object : json_ptr) :
    parse_object_loop v n (skip_whitespace s) object = parse_object_loop v n s object := by
  have hsplit : s.takeWhile isspace ++ skip_whitespace s = s :=
    List.takeWhile_append_dropWhile _ _
  have := loop_leading v n (s.takeWhile isspace) (skip_whitespace s) object
    (fun x hx => List.mem_takeWhile_imp hx)
  rw [hsplit] at this
  exact this.symm

theorem members_last (w1 k w2 w3 v w4 : List Char) (p : json_ptr)
    (h1 : ∀ x ∈ w1, isspace x = true) (h2 : ∀ x ∈ w2, isspace x = true)
    (h3 : ∀ x ∈ w3, isspace x = true) (h4 : ∀ x ∈ w4, isspace x = true)
    (hk : ∀ c ∈ k, c ≠ '"') (hp : p ≠ NULL)
    (hv : parse_value (v.length + 1) v = some (p, [])) :
    members_parse (w1 ++ '"' :: (k ++ '"' :: (w2 ++ ':' :: (w3 ++ (v ++ (w4 ++ ['}']))))))
      (set_string p (some k)) := by
  constructor
  · rw [peek_char_leading w1 _ h1]
    simp only [peek_char, skip_whitespace_cons '"' _ (by decide), List.headD_cons]
  · intro f n ch rest hf hn
    simp only [List.length_append, List.length_cons, List.length_nil] at hf hn
    cases n with
    | zero => omega
    | succ n =>
      have htext : (w1 ++ '"' :: (k ++ '"' :: (w2 ++ ':' :: (w3 ++ (v ++ (w4 ++ ['}'])))))) ++
          rest = w1 ++ '"' :: (k ++ '"' :: (w2 ++ ':' :: (w3 ++ (v ++ (w4 ++ '}' :: rest))))) := by
        simp
      have hhead := head_after_space w4 '}' rest h4 ⟨by decide, by decide⟩
      have hval := value_in_context f v (w4 ++ '}' :: rest) p hp hv (by omega) hhead.1 hhead.2
      rw [htext, loop_member_spaced f n w1 k w2 w3 v _ ch p h1 h2 h3 hk hp hval,
        loop_continue_leading _ _ _ _ _ w4 _ h4, loop_continue_close]

theorem members_more (w1 k w2 w3 v w4 m : List Char) (p items : json_ptr)
    (h1 : ∀ x ∈ w1, isspace x = true) (h2 : ∀ x ∈ w2, isspace x = true)
    (h3 : ∀ x ∈ w3, isspace x = true) (h4 : ∀ x ∈ w4, isspace x = true)
    (hk : ∀ c ∈ k, c ≠ '"') (hp : p ≠ NULL)
    (hv : parse_value (v.length + 1) v = some (p, []))
    (hm : members_parse m items) :
    members_parse (w1 ++ '"' :: (k ++ '"' :: (w2 ++ ':' :: (w3 ++ (v ++ (w4 ++ ',' :: m))))))
      (append_sibling (set_string p (some k)) items) := by
  constructor
  · rw [peek_char_leading w1 _ h1]
    simp only [peek_char, skip_whitespace_cons '"' _ (by decide), List.headD_cons]
  · intro f n ch rest hf hn
    simp only [List.length_append, List.length_cons] at hf hn
    cases n with
    | zero => omega
    | succ n =>
      have htext : (w1 ++ '"' :: (k ++ '"' :: (w2 ++ ':' :: (w3 ++ (v ++ (w4 ++ ',' :: m)))))) ++
          rest = w1 ++ '"' :: (k ++ '"' :: (w2 ++ ':' :: (w3 ++ (v ++ (w4 ++ ',' :: (m ++ rest)))))) := by
        simp
      have hhead := head_after_space w4 ',' (m ++ rest) h4 ⟨by decide, by decide⟩
      have hval := value_in_context f v (w4 ++ ',' :: (m ++ rest)) p hp hv (by omega)
        hhead.1 hhead.2
      rw [htext, loop_member_spaced f n w1 k w2 w3 v _ ch p h1 h2 h3 hk hp hval,
        loop_continue_leading _ _ _ _ _ w4 _ h4, loop_continue_comma,
        hm.2 f n _ rest (by omega) (by omega), append_sibling_assoc]

theorem object_of_members (m : List Char) (items : json_ptr) (hm : members_parse m items) :
    parse_value (('{' :: m).length + 1) ('{' :: m) =
      some (node NULL items JSON_OBJECT none 0 none, []) := by
  have hskip1 := skip_whitespace_cons '{' m (by decide)
  have hpk : peek_char ('{' :: m) = ('{', '{' :: m) := by
    simp only [peek_char, hskip1, List.headD_cons]
  have hnc : next_char ('{' :: m) = ('{', m) := by
    simp only [next_char, hskip1]
  have hloop := hm.2 (('{' :: m).length) (('{' :: m).length) NULL []
    (by simp) (by simp)
  rw [List.append_nil] at hloop
  rw [parse_value_unfold, hpk]
  dsimp only
  rw [if_neg (by decide), if_pos rfl, parse_object_unfold, hnc]
  dsimp only
  rw [if_neg (by simp), if_neg (by rw [hm.1]; decide)]
  show parse_object_loop _ _ (skip_whitespace m) _ = _
  rw [loop_skip]
  exact hloop

theorem spaced_same_parse (kind : text_kind) (t2 t : List Char) (h : spaced kind t2 t) :
    same_parse kind t2 t := by
  induction h with
  | same v hv =>
    obtain ⟨p, hp, hpv⟩ := hv
    exact ⟨p, hp, hpv, hpv⟩
  | empty_object w hw =>
    have hws := json_whitespace_isspace w hw
    refine ⟨node NULL NULL JSON_OBJECT none 0 none, by simp, ?_, by decide⟩
    have hskip1 := skip_whitespace_cons '{' (w ++ ['}']) (by decide)
    have hpk : peek_char ('{' :: (w ++ ['}'])) = ('{', '{' :: (w ++ ['}'])) := by
      simp only [peek_char, hskip1, List.headD_cons]
    have hnc : next_char ('{' :: (w ++ ['}'])) = ('{', w ++ ['}']) := by
      simp only [next_char, hskip1]
    have hpk2 : peek_char (w ++ ['}']) = ('}', ['}']) := by
      rw [peek_char_leading w _ hws]; rfl
    rw [parse_value_unfold, hpk]
    dsimp only
    rw [if_neg (by decide), if_pos rfl, parse_object_unfold, hnc]
    dsimp only
    rw [if_neg (by simp), hpk2]
    rfl
  | object m2 m _ ih =>
    obtain ⟨items, h2, h1⟩ := ih
    have hne : node NULL items JSON_OBJECT none 0 none ≠ NULL := by simp
    exact ⟨_, hne, object_of_members m2 items h2, object_of_members m items h1⟩
  | last w1 k w2 w3 v2 v w4 hw1 hw2 hw3 hw4 hk _ ih =>
    obtain ⟨p, hp, hv2, hv⟩ := ih
    refine ⟨set_string p (some k), ?_, ?_⟩
    · exact members_last w1 k w2 w3 v2 w4 p (json_whitespace_isspace _ hw1)
        (json_whitespace_isspace _ hw2) (json_whitespace_isspace _ hw3)
        (json_whitespace_isspace _ hw4) hk hp hv2
    · have := members_last [] k [] [] v [] p (by simp) (by simp) (by simp) (by simp) hk hp hv
      simpa using this
  | more w1 k w2 w3 v2 v w4 m2 m hw1 hw2 hw3 hw4 hk _ _ ihv ihm =>
    obtain ⟨p, hp, hv2, hv⟩ := ihv
    obtain ⟨items, hm2, hm⟩ := ihm
    refine ⟨append_sibling (set_string p (some k)) items, ?_, ?_⟩
    · exact members_more w1 k w2 w3 v2 w4 m2 p items (json_whitespace_isspace _ hw1)
        (json_whitespace_isspace _ hw2) (json_whitespace_isspace _ hw3)
        (json_whitespace_isspace _ hw4) hk hp hv2 hm2
    · have := members_more [] k [] [] v [] m p items (by simp) (by simp) (by simp) (by simp)
        hk hp hv hm
      simpa using this

/-- C21: whitespace between tokens does not change the result.  For every
text `t` and every `w` made only of space, tab, newline and carriage return,
`json_parse (w ++ t)` equals `json_parse t` (so one succeeds exactly when the
other does, with the same tree); and for an object text `t` that the parser
reads completely, every text `t2` obtained from it by inserting such
whitespace around the `{`, `:`, `,` and `}` of its objects, at any depth,
also with whitespace before and after it, parses to the same tree as `t`.
The text `{ "key" : "value" }` is such a text for `{"key":"value"}`, and both
parse to the same Object. -/
theorem json_parse_whitespace_between_tokens :
    (∀ w t : List Char, json_whitespace w →
      json_parse (some (w ++ t)) = json_parse (some t)) ∧
    (∀ t2 t : List Char, spaced text_kind.value t2 t →
      ∀ w0 w5 : List Char, json_whitespace w0 → json_whitespace w5 →
        json_parse (some t) ≠ NULL ∧
        json_parse (some (w0 ++ (t2 ++ w5))) = json_parse (some t)) ∧
    spaced text_kind.value "\x7b \"key\" : \"value\" \x7d".toList
      "\x7b\"key\":\"value\"\x7d".toList ∧
    json_parse (some "\x7b \"key\" : \"value\" \x7d".toList) =
      node NULL (node NULL NULL JSON_STRING (some "value".toList) 0 (some "key".toList))
        JSON_OBJECT none 0 none := by
  refine ⟨?_, ?_, ?_, by decide⟩
  · intro w t hw
    exact json_parse_leading w t (json_whitespace_isspace w hw)
  · intro t2 t h w0 w5 hw0 hw5
    obtain ⟨p, hp, hv2, hv⟩ := spaced_same_parse _ _ _ h
    have hjt : json_parse (some t) = p := by simp only [json_parse, hv]
    have hhead := head_space_only w5 (json_whitespace_isspace w5 hw5)
    have hval := value_in_context ((t2 ++ w5).length + 1) t2 w5 p hp hv2
      (by simp only [List.length_append]; omega) hhead.1 hhead.2
    rw [json_parse_leading w0 _ (json_whitespace_isspace w0 hw0), hjt]
    exact ⟨hp, by simp only [json_parse, hval]⟩
  · have hw : json_whitespace [' '] := by unfold json_whitespace; decide
    exact spaced.object _ _
      (spaced.last [' '] "key".toList [' '] [' '] "\"value\"".toList "\"value\"".toList [' ']
        hw hw hw hw (by decide)
        (spaced.same _ ⟨node NULL NULL JSON_STRING (some "value".toList) 0 none,
          by decide, by decide⟩))

/-! ### The printed form of numbers and strings -/

theorem digit_char_spec (d : Nat) (h : d < 10) :
    isdigit (digit_char d) = true ∧ (digit_char d).toNat - 48 = d := by
  interval_cases d <;> exact ⟨by decide, by decide⟩

theorem digits_foldl (ds : List Char) (acc : Nat) :
    ds.foldl (fun a c => 10 * a + (c.toNat - 48)) acc =
      acc * 10 ^ ds.length + digits_value ds := by
  induction ds generalizing acc with
  | nil => simp [digits_value]
  | cons c cs ih =>
    simp only [List.foldl_cons, List.length_cons, digits_value]
    rw [ih, ih (10 * 0 + (c.toNat - 48))]
    ring

theorem digits_value_append (a b : List Char) :
    digits_value (a ++ b) = digits_value a * 10 ^ b.length + digits_value b := by
  unfold digits_value
  rw [List.foldl_append, digits_foldl]
  rfl

theorem fixed_digits_spec (k : Nat) :
    ∀ n : Nat, (fixed_digits k n).length = k ∧
      (∀ c ∈ fixed_digits k n, isdigit c = true) ∧
      digits_value (fixed_digits k n) = n % 10 ^ k := by
  induction k with
  | zero => intro n; simp [fixed_digits, digits_value, Nat.mod_one]
  | succ k ih =>
    intro n
    obtain ⟨h1, h2, h3⟩ := ih (n / 10)
    have hd := digit_char_spec (n % 10) (Nat.mod_lt _ (by decide))
    refine ⟨by simp [fixed_digits, h1], ?_, ?_⟩
    · intro c hc
      simp only [fixed_digits, List.mem_append, List.mem_singleton] at hc
      rcases hc with hc | hc
      · exact h2 c hc
      · rw [hc]; exact hd.1
    · simp only [fixed_digits]
      rw [digits_value_append, h3]
      have hlast : digits_value [digit_char (n % 10)] = n % 10 := by
        simp [digits_value, hd.2]
      rw [hlast, pow_succ, Nat.mul_comm (10 ^ k) 10, Nat.mod_mul]
      simp only [List.length_singleton, pow_one]
      ring

theorem nat_digits_aux_spec (fuel : Nat) :
    ∀ n : Nat, n ≤ fuel → nat_digits_aux fuel n ≠ [] ∧
      (∀ c ∈ nat_digits_aux fuel n, isdigit c = true) ∧
      digits_value (nat_digits_aux fuel n) = n := by
  induction fuel with
  | zero =>
    intro n hn
    have h0 : n = 0 := by omega
    subst h0
    exact ⟨by simp [nat_digits_aux], by decide, by decide⟩
  | succ fuel ih =>
    intro n hn
    by_cases h10 : n < 10
    · have hd := digit_char_spec n h10
      simp only [nat_digits_aux, if_pos h10]
      refine ⟨by simp, ?_, by simp [digits_value, hd.2]⟩
      intro c hc
      simp only [List.mem_singleton] at hc
      rw [hc]; exact hd.1
    · have hdiv : n / 10 ≤ fuel := by omega
      obtain ⟨h1, h2, h3⟩ := ih (n / 10) hdiv
      have hd := digit_char_spec (n % 10) (Nat.mod_lt _ (by decide))
      simp only [nat_digits_aux, if_neg h10]
      refine ⟨by simp, ?_, ?_⟩
      · intro c hc
        simp only [List.mem_append, List.mem_singleton] at hc
        rcases hc with hc | hc
        · exact h2 c hc
        · rw [hc]; exact hd.1
      · rw [digits_value_append, h3]
        have hlast : digits_value [digit_char (n % 10)] = n % 10 := by
          simp [digits_value, hd.2]
        rw [hlast]
        simp only [List.length_singleton, pow_one]
        omega

theorem nat_digits_spec (n : Nat) : nat_digits n ≠ [] ∧
    (∀ c ∈ nat_digits n, isdigit c = true) ∧ digits_value (nat_digits n) = n :=
  nat_digits_aux_spec n n (Nat.le_refl n)

theorem decimal_scale_aux_spec (d : Nat) (fuel : Nat) :
    ∀ k : Nat, (∃ j, k ≤ j ∧ j ≤ k + fuel ∧ d ∣ 10 ^ j) →
      d ∣ 10 ^ decimal_scale_aux fuel d k := by
  induction fuel with
  | zero =>
    intro k ⟨j, h1, h2, h3⟩
    have : j = k := by omega
    subst this
    exact h3
  | succ fuel ih =>
    intro k ⟨j, h1, h2, h3⟩
    by_cases hk : 10 ^ k % d = 0
    · simp only [decimal_scale_aux, if_pos hk]
      exact Nat.dvd_of_mod_eq_zero hk
    · simp only [decimal_scale_aux, if_neg hk]
      apply ih
      have hjk : j ≠ k := by
        intro h
        subst h
        exact hk (Nat.mod_eq_zero_of_dvd h3)
      exact ⟨j, by omega, by omega, h3⟩

theorem dvd_pow_self_of_dvd_pow (d k0 : Nat) (hd : d ≠ 0) (h : d ∣ 10 ^ k0) : d ∣ 10 ^ d := by
  have h1 := (Nat.factorization_le_iff_dvd hd (pow_ne_zero k0 (by decide))).mpr h
  apply (Nat.factorization_le_iff_dvd hd (pow_ne_zero d (by decide))).mp
  intro p
  have h1p := h1 p
  rw [Nat.factorization_pow] at h1p ⊢
  simp only [Finsupp.smul_apply, smul_eq_mul] at h1p ⊢
  by_cases h0 : (Nat.factorization 10) p = 0
  · rw [h0] at h1p
    omega
  · have hlt := Nat.factorization_lt p hd
    have : 1 ≤ (Nat.factorization 10) p := Nat.one_le_iff_ne_zero.mpr h0
    calc (Nat.factorization d) p ≤ d := le_of_lt hlt
      _ = d * 1 := (Nat.mul_one d).symm
      _ ≤ d * (Nat.factorization 10) p := Nat.mul_le_mul_left d this

theorem decimal_scale_spec (d k0 : Nat) (hd : d ≠ 0) (h : d ∣ 10 ^ k0) :
    d ∣ 10 ^ decimal_scale d := by
  apply decimal_scale_aux_spec d d 0
  exact ⟨d, Nat.zero_le d, by omega, dvd_pow_self_of_dvd_pow d k0 hd h⟩

theorem atof_fraction (neg : Bool) (ip fp : List Char) (hne : ip ≠ [])
    (hip : ∀ c ∈ ip, isdigit c = true) (hfp : ∀ c ∈ fp, isdigit c = true) :
    atof ((if neg then ['-'] else []) ++ (ip ++ '.' :: fp)) =
      mkRat (if neg then -(digits_value (ip ++ fp) : Int) else (digits_value (ip ++ fp) : Int))
        (10 ^ fp.length) := by
  have htake := takeWhile_all_append isdigit ip ('.' :: fp) hip
    (by show isdigit '.' = false; decide)
  have hdrop := dropWhile_all_append isdigit ip ('.' :: fp) hip
    (by show isdigit '.' = false; decide)
  have htake2 := takeWhile_all_append isdigit fp [] hfp (by decide)
  rw [List.append_nil] at htake2
  have hneg : (decide (((if neg = true then ['-'] else []) ++ (ip ++ '.' :: fp)).headD '\x00'
      = '-')) = neg := by
    cases neg with
    | true => simp
    | false =>
      have h := (headD_digits_append ip ('.' :: fp) hne hip).2
      simp only [Bool.false_eq_true, if_false, List.nil_append]
      exact decide_eq_false h
  have hsign2 : (if neg = true then ((if neg = true then ['-'] else []) ++ (ip ++ '.' :: fp)).tail
      else (if neg = true then ['-'] else []) ++ (ip ++ '.' :: fp)) = ip ++ '.' :: fp := by
    cases neg <;> simp
  simp only [atof, hneg, hsign2, htake, hdrop, List.headD_cons, List.tail_cons, if_true,
    htake2]

theorem den_dvd_pow (m : Int) (k0 : Nat) : (mkRat m (10 ^ k0)).den ∣ 10 ^ k0 := by
  have h := Rat.den_dvd m ((10 ^ k0 : Nat) : Int)
  rw [← Rat.mkRat_eq_divInt] at h
  exact Int.natCast_dvd_natCast.mp h

theorem print_number_parse (x : Rat) (m : Int) (k0 : Nat) (hx : x = mkRat m (10 ^ k0))
    (rest : List Char) (hrest : isdigit (rest.headD '\x00') = false)
    (hdot : rest.headD '\x00' ≠ '.') (fuel : Nat) :
    parse_value (fuel + 1) (print_number x ++ rest) =
      some (node NULL NULL JSON_NUMBER none x none, rest) := by
  have hden : x.den ∣ 10 ^ k0 := by rw [hx]; exact den_dvd_pow m k0
  have hsigned : (if decide (x.num < 0) = true then -((x.num.natAbs : Nat) : Int)
      else ((x.num.natAbs : Nat) : Int)) = x.num := by
    by_cases hn : x.num < 0
    · simp only [hn, decide_True, if_true]; omega
    · simp only [hn, decide_False, Bool.false_eq_true, if_false]; omega
  have hsign : (if x.num < 0 then ['-'] else []) =
      (if decide (x.num < 0) = true then ['-'] else ([] : List Char)) := by
    by_cases hn : x.num < 0 <;> simp [hn]
  by_cases h1 : x.den = 1
  · obtain ⟨hne, hdig, hval⟩ := nat_digits_spec x.num.natAbs
    have htext : print_number x ++ rest =
        (if decide (x.num < 0) = true then ['-'] else []) ++ (nat_digits x.num.natAbs ++ rest) := by
      simp only [print_number, if_pos h1, hsign, List.append_assoc]
    rw [htext, parse_value_number fuel _ _ rest hne hdig,
      parse_number_integer _ _ rest hne hdig hrest hdot, atof_integer _ _ hne hdig, hval,
      hsigned, Rat.coe_int_num_of_den_eq_one h1]
  · have hscale := decimal_scale_spec x.den k0 x.den_nz hden
    obtain ⟨c, hc⟩ := hscale
    have hcpos : c ≠ 0 := by
      intro h0
      rw [h0, Nat.mul_zero] at hc
      exact absurd hc (pow_ne_zero _ (by decide))
    have hdiv : 10 ^ decimal_scale x.den / x.den = c := by
      rw [hc]; exact Nat.mul_div_cancel_left c (Nat.pos_of_ne_zero x.den_nz)
    obtain ⟨hne, hdig, hval⟩ := nat_digits_spec
      (x.num.natAbs * c / 10 ^ decimal_scale x.den)
    obtain ⟨hflen, hfdig, hfval⟩ := fixed_digits_spec (decimal_scale x.den)
      (x.num.natAbs * c % 10 ^ decimal_scale x.den)
    have htext : print_number x ++ rest =
        (if decide (x.num < 0) = true then ['-'] else []) ++
          (nat_digits (x.num.natAbs * c / 10 ^ decimal_scale x.den) ++
            '.' :: (fixed_digits (decimal_scale x.den)
              (x.num.natAbs * c % 10 ^ decimal_scale x.den) ++ rest)) := by
      simp only [print_number, if_neg h1, hsign, hdiv, List.append_assoc, List.cons_append]
    have hdv : digits_value (nat_digits (x.num.natAbs * c / 10 ^ decimal_scale x.den) ++
        fixed_digits (decimal_scale x.den) (x.num.natAbs * c % 10 ^ decimal_scale x.den)) =
        x.num.natAbs * c := by
      rw [digits_value_append, hval, hfval, hflen, Nat.mod_mod]
      exact Nat.div_add_mod' _ _
    have hcast : (if decide (x.num < 0) = true then -(((x.num.natAbs * c : Nat)) : Int)
        else (((x.num.natAbs * c : Nat)) : Int)) = x.num * (c : Int) := by
      by_cases hn : x.num < 0
      · have habs : ((x.num.natAbs : Nat) : Int) = -x.num := by omega
        simp only [hn, decide_True, if_true, Nat.cast_mul, habs]
        ring
      · have habs : ((x.num.natAbs : Nat) : Int) = x.num := by omega
        simp only [hn, decide_False, Bool.false_eq_true, if_false, Nat.cast_mul, habs]
    rw [htext, parse_value_number fuel _ _ _ hne hdig,
      parse_number_point _ _ _ rest hne hdig hfdig hrest, atof_fraction _ _ _ hne hdig hfdig,
      hdv, hflen, hcast, hc, Rat.mkRat_mul_right hcpos, Rat.mkRat_self]

theorem escape_char_unescaped (c : Char)
    (h : c ≠ '"' ∧ c ≠ '\\' ∧ c ≠ '/' ∧ 32 ≤ c.toNat) : escape_char c = [c] := by
  obtain ⟨h1, h2, h3, h4⟩ := h
  have hctl : ∀ d : Char, d.toNat < 32 → c ≠ d := by
    intro d hd hcd
    subst hcd
    omega
  unfold escape_char
  rw [if_neg h1, if_neg h2, if_neg h3, if_neg (hctl _ (by decide)), if_neg (hctl _ (by decide)),
    if_neg (hctl _ (by decide)), if_neg (hctl _ (by decide)), if_neg (hctl _ (by decide)),
    if_neg (by omega)]

theorem escape_text_unescaped (s : List Char) (h : unescaped s) : escape_text s = s := by
  induction s with
  | nil => rfl
  | cons c cs ih =>
    simp only [escape_text, escape_char_unescaped c (h c (by simp)),
      ih (fun d hd => h d (by simp [hd]))]
    rfl

theorem print_string_parse (fuel : Nat) (body rest : List Char) (h : unescaped body) :
    parse_value (fuel + 1) (print_string body ++ rest) =
      some (node NULL NULL JSON_STRING (some body) 0 none, rest) := by
  have := parse_value_quoted fuel [] body rest (by simp) (fun c hc => (h c hc).1)
  simpa [print_string, escape_text_unescaped body h] using this

/-! ### Printing and parsing again -/

theorem print_aux_value (nx ch : json_ptr) (t : Int) (vs : Option (List Char)) (vn : Rat)
    (s : Option (List Char)) :
    (print_aux (node nx ch t vs vn s)).1 =
      if t = JSON_STRING then print_string (vs.getD [])
      else if t = JSON_NUMBER then print_number vn
      else if t = JSON_TRUE then ['t', 'r', 'u', 'e']
      else if t = JSON_FALSE then ['f', 'a', 'l', 's', 'e']
      else if t = JSON_NULL then ['n', 'u', 'l', 'l']
      else if t = JSON_OBJECT then '{' :: ((print_aux ch).2.1 ++ ['}'])
      else if t = JSON_ARRAY then '[' :: ((print_aux ch).2.2 ++ [']'])
      else [] := rfl

theorem print_aux_members (nx ch : json_ptr) (t : Int) (vs : Option (List Char)) (vn : Rat)
    (s : Option (List Char)) :
    (print_aux (node nx ch t vs vn s)).2.1 =
      if nx = NULL then
        print_string (s.getD []) ++ ':' :: (print_aux (node nx ch t vs vn s)).1
      else
        (print_string (s.getD []) ++ ':' :: (print_aux (node nx ch t vs vn s)).1) ++
          ',' :: (print_aux nx).2.1 := rfl

theorem print_aux_members_head (q : json_ptr) (hq : q ≠ NULL) :
    ∃ tl, (print_aux q).2.1 = '"' :: tl := by
  cases q with
  | NULL => exact absurd rfl hq
  | node nx ch t vs vn s =>
    rw [print_aux_members]
    by_cases h : nx = NULL
    · rw [if_pos h]; exact ⟨_, rfl⟩
    · rw [if_neg h]; exact ⟨_, rfl⟩

theorem parse_value_object_text (f : Nat) (m rest : List Char) (p : json_ptr) (tl : List Char)
    (hm : m = '"' :: tl)
    (hloop : parse_object_loop (parse_value f) f (m ++ '}' :: rest)
      (node NULL NULL JSON_OBJECT none 0 none) = some (p, rest)) :
    parse_value (f + 1) ('{' :: (m ++ ['}']) ++ rest) = some (p, rest) := by
  have htext : '{' :: (m ++ ['}']) ++ rest = '{' :: (m ++ '}' :: rest) := by simp
  have hskip1 := skip_whitespace_cons '{' (m ++ '}' :: rest) (by decide)
  have hpk : peek_char ('{' :: (m ++ '}' :: rest)) = ('{', '{' :: (m ++ '}' :: rest)) := by
    simp only [peek_char, hskip1, List.headD_cons]
  have hnc : next_char ('{' :: (m ++ '}' :: rest)) = ('{', m ++ '}' :: rest) := by
    simp only [next_char, hskip1]
  have hskip2 : skip_whitespace (m ++ '}' :: rest) = m ++ '}' :: rest := by
    rw [hm]; exact skip_whitespace_cons '"' _ (by decide)
  have hpk2 : peek_char (m ++ '}' :: rest) = ('"', m ++ '}' :: rest) := by
    simp only [peek_char, hskip2]
    rw [hm]; rfl
  rw [htext, parse_value_unfold, hpk]
  dsimp only
  rw [if_neg (by decide), if_pos rfl, parse_object_unfold, hnc]
  dsimp only
  rw [if_neg (by simp), hpk2]
  dsimp only
  rw [if_neg (by decide)]
  exact hloop

theorem parse_value_empty_object_text (f : Nat) (rest : List Char) :
    parse_value (f + 1) ('{' :: '}' :: rest) =
      some (node NULL NULL JSON_OBJECT none 0 none, rest) := by
  have hskip1 := skip_whitespace_cons '{' ('}' :: rest) (by decide)
  have hskip2 := skip_whitespace_cons '}' rest (by decide)
  simp [parse_value, parse_object, peek_char, next_char, hskip1, hskip2, json_new, set_type]

theorem parse_value_literal_text (f : Nat) (rest : List Char) :
    parse_value (f + 1) ('t' :: 'r' :: 'u' :: 'e' :: rest) =
      some (node NULL NULL JSON_TRUE none 0 none, rest) ∧
    parse_value (f + 1) ('f' :: 'a' :: 'l' :: 's' :: 'e' :: rest) =
      some (node NULL NULL JSON_FALSE none 0 none, rest) ∧
    parse_value (f + 1) ('n' :: 'u' :: 'l' :: 'l' :: rest) =
      some (node NULL NULL JSON_NULL none 0 none, rest) := by
  refine ⟨?_, ?_, ?_⟩
  · rw [parse_value_literal_start f 't' _ (Or.inl rfl)]
    simp [parse_literal, strncmp_eq, json_new, set_type]
  · rw [parse_value_literal_start f 'f' _ (Or.inr (Or.inl rfl))]
    simp [parse_literal, strncmp_eq, json_new, set_type]
  · rw [parse_value_literal_start f 'n' _ (Or.inr (Or.inr rfl))]
    simp [parse_literal, strncmp_eq, json_new, set_type]

theorem print_parse (p : json_ptr) :
    (∀ nx ch t vs vn s, p = node nx ch t vs vn s → printable_chain ch →
      printable_value ch t vs vn →
      ∀ (f : Nat) (rest : List Char), (print_aux p).1.length + 1 ≤ f →
        isdigit (rest.headD '\x00') = false → rest.headD '\x00' ≠ '.' →
        parse_value f ((print_aux p).1 ++ rest) = some (node NULL ch t vs vn none, rest)) ∧
    (p ≠ NULL → printable_chain p →
      ∀ (f n : Nat) (ch0 : json_ptr) (rest : List Char),
        (print_aux p).2.1.length + 2 ≤ f → (print_aux p).2.1.length + 1 ≤ n →
        parse_object_loop (parse_value f) n ((print_aux p).2.1 ++ '}' :: rest)
            (node NULL ch0 JSON_OBJECT none 0 none) =
          some (node NULL (append_sibling ch0 p) JSON_OBJECT none 0 none, rest)) := by
  induction p with
  | NULL =>
    refine ⟨?_, ?_⟩
    · intro nx ch t vs vn s h; cases h
    · intro h; exact absurd rfl h
  | node nx ch t vs vn s ih_nx ih_ch =>
    have hA : printable_chain ch → printable_value ch t vs vn →
        ∀ (f : Nat) (rest : List Char),
          (print_aux (node nx ch t vs vn s)).1.length + 1 ≤ f →
          isdigit (rest.headD '\x00') = false → rest.headD '\x00' ≠ '.' →
          parse_value f ((print_aux (node nx ch t vs vn s)).1 ++ rest) =
            some (node NULL ch t vs vn none, rest) := by
      intro hch hv f rest hf hrest hdot
      cases f with
      | zero => omega
      | succ f =>
        rcases hv with ⟨ht, hc, hn, body, hvs, hbody⟩ | ⟨ht, hc, hvs, m, k, hn⟩ |
          ⟨ht, hc, hvs, hn⟩ | ⟨ht, hvs, hn⟩
        · subst ht hc hn hvs
          rw [print_aux_value, if_pos rfl]
          exact print_string_parse f body rest hbody
        · subst ht hc hvs
          rw [print_aux_value, if_neg (by decide), if_pos rfl]
          exact print_number_parse vn m k hn rest hrest hdot f
        · subst hc hvs hn
          rcases ht with ht | ht | ht
          · subst ht
            rw [print_aux_value, if_neg (by decide), if_neg (by decide), if_pos rfl]
            exact (parse_value_literal_text f rest).1
          · subst ht
            rw [print_aux_value, if_neg (by decide), if_neg (by decide), if_neg (by decide),
              if_pos rfl]
            exact (parse_value_literal_text f rest).2.1
          · subst ht
            rw [print_aux_value, if_neg (by decide), if_neg (by decide), if_neg (by decide),
              if_neg (by decide), if_pos rfl]
            exact (parse_value_literal_text f rest).2.2
        · subst ht hvs hn
          rw [print_aux_value, if_neg (by decide), if_neg (by decide), if_neg (by decide),
            if_neg (by decide), if_neg (by decide), if_pos rfl] at hf ⊢
          by_cases hcn : ch = NULL
          · subst hcn
            exact parse_value_empty_object_text f rest
          · obtain ⟨tl, htl⟩ := print_aux_members_head ch hcn
            simp only [List.length_cons, List.length_append, List.length_nil] at hf
            have hloop := ih_ch.2 hcn hch f f NULL rest (by omega) (by omega)
            exact parse_value_object_text f _ rest _ tl htl hloop
    refine ⟨?_, ?_⟩
    · intro nx2 ch2 t2 vs2 vn2 s2 heq hch hv
      cases heq
      exact hA hch hv
    · intro _ hp f n ch0 rest hf hn
      obtain ⟨hnx, hch, ⟨k, hs, hk⟩, hv⟩ := hp
      subst hs
      have hkq : ∀ c ∈ k, c ≠ '"' := fun c hc => (hk c hc).1
      have hmember : print_string ((some k).getD []) = '"' :: (k ++ ['"']) := by
        simp [print_string, escape_text_unescaped k hk]
      rw [print_aux_members, hmember] at hf hn ⊢
      cases n with
      | zero => omega
      | succ n =>
        by_cases hnull : nx = NULL
        · subst hnull
          rw [if_pos rfl] at hf hn ⊢
          simp only [List.length_cons, List.length_append, List.length_nil] at hf hn
          have hval := hA hch hv f ('}' :: rest) (by omega) (by show isdigit '}' = false; decide)
            (by show '}' ≠ '.'; decide)
          have htext : ('"' :: (k ++ ['"']) ++ ':' :: (print_aux (node NULL ch t vs vn (some k))).1)
              ++ '}' :: rest = '"' :: (k ++ '"' :: ':' ::
                ((print_aux (node NULL ch t vs vn (some k))).1 ++ '}' :: rest)) := by
            simp
          rw [htext, loop_member_step f n k _ ('}' :: rest) ch0 _ hkq (by simp) hval,
            loop_continue_close]
          rfl
        · rw [if_neg hnull] at hf hn ⊢
          simp only [List.length_cons, List.length_append, List.length_nil] at hf hn
          have hval := hA hch hv f (',' :: ((print_aux nx).2.1 ++ '}' :: rest)) (by omega)
            (by show isdigit ',' = false; decide) (by show ',' ≠ '.'; decide)
          have htext : (('"' :: (k ++ ['"']) ++
              ':' :: (print_aux (node nx ch t vs vn (some k))).1) ++
              ',' :: (print_aux nx).2.1) ++ '}' :: rest =
              '"' :: (k ++ '"' :: ':' :: ((print_aux (node nx ch t vs vn (some k))).1 ++
                ',' :: ((print_aux nx).2.1 ++ '}' :: rest))) := by
            simp
          rw [htext, loop_member_step f n k _ _ ch0 _ hkq (by simp) hval, loop_continue_comma,
            ih_nx.2 hnull hnx f n _ rest (by omega) (by omega), append_sibling_assoc]
          rfl

theorem printable_of_parsed (src : List Char) (n : json_ptr) (h : parsed_node src n)
    (hc : unescaped_node n) :
    printable_value (get_child n) (get_type n) (get_valuestring n) (get_valuenumber n) := by
  rcases h with ⟨ht, hch, hn, body, hvs, _⟩ | ⟨ht, hch, hvs, hn⟩ | ⟨ht, hch, hvs, hn⟩ |
    ⟨ht, hvs, hn, _⟩
  · refine Or.inl ⟨ht, hch, hn, body, hvs, ?_⟩
    have := hc.1
    rw [hvs] at this
    exact this
  · exact Or.inr (Or.inl ⟨ht, hch, hvs, hn⟩)
  · exact Or.inr (Or.inr (Or.inl ⟨ht, hch, hvs, hn⟩))
  · exact Or.inr (Or.inr (Or.inr ⟨ht, hvs, hn⟩))

theorem chain_of_nodes (src : List Char) (q : json_ptr)
    (hn : ∀ n ∈ nodes q, parsed_node src n ∧ unescaped_node n)
    (hkeys : ∀ c ∈ (siblings q).map (fun c => set_next c NULL),
      ∃ key, get_string c = some key) :
    printable_chain q := by
  induction q with
  | NULL => trivial
  | node nx ch t vs vn s ih_nx ih_ch =>
    have hhead := hn (node NULL ch t vs vn s) (by simp [nodes])
    refine ⟨ih_nx ?_ ?_, ih_ch ?_ ?_, ?_, ?_⟩
    · intro n h
      exact hn n (by simp only [nodes, List.mem_cons, List.mem_append]; exact Or.inr (Or.inr h))
    · intro c h
      exact hkeys c (by simp only [siblings, List.map_cons, List.mem_cons]; exact Or.inr h)
    · intro n h
      exact hn n (by simp only [nodes, List.mem_cons, List.mem_append]; exact Or.inr (Or.inl h))
    · intro c h
      obtain ⟨-, key, hk, -⟩ := children_of_parsed src _ hhead.1 c h
      exact ⟨key, hk⟩
    · obtain ⟨key, hk⟩ := hkeys (node NULL ch t vs vn s) (by simp [siblings, set_next])
      simp only [get_string] at hk
      refine ⟨key, hk, ?_⟩
      have := hhead.2.2
      simp only [get_string, hk, Option.getD_some] at this
      exact this
    · exact printable_of_parsed src _ hhead.1 hhead.2

/-- C22 as amended: the round trip for trees in which the printer escapes
nothing.  When `json_parse` succeeds on a text and no String value and no
member name of the tree holds a backslash, a solidus or a control character
below 0x20 (a double quote never occurs in one), parsing the compact output
of the printer succeeds and returns the same tree: same types, same values,
same children in the same order, same member names. -/
theorem json_print_round_trip (t : List Char) (hok : json_parse (some t) ≠ NULL)
    (hclean : ∀ n ∈ nodes (json_parse (some t)), unescaped_node n) :
    json_parse (some (json_print (json_parse (some t)))) ≠ NULL ∧
    json_parse (some (json_print (json_parse (some t)))) = json_parse (some t) := by
  obtain ⟨res, hres, hjp⟩ := json_parse_total t
  obtain ⟨hnodes, hstr⟩ := parse_value_nodes t _ t res List.suffix_rfl hres
  have hnext := parse_value_next_NULL _ _ res.1 res.2 hres
  rw [hjp] at hok hclean ⊢
  cases hr : res.1 with
  | NULL => exact absurd hr hok
  | node nx ch ty vs vn s =>
    rw [hr] at hnodes hstr hnext hclean
    simp only [get_next] at hnext
    simp only [get_string] at hstr
    subst hnext hstr
    have hall : ∀ n ∈ nodes (node NULL ch ty vs vn none),
        parsed_node t n ∧ unescaped_node n :=
      fun n h => ⟨hnodes n h, hclean n h⟩
    have hroot := hall (node NULL ch ty vs vn none) (by simp [nodes])
    have hv := printable_of_parsed t _ hroot.1 hroot.2
    simp only [get_child, get_type, get_valuestring, get_valuenumber] at hv
    have hch : printable_chain ch := by
      apply chain_of_nodes t ch
      · intro n h
        exact hall n (by simp only [nodes, List.mem_cons, List.mem_append]; exact Or.inr (Or.inl h))
      · intro c h
        obtain ⟨-, key, hk, -⟩ := children_of_parsed t _ hroot.1 c h
        exact ⟨key, hk⟩
    have hparse := (print_parse (node NULL ch ty vs vn none)).1 NULL ch ty vs vn none rfl hch hv
      ((print_aux (node NULL ch ty vs vn none)).1.length + 1) [] (Nat.le_refl _)
      (by decide) (by decide)
    rw [List.append_nil] at hparse
    have hjson : json_parse (some (json_print (node NULL ch ty vs vn none))) =
        node NULL ch ty vs vn none := by
      simp only [json_parse, json_print, hparse]
    rw [hjson]
    exact ⟨by simp, rfl⟩

/-- Witness for C22 as amended: the tree of `{"a":1.50,"b":{"c":"x","d":-12},"e":true}`
is printed as `{"a":1.5,"b":{"c":"x","d":-12},"e":true}` and parsed to the same
tree. -/
theorem json_print_round_trip_witness :
    json_parse (some (json_print (json_parse (some
      "\x7b\"a\":1.50,\"b\":\x7b\"c\":\"x\",\"d\":-12\x7d,\"e\":true\x7d".toList)))) =
    json_parse (some
      "\x7b\"a\":1.50,\"b\":\x7b\"c\":\"x\",\"d\":-12\x7d,\"e\":true\x7d".toList) :=
  (json_print_round_trip
    "\x7b\"a\":1.50,\"b\":\x7b\"c\":\"x\",\"d\":-12\x7d,\"e\":true\x7d".toList
    (by decide) (by decide)).2

/-- Counterexample to C22: the text `"a\b"` with one backslash between `a`
and `b` parses to the String of the three characters `a`, backslash, `b`; the
printer writes the backslash as the escape `\\`, and `parse_string`, which
decodes no escape, reads that output as a String of four characters, a
different tree. -/
theorem json_print_backslash_not_restored :
    json_parse (some ['"', 'a', '\\', 'b', '"']) =
      node NULL NULL JSON_STRING (some ['a', '\\', 'b']) 0 none ∧
    json_print (json_parse (some ['"', 'a', '\\', 'b', '"'])) =
      ['"', 'a', '\\', '\\', 'b', '"'] ∧
    json_parse (some (json_print (json_parse (some ['"', 'a', '\\', 'b', '"'])))) =
      node NULL NULL JSON_STRING (some ['a', '\\', '\\', 'b']) 0 none ∧
    json_parse (some (json_print (json_parse (some ['"', 'a', '\\', 'b', '"'])))) ≠
      json_parse (some ['"', 'a', '\\', 'b', '"']) := by
  decide

end CJson
